import Mathlib

/-!
# llvm-sample: tokenizer and precedence-climbing parser

A shallow embedding of `src/lexer.cpp` and `src/parser.cpp`.

* Characters are bytes (`Nat`), `int` values (`lastChar`, `currentToken`) are `Int`.
* All the file-scope and function-scope statics of the two translation units are the
  fields of one `State` record that every function threads through.
* `lexer.h` declares `static std::string IdentifierStr` and `static double NumVal`
  at namespace scope. A `static` namespace-scope variable has internal linkage, so
  `lexer.cpp` and `parser.cpp` each get their own object: the record carries both
  copies, the tokenizer writes the first pair, the parser reads the second pair.
* Recursive functions take a `fuel` argument bounding the call depth; `Outcome.outOfFuel`
  is the answer of a call that was not given enough.
-/

namespace LlvmSample

/-! ## token.h -/

namespace Token

/-- Enumerator `Token::eof = -1`. -/
def eof : Int := -1
/-- Enumerator `Token::def = -2`. -/
def def_ : Int := -2
/-- Enumerator `Token::ext = -3`. -/
def ext : Int := -3
/-- Enumerator `Token::identifier = -4`. -/
def identifier : Int := -4
/-- Enumerator `Token::number = -5`. -/
def number : Int := -5

end Token

/-! ## C library -/

/-- The value `EOF` returned by `getchar` at end of input. -/
def EOF : Int := -1

/-- The C function `isspace` in the "C" locale: space, `\t`, `\n`, `\v`, `\f`, `\r`. -/
def isspace (c : Int) : Bool := c == 32 || (9 ≤ c && c ≤ 13)

/-- The C function `isdigit`: `'0'..'9'`. -/
def isdigit (c : Int) : Bool := 48 ≤ c && c ≤ 57

/-- The C function `isalpha` in the "C" locale: `'A'..'Z'` and `'a'..'z'`. -/
def isalpha (c : Int) : Bool := (65 ≤ c && c ≤ 90) || (97 ≤ c && c ≤ 122)

/-- The C function `isalnum`: `isalpha` or `isdigit`. -/
def isalnum (c : Int) : Bool := isalpha c || isdigit c

/-- The C function `isascii`: no bit above the low seven is set. -/
def isascii (c : Int) : Bool := 0 ≤ c && c ≤ 127

/-- The bytes of a string literal. -/
def bytes (s : String) : List Nat := s.data.map Char.toNat

/-- A decimal value `mant / 10 ^ scale`: the number a digit string denotes, before
`strtod` rounds it to a `double`. -/
structure Dec where
  mant : Nat
  scale : Nat
deriving DecidableEq, Repr

/-- The digits of a decimal numeral, most significant first, as a number. -/
def digitsValue (ds : List Nat) : Nat := ds.foldl (fun acc d => 10 * acc + (d - 48)) 0

/-- The C function `strtod(numStr, nullptr)` on a string of digits and dots: the longest prefix of the
form `digits [. digits]` with at least one digit is converted, and the result is `0`
when there is no such prefix. -/
def strtod (numStr : List Nat) : Dec :=
  let ip := numStr.takeWhile (fun (b : Nat) => isdigit (b : Int))
  let rest := numStr.dropWhile (fun (b : Nat) => isdigit (b : Int))
  match rest with
  | 46 :: more =>
    let fp := more.takeWhile (fun (b : Nat) => isdigit (b : Int))
    ⟨digitsValue (ip ++ fp), fp.length⟩
  | _ => ⟨digitsValue ip, 0⟩

/-! ## Program state -/

/-- Every static object of `lexer.cpp` and `parser.cpp`, the unread part of standard
input and what has been written to standard error. -/
structure State where
  /-- the bytes of standard input not read yet -/
  stdin : List Nat
  /-- the `static int lastChar` of `Lexer::getToken`, initially `' '` -/
  lastChar : Int
  /-- the `Lexer::IdentifierStr` as seen in `lexer.cpp` -/
  lexerIdentifierStr : List Nat
  /-- the `Lexer::NumVal` as seen in `lexer.cpp` -/
  lexerNumVal : Dec
  /-- the `Lexer::IdentifierStr` as seen in `parser.cpp` -/
  IdentifierStr : List Nat
  /-- the `Lexer::NumVal` as seen in `parser.cpp` -/
  NumVal : Dec
  /-- the `static int currentToken` of `parser.cpp` -/
  currentToken : Int
  /-- the `static std::map<char, int> binaryOperatorsPrecedence`, as key/value pairs -/
  binaryOperatorsPrecedence : List (Int × Int)
  /-- the pieces of text written to standard error, oldest first -/
  stderr : List String
deriving DecidableEq, Repr

/-- The state at program start reading `input`: every static is zero-initialised
except `lastChar`, which starts as a space. -/
def State.start (input : List Nat) : State :=
  { stdin := input, lastChar := 32, lexerIdentifierStr := [], lexerNumVal := ⟨0, 0⟩,
    IdentifierStr := [], NumVal := ⟨0, 0⟩, currentToken := 0,
    binaryOperatorsPrecedence := [], stderr := [] }

/-! ## lexer.cpp -/

/-- One `lastChar = getchar()`: the next byte, or `EOF` when none is left. -/
def getchar (s : State) : State :=
  match s.stdin with
  | [] => { s with lastChar := EOF }
  | b :: rest => { s with lastChar := (b : Int), stdin := rest }

/-- A loop `do c = getchar(); while (p c)` over the input `inp`: the bytes read for which
`p` held, the first character read for which it did not (`EOF` at end of input), and
the input left. -/
def readWhile (p : Int → Bool) : List Nat → List Nat × Int × List Nat
  | [] => ([], EOF, [])
  | b :: rest =>
    if p (b : Int) then
      let r := readWhile p rest
      (b :: r.1, r.2.1, r.2.2)
    else ([], (b : Int), rest)

/-- The condition of the comment loop: `lastChar != EOF && lastChar != '\n' && lastChar != '\r'`. -/
def inComment (c : Int) : Bool := c != EOF && c != 10 && c != 13

/-- The condition of the number loop: `isdigit(lastChar) || lastChar == '.'`. -/
def isNumChar (c : Int) : Bool := isdigit c || c == 46

/-- The loop `while (isspace(lastChar)) lastChar = getchar();` -/
def skipWhitespace (s : State) : State :=
  if isspace s.lastChar then
    let r := readWhile isspace s.stdin
    { s with lastChar := r.2.1, stdin := r.2.2 }
  else s

/-- The end of `getToken`: `Token::eof` at end of input without reading further,
otherwise the character itself, reading one character ahead. -/
def getTokenChar (s : State) : Int × State :=
  if s.lastChar = EOF then (Token.eof, s)
  else (s.lastChar, getchar s)

/-- The function `Lexer::getToken`, with `fuel` bounding the depth of the recursion after a comment. -/
def getTokenFuel : Nat → State → Option (Int × State)
  | 0, _ => none
  | fuel + 1, s0 =>
    let s := skipWhitespace s0
    if isalpha s.lastChar then
      let r := readWhile isalnum s.stdin
      let ident := s.lastChar.toNat :: r.1
      let s1 := { s with lexerIdentifierStr := ident, lastChar := r.2.1, stdin := r.2.2 }
      if ident = bytes "def" then some (Token.def_, s1)
      else if ident = bytes "extern" then some (Token.ext, s1)
      else some (Token.identifier, s1)
    else if isNumChar s.lastChar then
      let r := readWhile isNumChar s.stdin
      let numStr := s.lastChar.toNat :: r.1
      some (Token.number,
        { s with lexerNumVal := strtod numStr, lastChar := r.2.1, stdin := r.2.2 })
    else if s.lastChar = 35 then
      let r := readWhile inComment s.stdin
      let s1 := { s with lastChar := r.2.1, stdin := r.2.2 }
      if s1.lastChar ≠ EOF then getTokenFuel fuel s1
      else some (getTokenChar s1)
    else some (getTokenChar s)

/-- The function `Lexer::getToken`: the recursion after a comment is on a strictly shorter input, so
a depth of one more than the number of unread bytes is never exceeded
(`getTokenFuel_isSome`). -/
def getToken (s : State) : Int × State :=
  (getTokenFuel (s.stdin.length + 1) s).getD (Token.eof, s)

/-! ## ast.h -/

/-- Modelled from the spec: `ast.h` is not among the sources. The four expression node
classes the parser constructs, with the constructor arguments `parser.cpp` passes:
a number literal, a variable reference, a binary operator with its two operands, and a
call with its callee name and arguments in order. -/
inductive ExprAST where
  | NumberExprAST (Val : Dec)
  | VariableExprAST (Name : List Nat)
  | BinaryExprAST (Op : Int) (LHS RHS : ExprAST)
  | CallExprAST (Callee : List Nat) (Args : List ExprAST)
deriving Repr

/-- Modelled from the spec: `ast.h` is not among the sources. A function name and its
parameter names in order. -/
structure PrototypeAST where
  Name : List Nat
  Args : List (List Nat)
deriving DecidableEq, Repr

/-- Modelled from the spec: `ast.h` is not among the sources. A prototype and the one
expression that is the body. -/
structure FunctionAST where
  Proto : PrototypeAST
  Body : ExprAST
deriving Repr

/-! ## parser.cpp -/

/-- What a call of a parser function gives: it returned `result` (`none` is `nullptr`)
leaving the statics in state `s`, or the call depth allowed was not enough. -/
inductive Outcome (α : Type) where
  | returned (result : Option α) (s : State)
  | outOfFuel
deriving Repr

/-- The function `getNextToken`: `return currentToken = Lexer::getToken();` -/
def getNextToken (s : State) : State :=
  let r := getToken s
  { r.2 with currentToken := r.1 }

/-- The operator `std::map::operator[]`: the value stored under `k`; a key that is absent is first
inserted with the value `0`. -/
def mapIndex (m : List (Int × Int)) (k : Int) : Int × List (Int × Int) :=
  match m.lookup k with
  | some v => (v, m)
  | none => (0, m ++ [(k, 0)])

/-- The assignment `m[k] = v`: the entry of `k` is replaced, or added. -/
def mapAssign (m : List (Int × Int)) (k v : Int) : List (Int × Int) :=
  m.filter (fun e => e.1 != k) ++ [(k, v)]

/-- The function `getTokenPrecedence`: `-1` for a token that is not ASCII or whose table entry is not
positive, the table entry otherwise. -/
def getTokenPrecedence (s : State) : Int × State :=
  if !isascii s.currentToken then (-1, s)
  else
    let r := mapIndex s.binaryOperatorsPrecedence s.currentToken
    let s1 := { s with binaryOperatorsPrecedence := r.2 }
    if r.1 ≤ 0 then (-1, s1) else (r.1, s1)

/-- The function `logError`: writes the message to standard error and returns `nullptr`. -/
def logError {α : Type} (Str : String) (s : State) : Outcome α :=
  .returned none { s with stderr := s.stderr ++ ["Error: " ++ Str ++ "\n"] }

/-- The function `logErrorP`: `logError` for prototypes. -/
def logErrorP (Str : String) (s : State) : Outcome PrototypeAST :=
  logError Str s

/-- The function `parseNumberExpr`: a number node holding `Lexer::NumVal`, then the number is consumed. -/
def parseNumberExpr (s : State) : Outcome ExprAST :=
  let Result := ExprAST.NumberExprAST s.NumVal
  .returned (some Result) (getNextToken s)

mutual

/-- The function `parseParenExpr`: `'(' expression ')'`. -/
def parseParenExpr : Nat → State → Outcome ExprAST
  | 0, _ => .outOfFuel
  | fuel + 1, s =>
    match parseExpression fuel (getNextToken s) with
    | .outOfFuel => .outOfFuel
    | .returned none s1 => .returned none s1
    | .returned (some V) s1 =>
      if s1.currentToken ≠ 41 then logError "expected ')'" s1
      else .returned (some V) (getNextToken s1)

/-- The `while (true)` loop of `parseIdentifierExpr` that collects the arguments of a
call into `Args`; it returns the arguments once `)` is current. -/
def parseCallArgs : Nat → List ExprAST → State → Outcome (List ExprAST)
  | 0, _, _ => .outOfFuel
  | fuel + 1, Args, s =>
    match parseExpression fuel s with
    | .outOfFuel => .outOfFuel
    | .returned none s1 => .returned none s1
    | .returned (some Arg) s1 =>
      if s1.currentToken = 41 then .returned (some (Args ++ [Arg])) s1
      else if s1.currentToken ≠ 44 then
        logError "Expected ')' or ',' in argument list" s1
      else parseCallArgs fuel (Args ++ [Arg]) (getNextToken s1)

/-- The function `parseIdentifierExpr`: a variable reference, or a call when `(` follows the name. -/
def parseIdentifierExpr : Nat → State → Outcome ExprAST
  | 0, _ => .outOfFuel
  | fuel + 1, s =>
    let IdName := s.IdentifierStr
    let s1 := getNextToken s
    if s1.currentToken ≠ 40 then .returned (some (.VariableExprAST IdName)) s1
    else
      let s2 := getNextToken s1
      if s2.currentToken ≠ 41 then
        match parseCallArgs fuel [] s2 with
        | .outOfFuel => .outOfFuel
        | .returned none s3 => .returned none s3
        | .returned (some Args) s3 =>
          .returned (some (.CallExprAST IdName Args)) (getNextToken s3)
      else .returned (some (.CallExprAST IdName [])) (getNextToken s2)

/-- The function `parsePrimary`: dispatch on the current token. -/
def parsePrimary : Nat → State → Outcome ExprAST
  | 0, _ => .outOfFuel
  | fuel + 1, s =>
    if s.currentToken = Token.identifier then parseIdentifierExpr fuel s
    else if s.currentToken = Token.number then parseNumberExpr s
    else if s.currentToken = 40 then parseParenExpr fuel s
    else logError "unknown token when expecting an expression" s

/-- The function `parseBinOpRHS`: the precedence-climbing loop; each turn of `while (true)` is one
recursive call. -/
def parseBinOpRHS : Nat → Int → ExprAST → State → Outcome ExprAST
  | 0, _, _, _ => .outOfFuel
  | fuel + 1, exprPrec, lhs, s =>
    let tp := getTokenPrecedence s
    let TokPrec := tp.1
    if TokPrec < exprPrec then .returned (some lhs) tp.2
    else
      let binOp := tp.2.currentToken
      match parsePrimary fuel (getNextToken tp.2) with
      | .outOfFuel => .outOfFuel
      | .returned none s1 => .returned none s1
      | .returned (some rhs) s1 =>
        let np := getTokenPrecedence s1
        let NextPrec := np.1
        if TokPrec < NextPrec then
          match parseBinOpRHS fuel (TokPrec + 1) rhs np.2 with
          | .outOfFuel => .outOfFuel
          | .returned none s2 => .returned none s2
          | .returned (some rhs2) s2 =>
            parseBinOpRHS fuel exprPrec (.BinaryExprAST binOp lhs rhs2) s2
        else parseBinOpRHS fuel exprPrec (.BinaryExprAST binOp lhs rhs) np.2

/-- The function `parseExpression`: a primary, then the binary operators that follow it. -/
def parseExpression : Nat → State → Outcome ExprAST
  | 0, _ => .outOfFuel
  | fuel + 1, s =>
    match parsePrimary fuel s with
    | .outOfFuel => .outOfFuel
    | .returned none s1 => .returned none s1
    | .returned (some lhs) s1 => parseBinOpRHS fuel 0 lhs s1

end

/-- The loop `while (getNextToken() == Token::identifier) ArgNames.push_back(IdentifierStr);`
of `parsePrototype`: it returns the names collected and stops on the first token that is
not an identifier. -/
def parsePrototypeArgs : Nat → List (List Nat) → State → Outcome (List (List Nat))
  | 0, _, _ => .outOfFuel
  | fuel + 1, ArgNames, s =>
    let s1 := getNextToken s
    if s1.currentToken = Token.identifier then
      parsePrototypeArgs fuel (ArgNames ++ [s1.IdentifierStr]) s1
    else .returned (some ArgNames) s1

/-- The function `parsePrototype`: `id '(' id* ')'`. -/
def parsePrototype (fuel : Nat) (s : State) : Outcome PrototypeAST :=
  if s.currentToken ≠ Token.identifier then
    logErrorP "Expected function name in prototype" s
  else
    let FnName := s.IdentifierStr
    let s1 := getNextToken s
    if s1.currentToken ≠ 40 then logErrorP "Expected '(' in prototype" s1
    else
      match parsePrototypeArgs fuel [] s1 with
      | .outOfFuel => .outOfFuel
      | .returned none s2 => .returned none s2
      | .returned (some ArgNames) s2 =>
        if s2.currentToken ≠ 41 then logErrorP "Expected ')' in prototype" s2
        else .returned (some ⟨FnName, ArgNames⟩) (getNextToken s2)

/-- The function `parseDefinition`: `'def' prototype expression`. -/
def parseDefinition (fuel : Nat) (s : State) : Outcome FunctionAST :=
  match parsePrototype fuel (getNextToken s) with
  | .outOfFuel => .outOfFuel
  | .returned none s1 => .returned none s1
  | .returned (some proto) s1 =>
    match parseExpression fuel s1 with
    | .outOfFuel => .outOfFuel
    | .returned none s2 => .returned none s2
    | .returned (some E) s2 => .returned (some ⟨proto, E⟩) s2

/-- The function `parseTopLevelExpr`: an expression wrapped as the body of the anonymous function
`__anon_expr` that has no parameters. -/
def parseTopLevelExpr (fuel : Nat) (s : State) : Outcome FunctionAST :=
  match parseExpression fuel s with
  | .outOfFuel => .outOfFuel
  | .returned none s1 => .returned none s1
  | .returned (some expr) s1 => .returned (some ⟨⟨bytes "__anon_expr", []⟩, expr⟩) s1

/-- The function `parseExtern` of the source: `'extern' prototype`. -/
def parseExtern (fuel : Nat) (s : State) : Outcome PrototypeAST :=
  parsePrototype fuel (getNextToken s)

/-- The call `fprintf(stderr, text)`. -/
def eprint (text : String) (s : State) : State :=
  { s with stderr := s.stderr ++ [text] }

/-- The function `handleDefinition`: report a parsed definition, or skip one token after a failure. -/
def handleDefinition (fuel : Nat) (s : State) : Option State :=
  match parseDefinition fuel s with
  | .outOfFuel => none
  | .returned (some _) s1 => some (eprint "Parsed a function definition.\n" s1)
  | .returned none s1 => some (getNextToken s1)

/-- The function `handleExtern` of the source: report a parsed declaration, or skip
one token after a failure. -/
def handleExtern (fuel : Nat) (s : State) : Option State :=
  match parseExtern fuel s with
  | .outOfFuel => none
  | .returned (some _) s1 => some (eprint "Parsed an extern\n" s1)
  | .returned none s1 => some (getNextToken s1)

/-- The function `handleTopLevelExpression`: report a parsed top-level expression, or skip one token
after a failure. -/
def handleTopLevelExpression (fuel : Nat) (s : State) : Option State :=
  match parseTopLevelExpr fuel s with
  | .outOfFuel => none
  | .returned (some _) s1 => some (eprint "Parsed a top-level expr\n" s1)
  | .returned none s1 => some (getNextToken s1)

/-- One turn of the `while (true)` of `mainLoop` when the current token is not
`Token::eof`: the `switch` on the current token. -/
def dispatch (fuel : Nat) (s : State) : Option State :=
  if s.currentToken = 59 then some (getNextToken s)
  else if s.currentToken = Token.def_ then handleDefinition fuel s
  else if s.currentToken = Token.ext then handleExtern fuel s
  else handleTopLevelExpression fuel s

/-- The function `mainLoop`: prompt, return on `Token::eof`, otherwise dispatch and go round again;
each turn of the loop is one recursive call. -/
def mainLoop : Nat → State → Option State
  | 0, _ => none
  | fuel + 1, s =>
    let s1 := eprint "ready> " s
    if s1.currentToken = Token.eof then some s1
    else
      match dispatch fuel s1 with
      | none => none
      | some s2 => mainLoop fuel s2

/-- The four assignments at the head of `Parser::Parse`: `<` gets 10, `+` and `-` get 20,
`*` gets 40. -/
def installOperators (s : State) : State :=
  let m1 := mapAssign s.binaryOperatorsPrecedence 60 10
  let m2 := mapAssign m1 43 20
  let m3 := mapAssign m2 45 20
  let m4 := mapAssign m3 42 40
  { s with binaryOperatorsPrecedence := m4 }

/-- The function `Parser::Parse`: install the four binary operators, read the first token, run the
main loop. -/
def Parse (fuel : Nat) (s : State) : Option State :=
  mainLoop fuel (getNextToken (installOperators s))

/-- The state in which the parser functions are tried on `input` by themselves: the
program start, the operators installed and the first token read, as `Parser::Parse`
does before it enters the main loop. -/
def State.ready (input : List Nat) : State :=
  getNextToken (installOperators (State.start input))

/-! ## Definitions used to state the properties -/

/-- The value a call returned: `none` when it ran out of fuel. -/
def Outcome.result {α : Type} : Outcome α → Option (Option α)
  | .returned r _ => some r
  | .outOfFuel => none

/-- The state a call left: `none` when it ran out of fuel. -/
def Outcome.state {α : Type} : Outcome α → Option State
  | .returned _ s => some s
  | .outOfFuel => none

/-- The number of characters the tokenizer has still to look at: the unread input and
the lookahead character, unless that is `EOF`. -/
def pending (s : State) : Nat :=
  s.stdin.length + (if s.lastChar = EOF then 0 else 1)

/-- The amount of input still in front of the parser: two for each character the tokenizer
has still to look at, and one for a current token that is not `Token::eof`. -/
def unread (s : State) : Nat :=
  2 * pending s + (if s.currentToken = Token.eof then 0 else 1)

/-- The tokens given by `n` calls of `getToken` in a row, starting in state `s`. -/
def tokenStream : Nat → State → List Int
  | 0, _ => []
  | n + 1, s => (getToken s).1 :: tokenStream n (getToken s).2

/-- Whether the input is made of whitespace and comments only; `inside` tells whether
the scan is inside a comment, which runs from `#` to the next `\n` or `\r`, or to
the end of the input. -/
def onlyBlank : Bool → List Nat → Bool
  | _, [] => true
  | true, b :: rest => if b = 10 ∨ b = 13 then onlyBlank false rest else onlyBlank true rest
  | false, b :: rest =>
    if isspace (b : Int) then onlyBlank false rest
    else if b = 35 then onlyBlank true rest
    else false

/-- From `s` to `s1` the parser did not go back in the input, and it either went
forward or still has the same current token. -/
def Advances (s s1 : State) : Prop :=
  unread s1 ≤ unread s ∧ (unread s1 < unread s ∨ s1.currentToken = s.currentToken)

/-- The value the installed table holds for a key: 10 for `<`, 20 for `+` and `-`, 40 for
`*`, and 0 (the value `operator[]` gives an absent key) for every other key. -/
def tableValue (k : Int) : Int :=
  if k = 60 then 10 else if k = 43 then 20 else if k = 45 then 20 else if k = 42 then 40
  else 0

/-- The precedence of a token under the installed table: 10 for `<`, 20 for `+` and `-`,
40 for `*`, and -1 for every other token. -/
def tablePrecedence (t : Int) : Int :=
  if t = 60 then 10 else if t = 43 then 20 else if t = 45 then 20 else if t = 42 then 40
  else -1

/-- What a lookup in the map reads for `k`: the value stored, or 0 for an absent key. -/
def mapValue (m : List (Int × Int)) (k : Int) : Int :=
  (m.lookup k).getD 0

/-- The map reads as the installed table for every key. -/
def TableOK (m : List (Int × Int)) : Prop :=
  ∀ k, mapValue m k = tableValue k

/-- The state after `getTokenPrecedence` has been called with each of the tokens `ts`
current, one after the other. -/
def lookups : List Int → State → State
  | [], s => s
  | t :: ts, s => lookups ts (getTokenPrecedence { s with currentToken := t }).2

/-- The state after `n` calls of `getNextToken`. -/
def advance : Nat → State → State
  | 0, s => s
  | n + 1, s => advance n (getNextToken s)

/-- The tokens from the current one on are an identifier, `(`, then `k` identifiers,
then `)`. -/
def PrototypeShape (s : State) (k : Nat) : Prop :=
  s.currentToken = Token.identifier ∧ (advance 1 s).currentToken = 40 ∧
  (∀ i, i < k → (advance (2 + i) s).currentToken = Token.identifier) ∧
  (advance (2 + k) s).currentToken = 41

/-- The character a read finds first in the input `l`: its first byte, or `EOF`. -/
def nextChar : List Nat → Int
  | [] => EOF
  | b :: _ => (b : Int)

/-- The token `getToken` gives for the identifier text `ident`: the keyword tokens for
`def` and `extern`, the identifier token for every other text. -/
def identifierToken (ident : List Nat) : Int :=
  if ident = bytes "def" then Token.def_
  else if ident = bytes "extern" then Token.ext
  else Token.identifier

/-- The tokens given by `n` calls of `getToken` in a row from `s`, each with the identifier
text and the numeric value the tokenizer holds after the call. -/
def lexStream : Nat → State → List (Int × List Nat × Dec)
  | 0, _ => []
  | n + 1, s =>
    ((getToken s).1, (getToken s).2.lexerIdentifierStr, (getToken s).2.lexerNumVal)
      :: lexStream n (getToken s).2

/-- Two tokenizer states at matching places of two inputs that differ only in that the
first has a comment `#` `c` in front of a line end after which both go on with `s2`:
both still have the same characters `l` to read before that place; or the first stands
on the `#` and the second on the line end, perhaps with the whitespace from there on
skipped; or both are past it and equal. -/
def CommentRel (c s2 : List Nat) (sA sB : State) : Prop :=
  (∃ l, sA.stdin = l ++ 35 :: (c ++ 10 :: s2) ∧ sB = { sA with stdin := l ++ 10 :: s2 }) ∨
  (sA.lastChar = 35 ∧ sA.stdin = c ++ 10 :: s2 ∧
    skipWhitespace sB = skipWhitespace { sA with lastChar := 10, stdin := s2 }) ∨
  sA = sB

/-- The state `s` with the precedence map replaced by `m`. -/
def setMap (s : State) (m : List (Int × Int)) : State :=
  { s with binaryOperatorsPrecedence := m }

/-- The first `n` tokens of the parser's input from state `s`: the current token, then
the tokens that `n - 1` calls of `getNextToken` make current. -/
def toks : Nat → State → List Int
  | 0, _ => []
  | n + 1, s => s.currentToken :: toks n (getNextToken s)

/-- From `s` the parser consumed exactly `k` tokens to reach `s1`: the state `s1` is `s`
after `k` calls of `getNextToken`, apart from the zero entries that lookups added to the
precedence map. -/
def Consumed (k : Nat) (s s1 : State) : Prop :=
  s1 = setMap (advance k s) s1.binaryOperatorsPrecedence

/-- An entry of the in-order traversal of a tree: an operand, which is a node that is not
a binary operator node, or the operator character of a binary node. -/
inductive Item where
  | operand (E : ExprAST)
  | operator (op : Int)

/-- The in-order traversal of a tree: left operand, operator, right operand. -/
def inorder : ExprAST → List Item
  | .BinaryExprAST op L R => inorder L ++ Item.operator op :: inorder R
  | .NumberExprAST v => [Item.operand (.NumberExprAST v)]
  | .VariableExprAST n => [Item.operand (.VariableExprAST n)]
  | .CallExprAST n a => [Item.operand (.CallExprAST n a)]

/-- The node `parsePrimary` builds in state `s` for an operand token of kind `k`: a number
node for a number token, a variable node for an identifier token. -/
def operandNode (s : State) (k : Int) : ExprAST :=
  if k = Token.number then .NumberExprAST s.NumVal else .VariableExprAST s.IdentifierStr

/-- The tokens of a list of (operator, operand) pairs, in order. -/
def flat : List (Int × Int) → List Int
  | [] => []
  | q :: rest => q.1 :: q.2 :: flat rest

/-- The traversal entries of a list of (operator, operand) pairs, in order. -/
def items (s : State) : List (Int × Int) → List Item
  | [] => []
  | q :: rest => Item.operator q.1 :: Item.operand (operandNode s q.2) :: items s rest

mutual

/-- The tokens `ts` are the text of an expression whose tree is `E`: a number or an
identifier token for a leaf, the tokens of the operands around a registered operator for
a binary node, an identifier followed by the parenthesised, comma-separated texts of the
arguments for a call, and any such text between `(` and `)` for the same tree. -/
inductive Forms : List Int → ExprAST → Prop
  | number (v : Dec) : Forms [Token.number] (.NumberExprAST v)
  | variable (n : List Nat) : Forms [Token.identifier] (.VariableExprAST n)
  | paren {ts : List Int} {E : ExprAST} : Forms ts E → Forms (40 :: (ts ++ [41])) E
  | binary {tl tr : List Int} {op : Int} {L R : ExprAST} :
      0 < tablePrecedence op → Forms tl L → Forms tr R →
      Forms (tl ++ op :: tr) (.BinaryExprAST op L R)
  | call0 (n : List Nat) : Forms [Token.identifier, 40, 41] (.CallExprAST n [])
  | call (n : List Nat) {ts : List Int} {Args : List ExprAST} :
      FormsArgs ts Args → Forms (Token.identifier :: 40 :: (ts ++ [41])) (.CallExprAST n Args)

/-- The tokens `ts` are the texts of the expressions with trees `Args`, one or more,
separated by commas. -/
inductive FormsArgs : List Int → List ExprAST → Prop
  | one {ts : List Int} {E : ExprAST} : Forms ts E → FormsArgs ts [E]
  | cons {t ts : List Int} {E : ExprAST} {As : List ExprAST} :
      Forms t E → FormsArgs ts As → FormsArgs (t ++ 44 :: ts) (E :: As)

end

/-- The token that is current after `k` calls of `getNextToken` from `s`. -/
def look (k : Nat) (s : State) : Int :=
  (advance k s).currentToken

/-- The token cannot start a primary expression: it is not an identifier, not a number
and not `(`. -/
def NoPrimary (t : Int) : Prop :=
  t ≠ Token.identifier ∧ t ≠ Token.number ∧ t ≠ 40

/-- The run from `sB` may stand in for the run from `sA`: the parser reads the same
`IdentifierStr` and `NumVal` in both, and the table of `sB` is the installed one. -/
def SameParser (sA sB : State) : Prop :=
  sB.IdentifierStr = sA.IdentifierStr ∧ sB.NumVal = sA.NumVal ∧
    TableOK sB.binaryOperatorsPrecedence

/-- After `k` tokens the input of `sB` either shows the same token as the input of `sA`,
or a registered operator followed by a token that cannot start a primary. -/
def Lookahead (k : Nat) (sA sB : State) : Prop :=
  look k sB = look k sA ∨ (0 < tablePrecedence (look k sB) ∧ NoPrimary (look (k + 1) sB))

/-- Over the first `k` tokens the input of `sB` is the input of `sA`, and after them it
either goes on as the input of `sA` does, or with a registered operator and then a token
that cannot start a primary. -/
def Agree (k : Nat) (sA sB : State) : Prop :=
  toks k sB = toks k sA ∧ Lookahead k sA sB

/-- The call with outcome `r`, started in `s`, returned the value `a` after it had
consumed `k` tokens, and it left the installed table. -/
def Returns {α : Type} (r : Outcome α) (k : Nat) (s : State) (a : α) : Prop :=
  ∃ s1, r = .returned (some a) s1 ∧ Consumed k s s1 ∧ TableOK s1.binaryOperatorsPrecedence

/-- The call with outcome `r`, started in `s`, returned `nullptr`, and the one line it
wrote is the diagnostic of the `default` case of `parsePrimary`. -/
def FailsUnknown {α : Type} (r : Outcome α) (s : State) : Prop :=
  ∃ s1, r = .returned none s1 ∧
    s1.stderr = s.stderr ++ ["Error: unknown token when expecting an expression\n"]

/-- A call of one of the functions of the expression parser, with its arguments. -/
inductive Call where
  | parenExpr (fuel : Nat) (s : State)
  | callArgs (fuel : Nat) (Args : List ExprAST) (s : State)
  | identifierExpr (fuel : Nat) (s : State)
  | primary (fuel : Nat) (s : State)
  | binOpRHS (fuel : Nat) (exprPrec : Int) (lhs : ExprAST) (s : State)
  | expression (fuel : Nat) (s : State)

/-- The call returned `nullptr`, in the state `s1`. -/
def Call.returnsNull : Call → State → Prop
  | .parenExpr fuel s, s1 => parseParenExpr fuel s = .returned none s1
  | .callArgs fuel Args s, s1 => parseCallArgs fuel Args s = .returned none s1
  | .identifierExpr fuel s, s1 => parseIdentifierExpr fuel s = .returned none s1
  | .primary fuel s, s1 => parsePrimary fuel s = .returned none s1
  | .binOpRHS fuel exprPrec lhs s, s1 => parseBinOpRHS fuel exprPrec lhs s = .returned none s1
  | .expression fuel s, s1 => parseExpression fuel s = .returned none s1

/-- The call on the left makes the call on the right in its body: `parseParenExpr` parses
the inside of the parentheses; the argument loop parses an argument and, after a comma,
takes its next turn; `parseIdentifierExpr` runs the argument loop after `(`;
`parsePrimary` hands over to `parseIdentifierExpr` or `parseParenExpr`; `parseBinOpRHS`
parses the operand after an operator, then the rest of a right operand that binds
tighter, then takes the next turn of its loop; `parseExpression` parses its first
operand and then the operators after it. -/
inductive Invokes : Call → Call → Prop
  | inside (fuel : Nat) (s : State) :
    Invokes (.parenExpr (fuel + 1) s) (.expression fuel (getNextToken s))
  | argument (fuel : Nat) (Args : List ExprAST) (s : State) :
    Invokes (.callArgs (fuel + 1) Args s) (.expression fuel s)
  | nextArgument (fuel : Nat) (Args : List ExprAST) (s : State) (Arg : ExprAST) (s1 : State) :
    parseExpression fuel s = .returned (some Arg) s1 → s1.currentToken = 44 →
    Invokes (.callArgs (fuel + 1) Args s) (.callArgs fuel (Args ++ [Arg]) (getNextToken s1))
  | arguments (fuel : Nat) (s : State) :
    (getNextToken s).currentToken = 40 → (getNextToken (getNextToken s)).currentToken ≠ 41 →
    Invokes (.identifierExpr (fuel + 1) s)
      (.callArgs fuel [] (getNextToken (getNextToken s)))
  | identifier (fuel : Nat) (s : State) : s.currentToken = Token.identifier →
    Invokes (.primary (fuel + 1) s) (.identifierExpr fuel s)
  | parenthesis (fuel : Nat) (s : State) : s.currentToken = 40 →
    Invokes (.primary (fuel + 1) s) (.parenExpr fuel s)
  | operand (fuel : Nat) (exprPrec : Int) (lhs : ExprAST) (s : State) :
    ¬ (getTokenPrecedence s).1 < exprPrec →
    Invokes (.binOpRHS (fuel + 1) exprPrec lhs s)
      (.primary fuel (getNextToken (getTokenPrecedence s).2))
  | rightOperand (fuel : Nat) (exprPrec : Int) (lhs : ExprAST) (s : State) (rhs : ExprAST)
      (s1 : State) :
    ¬ (getTokenPrecedence s).1 < exprPrec →
    parsePrimary fuel (getNextToken (getTokenPrecedence s).2) = .returned (some rhs) s1 →
    (getTokenPrecedence s).1 < (getTokenPrecedence s1).1 →
    Invokes (.binOpRHS (fuel + 1) exprPrec lhs s)
      (.binOpRHS fuel ((getTokenPrecedence s).1 + 1) rhs (getTokenPrecedence s1).2)
  | nextTurnAfterRight (fuel : Nat) (exprPrec : Int) (lhs : ExprAST) (s : State)
      (rhs : ExprAST) (s1 : State) (rhs2 : ExprAST) (s2 : State) :
    ¬ (getTokenPrecedence s).1 < exprPrec →
    parsePrimary fuel (getNextToken (getTokenPrecedence s).2) = .returned (some rhs) s1 →
    (getTokenPrecedence s).1 < (getTokenPrecedence s1).1 →
    parseBinOpRHS fuel ((getTokenPrecedence s).1 + 1) rhs (getTokenPrecedence s1).2
      = .returned (some rhs2) s2 →
    Invokes (.binOpRHS (fuel + 1) exprPrec lhs s)
      (.binOpRHS fuel exprPrec
        (.BinaryExprAST (getTokenPrecedence s).2.currentToken lhs rhs2) s2)
  | nextTurn (fuel : Nat) (exprPrec : Int) (lhs : ExprAST) (s : State) (rhs : ExprAST)
      (s1 : State) :
    ¬ (getTokenPrecedence s).1 < exprPrec →
    parsePrimary fuel (getNextToken (getTokenPrecedence s).2) = .returned (some rhs) s1 →
    ¬ (getTokenPrecedence s).1 < (getTokenPrecedence s1).1 →
    Invokes (.binOpRHS (fuel + 1) exprPrec lhs s)
      (.binOpRHS fuel exprPrec
        (.BinaryExprAST (getTokenPrecedence s).2.currentToken lhs rhs)
        (getTokenPrecedence s1).2)
  | first (fuel : Nat) (s : State) : Invokes (.expression (fuel + 1) s) (.primary fuel s)
  | operators (fuel : Nat) (s : State) (lhs : ExprAST) (s1 : State) :
    parsePrimary fuel s = .returned (some lhs) s1 →
    Invokes (.expression (fuel + 1) s) (.binOpRHS fuel 0 lhs s1)

/-! ## The tokenizer reads forward -/

theorem readWhile_pending (p : Int → Bool) (l : List Nat) :
    (readWhile p l).2.2.length + (if (readWhile p l).2.1 = EOF then 0 else 1) ≤ l.length := by
  induction l with
  | nil => simp [readWhile]
  | cons b rest ih =>
    by_cases hp : p (b : Int) = true
    · simp only [readWhile, hp, if_true, List.length_cons]
      omega
    · have hb : (b : Int) ≠ EOF := by
        simp only [EOF, ne_eq]
        omega
      simp [readWhile, hp, hb]

theorem isspace_ne_EOF {c : Int} (h : isspace c = true) : c ≠ EOF := by
  intro hc
  subst hc
  revert h
  decide

theorem isalpha_ne_EOF {c : Int} (h : isalpha c = true) : c ≠ EOF := by
  intro hc
  subst hc
  revert h
  decide

theorem isNumChar_ne_EOF {c : Int} (h : isNumChar c = true) : c ≠ EOF := by
  intro hc
  subst hc
  revert h
  decide

theorem pending_skipWhitespace (s : State) :
    pending (skipWhitespace s) ≤ pending s := by
  unfold skipWhitespace
  by_cases h : isspace s.lastChar = true
  · have h1 := readWhile_pending isspace s.stdin
    have h2 := isspace_ne_EOF h
    simp only [h, if_true, pending, h2, if_false]
    omega
  · simp [h]

theorem stdin_skipWhitespace (s : State) :
    (skipWhitespace s).stdin.length ≤ s.stdin.length := by
  unfold skipWhitespace
  by_cases h : isspace s.lastChar = true
  · have h1 := readWhile_pending isspace s.stdin
    simp only [h, if_true]
    omega
  · simp [h]

theorem pending_getchar (s : State) (h : s.lastChar ≠ EOF) :
    pending (getchar s) < pending s := by
  unfold getchar pending
  cases hs : s.stdin with
  | nil => simp [h]
  | cons b rest =>
    have hb : ((b : Int) = EOF) = False := by
      simp only [EOF, eq_iff_iff, iff_false]
      omega
    simp [h, hb]

theorem getTokenChar_pending (s : State) :
    pending (getTokenChar s).2 ≤ pending s ∧
      ((getTokenChar s).1 ≠ Token.eof → pending (getTokenChar s).2 < pending s) := by
  unfold getTokenChar
  by_cases h : s.lastChar = EOF
  · simp [h]
  · have := pending_getchar s h
    simp only [h, if_false]
    omega

/-- The recursion of `getToken` after a comment ends: a depth above the number of
unread bytes is enough. -/
theorem getTokenFuel_isSome (fuel : Nat) (s : State) (h : s.stdin.length < fuel) :
    (getTokenFuel fuel s).isSome = true := by
  induction fuel generalizing s with
  | zero => omega
  | succ fuel ih =>
    unfold getTokenFuel
    simp only []
    split
    · split
      · rfl
      · split <;> rfl
    · split
      · rfl
      · split
        · split
          · apply ih
            rename_i hne
            have h1 := readWhile_pending inComment (skipWhitespace s).stdin
            have h2 := stdin_skipWhitespace s
            simp only [ne_eq] at hne
            simp only [hne, if_false] at h1
            simp only []
            omega
          · rfl
        · rfl

/-- A call of `getToken` never puts characters back, and a token other than
`Token::eof` costs at least one character. -/
theorem getTokenFuel_pending (fuel : Nat) (s : State) (t : Int) (s1 : State)
    (h : getTokenFuel fuel s = some (t, s1)) :
    pending s1 ≤ pending s ∧ (t ≠ Token.eof → pending s1 < pending s) := by
  induction fuel generalizing s with
  | zero => simp [getTokenFuel] at h
  | succ fuel ih =>
    unfold getTokenFuel at h
    simp only [] at h
    have hw := pending_skipWhitespace s
    split at h
    · rename_i ha
      have hr := readWhile_pending isalnum (skipWhitespace s).stdin
      have hne := isalpha_ne_EOF ha
      have key : pending s1 < pending s := by
        split at h
        · cases h
          simp only [pending, hne, if_false] at hw ⊢
          omega
        · split at h <;>
          · cases h
            simp only [pending, hne, if_false] at hw ⊢
            omega
      omega
    · split at h
      · rename_i hn
        have hr := readWhile_pending isNumChar (skipWhitespace s).stdin
        have hne := isNumChar_ne_EOF hn
        cases h
        simp only [pending, hne, if_false] at hw ⊢
        omega
      · split at h
        · rename_i hc
          have hr := readWhile_pending inComment (skipWhitespace s).stdin
          have hne : (skipWhitespace s).lastChar ≠ EOF := by
            rw [hc]
            decide
          split at h
          · have := ih _ h
            simp only [pending, hne, if_false] at hw this ⊢
            omega
          · rename_i he
            simp only [ne_eq, not_not] at he
            have hg : getTokenChar { skipWhitespace s with
                lastChar := (readWhile inComment (skipWhitespace s).stdin).2.1,
                stdin := (readWhile inComment (skipWhitespace s).stdin).2.2 } = (t, s1) := by
              simpa using h
            simp only [getTokenChar, he, if_true] at hg
            cases hg
            simp only [pending, hne, if_false] at hw
            simp only [pending, he, if_true]
            refine ⟨by omega, fun ht => absurd rfl ht⟩
        · have hg : getTokenChar (skipWhitespace s) = (t, s1) := by simpa using h
          have := getTokenChar_pending (skipWhitespace s)
          rw [hg] at this
          simp only [] at this
          constructor
          · omega
          · intro ht
            have := this.2 ht
            omega

theorem getToken_eq (s : State) :
    getTokenFuel (s.stdin.length + 1) s = some (getToken s) := by
  have h := getTokenFuel_isSome (s.stdin.length + 1) s (Nat.lt_succ_self _)
  unfold getToken
  cases hg : getTokenFuel (s.stdin.length + 1) s with
  | none => rw [hg] at h; cases h
  | some r => rfl

theorem getToken_pending (s : State) :
    pending (getToken s).2 ≤ pending s ∧
      ((getToken s).1 ≠ Token.eof → pending (getToken s).2 < pending s) :=
  getTokenFuel_pending _ s _ _ (getToken_eq s)

theorem unread_getNextToken (s : State) :
    unread (getNextToken s) ≤ unread s ∧
      (unread (getNextToken s) < unread s ∨
        ((getNextToken s).currentToken = Token.eof ∧ s.currentToken = Token.eof)) := by
  have h1 := (getToken_pending s).1
  have h2 := (getToken_pending s).2
  have hc : (getNextToken s).currentToken = (getToken s).1 := rfl
  have hu : unread (getNextToken s) =
      2 * pending (getToken s).2 + (if (getToken s).1 = Token.eof then 0 else 1) := rfl
  have hs : unread s = 2 * pending s + (if s.currentToken = Token.eof then 0 else 1) := rfl
  rw [hu, hs, hc]
  by_cases ht : (getToken s).1 = Token.eof
  · by_cases hq : s.currentToken = Token.eof
    · simp only [ht, hq, if_true]
      exact ⟨by omega, Or.inr ⟨trivial, trivial⟩⟩
    · simp only [ht, hq, if_true, if_false]
      exact ⟨by omega, Or.inl (by omega)⟩
  · have h3 := h2 ht
    by_cases hq : s.currentToken = Token.eof
    · simp only [ht, hq, if_true, if_false]
      exact ⟨by omega, Or.inl (by omega)⟩
    · simp only [ht, hq, if_false]
      exact ⟨by omega, Or.inl (by omega)⟩

theorem unread_getNextToken_lt (s : State) (h : s.currentToken ≠ Token.eof) :
    unread (getNextToken s) < unread s := by
  rcases (unread_getNextToken s).2 with h1 | h1
  · exact h1
  · exact absurd h1.2 h

theorem Advances.refl (s : State) : Advances s s :=
  ⟨le_refl _, Or.inr rfl⟩

theorem Advances.trans {a b c : State} (h1 : Advances a b) (h2 : Advances b c) :
    Advances a c := by
  unfold Advances at *
  refine ⟨by omega, ?_⟩
  rcases h1.2 with h | h
  · left; omega
  · rcases h2.2 with h3 | h3
    · left; omega
    · right; rw [h3, h]

theorem advances_getNextToken (s : State) : Advances s (getNextToken s) := by
  have h := unread_getNextToken s
  refine ⟨h.1, ?_⟩
  rcases h.2 with h1 | h1
  · exact Or.inl h1
  · exact Or.inr (by rw [h1.1, h1.2])

theorem Advances.of_eq {s s1 : State} (h1 : s1.stdin = s.stdin)
    (h2 : s1.lastChar = s.lastChar) (h3 : s1.currentToken = s.currentToken) :
    Advances s s1 := by
  have : unread s1 = unread s := by
    unfold unread pending
    rw [h1, h2, h3]
  exact ⟨by omega, Or.inr h3⟩

theorem advances_logError {α : Type} {msg : String} {s s1 : State} {r : Option α}
    (h : logError msg s = .returned r s1) : Advances s s1 ∧ r = none := by
  unfold logError at h
  cases h
  exact ⟨Advances.of_eq rfl rfl rfl, rfl⟩

theorem getTokenPrecedence_frame (s : State) :
    (getTokenPrecedence s).2.stdin = s.stdin ∧
    (getTokenPrecedence s).2.lastChar = s.lastChar ∧
    (getTokenPrecedence s).2.currentToken = s.currentToken := by
  unfold getTokenPrecedence
  split
  · exact ⟨rfl, rfl, rfl⟩
  · simp only []
    split <;> exact ⟨rfl, rfl, rfl⟩

theorem advances_getTokenPrecedence (s : State) : Advances s (getTokenPrecedence s).2 :=
  have h := getTokenPrecedence_frame s
  Advances.of_eq h.1 h.2.1 h.2.2

theorem unread_getTokenPrecedence (s : State) :
    unread (getTokenPrecedence s).2 = unread s := by
  have h := getTokenPrecedence_frame s
  unfold unread pending
  rw [h.1, h.2.1, h.2.2]


theorem Advances.lt {a b c : State} (h : unread b < unread a) (h2 : Advances b c) :
    unread c < unread a :=
  lt_of_le_of_lt h2.1 h

theorem Advances.after_next {s s1 : State} (h : Advances (getNextToken s) s1) :
    Advances s s1 ∧ (s.currentToken ≠ Token.eof → unread s1 < unread s) :=
  ⟨(advances_getNextToken s).trans h, fun hc => Advances.lt (unread_getNextToken_lt s hc) h⟩

theorem parse_advances (fuel : Nat) :
    (∀ s r s1, parseParenExpr fuel s = .returned r s1 →
      Advances s s1 ∧ (s.currentToken ≠ Token.eof → unread s1 < unread s)) ∧
    (∀ Args s r s1, parseCallArgs fuel Args s = .returned r s1 → Advances s s1) ∧
    (∀ s r s1, parseIdentifierExpr fuel s = .returned r s1 →
      Advances s s1 ∧ (s.currentToken ≠ Token.eof → unread s1 < unread s)) ∧
    (∀ s r s1, parsePrimary fuel s = .returned r s1 →
      Advances s s1 ∧ (r.isSome = true → unread s1 < unread s)) ∧
    (∀ p lhs s r s1, parseBinOpRHS fuel p lhs s = .returned r s1 → Advances s s1) ∧
    (∀ s r s1, parseExpression fuel s = .returned r s1 →
      Advances s s1 ∧ (r.isSome = true → unread s1 < unread s)) := by
  induction fuel with
  | zero =>
    refine ⟨?_, ?_, ?_, ?_, ?_, ?_⟩ <;> intros <;> rename_i h <;>
      simp [parseParenExpr, parseCallArgs, parseIdentifierExpr, parsePrimary,
        parseBinOpRHS, parseExpression] at h
  | succ fuel ih =>
    obtain ⟨ihParen, ihArgs, ihIdent, ihPrim, ihRHS, ihExpr⟩ := ih
    refine ⟨?_, ?_, ?_, ?_, ?_, ?_⟩
    · intro s r s1 h
      rw [parseParenExpr] at h
      apply Advances.after_next
      split at h
      · cases h
      · rename_i sx heq
        cases h
        exact (ihExpr _ _ _ heq).1
      · rename_i V sx heq
        have he := (ihExpr _ _ _ heq).1
        split at h
        · exact he.trans (advances_logError h).1
        · cases h
          exact he.trans (advances_getNextToken _)
    · intro Args s r s1 h
      rw [parseCallArgs] at h
      split at h
      · cases h
      · rename_i sx heq
        cases h
        exact (ihExpr _ _ _ heq).1
      · rename_i Arg sx heq
        have he := (ihExpr _ _ _ heq).1
        split at h
        · cases h
          exact he
        · split at h
          · exact he.trans (advances_logError h).1
          · exact he.trans ((advances_getNextToken _).trans (ihArgs _ _ _ _ h))
    · intro s r s1 h
      rw [parseIdentifierExpr] at h
      apply Advances.after_next
      simp only [] at h
      split at h
      · cases h
        exact Advances.refl _
      · split at h
        · split at h
          · cases h
          · rename_i sx heq
            cases h
            exact (advances_getNextToken _).trans (ihArgs _ _ _ _ heq)
          · rename_i A sx heq
            cases h
            exact (advances_getNextToken _).trans
              ((ihArgs _ _ _ _ heq).trans (advances_getNextToken _))
        · cases h
          exact (advances_getNextToken _).trans (advances_getNextToken _)
    · intro s r s1 h
      rw [parsePrimary] at h
      split at h
      · rename_i hc
        have hne : s.currentToken ≠ Token.eof := by rw [hc]; decide
        have := ihIdent _ _ _ h
        exact ⟨this.1, fun _ => this.2 hne⟩
      · split at h
        · rename_i hc
          have hne : s.currentToken ≠ Token.eof := by rw [hc]; decide
          unfold parseNumberExpr at h
          cases h
          exact ⟨advances_getNextToken _, fun _ => unread_getNextToken_lt s hne⟩
        · split at h
          · rename_i hc
            have hne : s.currentToken ≠ Token.eof := by rw [hc]; decide
            have := ihParen _ _ _ h
            exact ⟨this.1, fun _ => this.2 hne⟩
          · have := advances_logError h
            refine ⟨this.1, fun hr => ?_⟩
            rw [this.2] at hr
            cases hr
    · intro p lhs s r s1 h
      rw [parseBinOpRHS] at h
      simp only [] at h
      have ht := advances_getTokenPrecedence s
      split at h
      · cases h
        exact ht
      · split at h
        · cases h
        · rename_i sx heq
          cases h
          exact ht.trans ((advances_getNextToken _).trans (ihPrim _ _ _ heq).1)
        · rename_i rhs sx heq
          have hp := ht.trans ((advances_getNextToken _).trans (ihPrim _ _ _ heq).1)
          have hn := hp.trans (advances_getTokenPrecedence sx)
          split at h
          · split at h
            · cases h
            · rename_i sy heq2
              cases h
              exact hn.trans (ihRHS _ _ _ _ _ heq2)
            · rename_i rhs2 sy heq2
              exact (hn.trans (ihRHS _ _ _ _ _ heq2)).trans (ihRHS _ _ _ _ _ h)
          · exact hn.trans (ihRHS _ _ _ _ _ h)
    · intro s r s1 h
      rw [parseExpression] at h
      split at h
      · cases h
      · rename_i sx heq
        cases h
        exact ⟨(ihPrim _ _ _ heq).1, fun hr => by cases hr⟩
      · rename_i lhs sx heq
        have hp := ihPrim _ _ _ heq
        have hr := ihRHS _ _ _ _ _ h
        exact ⟨hp.1.trans hr, fun _ => Advances.lt (hp.2 rfl) hr⟩


theorem parsePrototypeArgs_advances (fuel : Nat) (ArgNames : List (List Nat)) (s : State)
    (r : Option (List (List Nat))) (s1 : State)
    (h : parsePrototypeArgs fuel ArgNames s = .returned r s1) : Advances s s1 := by
  induction fuel generalizing ArgNames s with
  | zero => simp [parsePrototypeArgs] at h
  | succ fuel ih =>
    rw [parsePrototypeArgs] at h
    split at h
    · exact (advances_getNextToken s).trans (ih _ _ h)
    · cases h
      exact advances_getNextToken s

theorem parsePrototype_advances (fuel : Nat) (s : State) (r : Option PrototypeAST)
    (s1 : State) (h : parsePrototype fuel s = .returned r s1) : Advances s s1 := by
  unfold parsePrototype at h
  split at h
  · exact (advances_logError h).1
  · simp only [] at h
    split at h
    · exact (advances_getNextToken s).trans (advances_logError h).1
    · split at h
      · cases h
      · rename_i sx heq
        cases h
        exact (advances_getNextToken s).trans (parsePrototypeArgs_advances _ _ _ _ _ heq)
      · rename_i A sx heq
        have ha := (advances_getNextToken s).trans (parsePrototypeArgs_advances _ _ _ _ _ heq)
        split at h
        · exact ha.trans (advances_logError h).1
        · cases h
          exact ha.trans (advances_getNextToken _)

theorem parseDefinition_advances (fuel : Nat) (s : State) (r : Option FunctionAST)
    (s1 : State) (h : parseDefinition fuel s = .returned r s1) :
    Advances s s1 ∧ (s.currentToken ≠ Token.eof → unread s1 < unread s) := by
  unfold parseDefinition at h
  apply Advances.after_next
  split at h
  · cases h
  · rename_i sx heq
    cases h
    exact parsePrototype_advances _ _ _ _ heq
  · rename_i proto sx heq
    have hp := parsePrototype_advances _ _ _ _ heq
    split at h
    · cases h
    · rename_i sy heq2
      cases h
      exact hp.trans ((parse_advances fuel).2.2.2.2.2 _ _ _ heq2).1
    · rename_i E sy heq2
      cases h
      exact hp.trans ((parse_advances fuel).2.2.2.2.2 _ _ _ heq2).1

theorem parseExtern_advances (fuel : Nat) (s : State) (r : Option PrototypeAST)
    (s1 : State) (h : parseExtern fuel s = .returned r s1) :
    Advances s s1 ∧ (s.currentToken ≠ Token.eof → unread s1 < unread s) := by
  unfold parseExtern at h
  exact Advances.after_next (parsePrototype_advances _ _ _ _ h)

theorem parseTopLevelExpr_advances (fuel : Nat) (s : State) (r : Option FunctionAST)
    (s1 : State) (h : parseTopLevelExpr fuel s = .returned r s1) :
    Advances s s1 ∧ (r.isSome = true → unread s1 < unread s) := by
  unfold parseTopLevelExpr at h
  split at h
  · cases h
  · rename_i sx heq
    cases h
    exact ⟨((parse_advances fuel).2.2.2.2.2 _ _ _ heq).1, fun hr => by cases hr⟩
  · rename_i E sx heq
    cases h
    have := (parse_advances fuel).2.2.2.2.2 _ _ _ heq
    exact ⟨this.1, fun _ => this.2 rfl⟩

theorem unread_eprint (text : String) (s : State) : unread (eprint text s) = unread s := rfl

/-- One turn of the main loop on a token other than `Token::eof` leaves strictly less
input in front of the parser. -/
theorem dispatch_unread (fuel : Nat) (s s1 : State) (hc : s.currentToken ≠ Token.eof)
    (h : dispatch fuel s = some s1) : unread s1 < unread s := by
  unfold dispatch at h
  split at h
  · cases h
    exact unread_getNextToken_lt s hc
  · split at h
    · unfold handleDefinition at h
      split at h
      · cases h
      · rename_i F sx heq
        cases h
        rw [unread_eprint]
        exact (parseDefinition_advances _ _ _ _ heq).2 hc
      · rename_i sx heq
        cases h
        exact lt_of_le_of_lt (unread_getNextToken sx).1
          ((parseDefinition_advances _ _ _ _ heq).2 hc)
    · split at h
      · unfold handleExtern at h
        split at h
        · cases h
        · rename_i F sx heq
          cases h
          rw [unread_eprint]
          exact (parseExtern_advances _ _ _ _ heq).2 hc
        · rename_i sx heq
          cases h
          exact lt_of_le_of_lt (unread_getNextToken sx).1
            ((parseExtern_advances _ _ _ _ heq).2 hc)
      · unfold handleTopLevelExpression at h
        split at h
        · cases h
        · rename_i F sx heq
          cases h
          rw [unread_eprint]
          exact (parseTopLevelExpr_advances _ _ _ _ heq).2 rfl
        · rename_i sx heq
          cases h
          have ha := (parseTopLevelExpr_advances _ _ _ _ heq).1
          rcases ha.2 with hlt | heqc
          · exact lt_of_le_of_lt (unread_getNextToken sx).1 hlt
          · have : sx.currentToken ≠ Token.eof := by rw [heqc]; exact hc
            exact lt_of_lt_of_le (unread_getNextToken_lt sx this) ha.1


theorem logError_ne_outOfFuel {α : Type} (msg : String) (s : State) :
    (logError msg s : Outcome α) ≠ .outOfFuel := by
  unfold logError
  intro h
  cases h

/-- Enough fuel: a call depth of four per unit of unread input, plus a constant, is
never exceeded by the expression parser. -/
theorem parse_returns (fuel : Nat) :
    (∀ s, s.currentToken ≠ Token.eof → 4 * unread s + 1 ≤ fuel →
      parseParenExpr fuel s ≠ .outOfFuel) ∧
    (∀ Args s, 4 * unread s + 4 ≤ fuel → parseCallArgs fuel Args s ≠ .outOfFuel) ∧
    (∀ s, s.currentToken ≠ Token.eof → 4 * unread s + 1 ≤ fuel →
      parseIdentifierExpr fuel s ≠ .outOfFuel) ∧
    (∀ s, 4 * unread s + 2 ≤ fuel → parsePrimary fuel s ≠ .outOfFuel) ∧
    (∀ p lhs s, 4 * unread s + 3 ≤ fuel → parseBinOpRHS fuel p lhs s ≠ .outOfFuel) ∧
    (∀ s, 4 * unread s + 3 ≤ fuel → parseExpression fuel s ≠ .outOfFuel) := by
  induction fuel with
  | zero =>
    refine ⟨?_, ?_, ?_, ?_, ?_, ?_⟩ <;> intros <;> omega
  | succ fuel ih =>
    obtain ⟨ihParen, ihArgs, ihIdent, ihPrim, ihRHS, ihExpr⟩ := ih
    obtain ⟨_, aArgs, _, aPrim, aRHS, aExpr⟩ := parse_advances fuel
    refine ⟨?_, ?_, ?_, ?_, ?_, ?_⟩
    · intro s hc hf
      rw [parseParenExpr]
      have hlt := unread_getNextToken_lt s hc
      split
      · rename_i heq
        exact absurd heq (ihExpr _ (by omega))
      · intro h; cases h
      · split
        · exact logError_ne_outOfFuel _ _
        · intro h; cases h
    · intro Args s hf
      rw [parseCallArgs]
      split
      · rename_i heq
        exact absurd heq (ihExpr _ (by omega))
      · intro h; cases h
      · rename_i Arg sx heq
        have hs := (aExpr _ _ _ heq).2 rfl
        split
        · intro h; cases h
        · split
          · exact logError_ne_outOfFuel _ _
          · have := (unread_getNextToken sx).1
            exact ihArgs _ _ (by omega)
    · intro s hc hf
      rw [parseIdentifierExpr]
      simp only []
      have hlt := unread_getNextToken_lt s hc
      split
      · intro h; cases h
      · split
        · split
          · rename_i heq
            have := (unread_getNextToken (getNextToken s)).1
            exact absurd heq (ihArgs _ _ (by omega))
          · intro h; cases h
          · intro h; cases h
        · intro h; cases h
    · intro s hf
      rw [parsePrimary]
      split
      · rename_i hc
        have hne : s.currentToken ≠ Token.eof := by rw [hc]; decide
        exact ihIdent _ hne (by omega)
      · split
        · unfold parseNumberExpr
          intro h; cases h
        · split
          · rename_i hc
            have hne : s.currentToken ≠ Token.eof := by rw [hc]; decide
            exact ihParen _ hne (by omega)
          · exact logError_ne_outOfFuel _ _
    · intro p lhs s hf
      rw [parseBinOpRHS]
      simp only []
      have ht := unread_getTokenPrecedence s
      have hn := (unread_getNextToken (getTokenPrecedence s).2).1
      split
      · intro h; cases h
      · split
        · rename_i heq
          exact absurd heq (ihPrim _ (by omega))
        · intro h; cases h
        · rename_i rhs sx heq
          have hs := (aPrim _ _ _ heq).2 rfl
          have ht2 := unread_getTokenPrecedence sx
          split
          · split
            · rename_i heq2
              exact absurd heq2 (ihRHS _ _ _ (by omega))
            · intro h; cases h
            · rename_i rhs2 sy heq2
              have := (aRHS _ _ _ _ _ heq2).1
              exact ihRHS _ _ _ (by omega)
          · exact ihRHS _ _ _ (by omega)
    · intro s hf
      rw [parseExpression]
      split
      · rename_i heq
        exact absurd heq (ihPrim _ (by omega))
      · intro h; cases h
      · rename_i lhs sx heq
        have hs := (aPrim _ _ _ heq).2 rfl
        exact ihRHS _ _ _ (by omega)


theorem parsePrototypeArgs_returns (fuel : Nat) (ArgNames : List (List Nat)) (s : State)
    (hf : 4 * unread s + 1 ≤ fuel) : parsePrototypeArgs fuel ArgNames s ≠ .outOfFuel := by
  induction fuel generalizing ArgNames s with
  | zero => omega
  | succ fuel ih =>
    rw [parsePrototypeArgs]
    split
    · rename_i hc
      apply ih
      rcases (unread_getNextToken s).2 with h1 | h1
      · omega
      · rw [h1.1] at hc
        exact absurd hc (by decide)
    · intro h; cases h

theorem parsePrototype_returns (fuel : Nat) (s : State) (hf : 4 * unread s + 1 ≤ fuel) :
    parsePrototype fuel s ≠ .outOfFuel := by
  unfold parsePrototype
  split
  · exact logError_ne_outOfFuel _ _
  · simp only []
    split
    · exact logError_ne_outOfFuel _ _
    · split
      · rename_i heq
        have := (unread_getNextToken s).1
        exact absurd heq (parsePrototypeArgs_returns _ _ _ (by omega))
      · intro h; cases h
      · split
        · exact logError_ne_outOfFuel _ _
        · intro h; cases h

theorem parseDefinition_returns (fuel : Nat) (s : State) (hf : 4 * unread s + 3 ≤ fuel) :
    parseDefinition fuel s ≠ .outOfFuel := by
  unfold parseDefinition
  have hn := (unread_getNextToken s).1
  split
  · rename_i heq
    exact absurd heq (parsePrototype_returns _ _ (by omega))
  · intro h; cases h
  · rename_i proto sx heq
    have := (parsePrototype_advances _ _ _ _ heq).1
    split
    · rename_i heq2
      exact absurd heq2 ((parse_returns fuel).2.2.2.2.2 _ (by omega))
    · intro h; cases h
    · intro h; cases h

theorem dispatch_returns (fuel : Nat) (s : State) (hf : 4 * unread s + 3 ≤ fuel) :
    (dispatch fuel s).isSome = true := by
  unfold dispatch
  split
  · rfl
  · split
    · unfold handleDefinition
      split
      · rename_i heq
        exact absurd heq (parseDefinition_returns _ _ hf)
      · rfl
      · rfl
    · split
      · unfold handleExtern parseExtern
        have hn := (unread_getNextToken s).1
        split
        · rename_i heq
          exact absurd heq (parsePrototype_returns _ _ (by omega))
        · rfl
        · rfl
      · unfold handleTopLevelExpression parseTopLevelExpr
        have := (parse_returns fuel).2.2.2.2.2 s hf
        split
        · rename_i heq
          split at heq
          · rename_i heq2
            exact absurd heq2 this
          · cases heq
          · cases heq
        · rfl
        · rfl

/-- The main loop returns, with `Token::eof` current, when its fuel is above four times
the unread input plus four. -/
theorem mainLoop_returns (fuel : Nat) (s : State) (hf : 4 * unread s + 4 ≤ fuel) :
    ∃ s1, mainLoop fuel s = some s1 ∧ s1.currentToken = Token.eof := by
  induction fuel generalizing s with
  | zero => omega
  | succ fuel ih =>
    rw [mainLoop]
    split
    · rename_i hc
      exact ⟨_, rfl, hc⟩
    · rename_i hc
      have hu := unread_eprint "ready> " s
      have hd := dispatch_returns fuel (eprint "ready> " s) (by omega)
      cases hk : dispatch fuel (eprint "ready> " s) with
      | none => rw [hk] at hd; cases hd
      | some s2 =>
        have := dispatch_unread fuel _ _ hc hk
        simp only []
        exact ih s2 (by omega)

/-- The function `Parser::Parse` returns, with `Token::eof` current, when its fuel is above four times
the unread input plus four. -/
theorem Parse_returns_of_le (fuel : Nat) (s : State) (hf : 4 * unread s + 4 ≤ fuel) :
    ∃ s1, Parse fuel s = some s1 ∧ s1.currentToken = Token.eof := by
  unfold Parse
  apply mainLoop_returns
  refine Nat.le_trans (Nat.add_le_add_right (Nat.mul_le_mul_left 4 ?_) 4) hf
  exact Nat.le_trans (unread_getNextToken _).1 (Nat.le_of_eq rfl)

theorem unread_start (input : List Nat) : unread (State.start input) = 2 * input.length + 3 := by
  simp [unread, pending, State.start, EOF, Token.eof]
  omega


/-! ## Blank input -/

theorem getToken_of_EOF (s : State) (h : s.lastChar = EOF) : getToken s = (Token.eof, s) := by
  have hs : skipWhitespace s = s := by
    unfold skipWhitespace
    rw [h]
    rfl
  have ha : isalpha EOF = false := rfl
  have hn : isNumChar EOF = false := rfl
  have h35 : ¬ (EOF = 35) := by decide
  have hg : getTokenChar s = (Token.eof, s) := by
    unfold getTokenChar
    simp only [h, if_true]
  unfold getToken
  rw [getTokenFuel]
  simp only [hs, h, ha, hn, h35, hg, if_false, Bool.false_eq_true, Option.getD_some]

theorem tokenStream_of_EOF (n : Nat) (s : State) (h : s.lastChar = EOF) :
    tokenStream n s = List.replicate n Token.eof := by
  induction n with
  | zero => rfl
  | succ n ih =>
    rw [tokenStream, getToken_of_EOF s h, List.replicate_succ]
    simp only [ih]

theorem readWhile_isspace_blank (l : List Nat) (h : onlyBlank false l = true) :
    (readWhile isspace l).2.1 = EOF ∨
      ((readWhile isspace l).2.1 = 35 ∧ onlyBlank true (readWhile isspace l).2.2 = true) := by
  induction l with
  | nil => left; rfl
  | cons b rest ih =>
    rw [onlyBlank] at h
    by_cases hb : isspace (b : Int) = true
    · simp only [hb, if_true] at h
      simp only [readWhile, hb, if_true]
      exact ih h
    · simp only [hb] at h
      by_cases h35 : b = 35
      · subst h35
        simp only [if_true] at h
        right
        simp only [readWhile, hb]
        exact ⟨rfl, h⟩
      · simp [h35] at h

theorem readWhile_inComment_blank (l : List Nat) (h : onlyBlank true l = true) :
    (readWhile inComment l).2.1 = EOF ∨
      (isspace (readWhile inComment l).2.1 = true ∧
        onlyBlank false (readWhile inComment l).2.2 = true) := by
  induction l with
  | nil => left; rfl
  | cons b rest ih =>
    rw [onlyBlank] at h
    by_cases hb : b = 10 ∨ b = 13
    · simp only [hb, if_true] at h
      right
      have hc : inComment (b : Int) = false := by
        rcases hb with hb | hb <;> subst hb <;> rfl
      simp only [readWhile, hc]
      refine ⟨?_, h⟩
      rcases hb with hb | hb <;> subst hb <;> rfl
    · simp only [hb, if_false] at h
      have hc : inComment (b : Int) = true := by
        simp only [not_or] at hb
        simp only [inComment, EOF, Bool.and_eq_true, bne_iff_ne, ne_eq]
        omega
      simp only [readWhile, hc, if_true]
      exact ih h

/-- On whitespace and comments only, `getToken` gives `Token::eof` and stops at the end
of the input. -/
theorem getTokenFuel_blank (fuel : Nat) (s : State) (hf : s.stdin.length < fuel)
    (hs : isspace s.lastChar = true) (hb : onlyBlank false s.stdin = true) :
    ∃ s1, getTokenFuel fuel s = some (Token.eof, s1) ∧ s1.lastChar = EOF := by
  induction fuel generalizing s with
  | zero => omega
  | succ fuel ih =>
    have hsk : skipWhitespace s =
        { s with
          lastChar := (readWhile isspace s.stdin).2.1
          stdin := (readWhile isspace s.stdin).2.2 } := by
      unfold skipWhitespace
      simp only [hs, if_true]
    have hlen := readWhile_pending isspace s.stdin
    rw [getTokenFuel]
    simp only [hsk]
    rcases readWhile_isspace_blank s.stdin hb with h1 | ⟨h1, h2⟩
    · simp only [h1]
      exact ⟨_, rfl, rfl⟩
    · simp only [h1]
      have hlen2 := readWhile_pending inComment (readWhile isspace s.stdin).2.2
      rcases readWhile_inComment_blank _ h2 with h3 | ⟨h3, h4⟩
      · simp only [h3]
        exact ⟨_, rfl, rfl⟩
      · have hne := isspace_ne_EOF h3
        have ha : isalpha (35 : Int) = false := rfl
        have hn : isNumChar (35 : Int) = false := rfl
        simp only [ha, hn, hne, ne_eq, not_false_eq_true, if_true, if_false,
          Bool.false_eq_true]
        apply ih
        · simp only [hne, if_false] at hlen2
          simp only []
          omega
        · exact h3
        · exact h4


/-! ## The statics of `parser.cpp` that the tokenizer never writes -/

theorem getTokenChar_parserPayload (s : State) :
    (getTokenChar s).2.IdentifierStr = s.IdentifierStr ∧
      (getTokenChar s).2.NumVal = s.NumVal := by
  unfold getTokenChar getchar
  split
  · exact ⟨rfl, rfl⟩
  · split <;> exact ⟨rfl, rfl⟩

theorem skipWhitespace_parserPayload (s : State) :
    (skipWhitespace s).IdentifierStr = s.IdentifierStr ∧
      (skipWhitespace s).NumVal = s.NumVal := by
  unfold skipWhitespace
  split <;> exact ⟨rfl, rfl⟩

theorem getTokenFuel_parserPayload (fuel : Nat) (s : State) (t : Int) (s1 : State)
    (h : getTokenFuel fuel s = some (t, s1)) :
    s1.IdentifierStr = s.IdentifierStr ∧ s1.NumVal = s.NumVal := by
  induction fuel generalizing s with
  | zero => simp [getTokenFuel] at h
  | succ fuel ih =>
    unfold getTokenFuel at h
    simp only [] at h
    have hw := skipWhitespace_parserPayload s
    split at h
    · split at h
      · cases h
        exact hw
      · split at h <;>
        · cases h
          exact hw
    · split at h
      · cases h
        exact hw
      · split at h
        · split at h
          · have := ih _ h
            exact ⟨this.1.trans hw.1, this.2.trans hw.2⟩
          · have hg := Option.some.inj h
            have := getTokenChar_parserPayload { skipWhitespace s with
                lastChar := (readWhile inComment (skipWhitespace s).stdin).2.1
                stdin := (readWhile inComment (skipWhitespace s).stdin).2.2 }
            rw [hg] at this
            exact ⟨this.1.trans hw.1, this.2.trans hw.2⟩
        · have hg := Option.some.inj h
          have := getTokenChar_parserPayload (skipWhitespace s)
          rw [hg] at this
          exact ⟨this.1.trans hw.1, this.2.trans hw.2⟩

/-- Reading a token leaves the `IdentifierStr` and `NumVal` of `parser.cpp` as they were. -/
theorem getNextToken_parserPayload (s : State) :
    (getNextToken s).IdentifierStr = s.IdentifierStr ∧ (getNextToken s).NumVal = s.NumVal :=
  getTokenFuel_parserPayload _ s (getToken s).1 (getToken s).2 (getToken_eq s)

/-! ## The claims -/

open ExprAST

/-- C1: on `1+2*3` and on `1*2+3` the tree `parseExpression` returns has the grouping the
claim gives, `*` below `+`, but every number node holds `0`, the value of the
never-written `NumVal` of `parser.cpp`, and not the literal that was read. -/
theorem parseExpression_precedence_payload :
    (parseExpression 6 (State.ready (bytes "1+2*3"))).result
      = some (some (BinaryExprAST 43 (NumberExprAST ⟨0, 0⟩)
          (BinaryExprAST 42 (NumberExprAST ⟨0, 0⟩) (NumberExprAST ⟨0, 0⟩)))) ∧
    (parseExpression 6 (State.ready (bytes "1*2+3"))).result
      = some (some (BinaryExprAST 43
          (BinaryExprAST 42 (NumberExprAST ⟨0, 0⟩) (NumberExprAST ⟨0, 0⟩))
          (NumberExprAST ⟨0, 0⟩))) :=
  ⟨rfl, rfl⟩

/-- C2: reading a token never changes the `IdentifierStr` and `NumVal` that `parser.cpp`
reads; the tokenizer captures the text `x` and the value `42` in the statics of
`lexer.cpp`, while the nodes the parser builds for these inputs hold the empty name and
the value `0` of the statics of `parser.cpp`. -/
theorem parser_payload_is_not_lexer_payload :
    (∀ s : State, (getNextToken s).IdentifierStr = s.IdentifierStr ∧
      (getNextToken s).NumVal = s.NumVal) ∧
    (State.ready (bytes "x")).lexerIdentifierStr = bytes "x" ∧
    (parseExpression 4 (State.ready (bytes "x"))).result
      = some (some (VariableExprAST [])) ∧
    (State.ready (bytes "42")).lexerNumVal = ⟨42, 0⟩ ∧
    (parseExpression 4 (State.ready (bytes "42"))).result
      = some (some (NumberExprAST ⟨0, 0⟩)) :=
  ⟨getNextToken_parserPayload, by decide, rfl, by decide, rfl⟩

/-- C3: on `1-2-3` the tree `parseExpression` returns is nested to the left as the
claim gives, but its three number nodes hold `0` and not `1`, `2`, `3`. -/
theorem parseExpression_left_assoc_payload :
    (parseExpression 6 (State.ready (bytes "1-2-3"))).result
      = some (some (BinaryExprAST 45
          (BinaryExprAST 45 (NumberExprAST ⟨0, 0⟩) (NumberExprAST ⟨0, 0⟩))
          (NumberExprAST ⟨0, 0⟩))) :=
  rfl

/-- C4: on `foo(1, 2)` and on `foo()` the call node has the arguments in order and the
token after `)` is current, but the callee name is empty and the arguments hold `0`. -/
theorem parseIdentifierExpr_call_payload :
    (parseIdentifierExpr 8 (State.ready (bytes "foo(1, 2)"))).result
      = some (some (CallExprAST [] [NumberExprAST ⟨0, 0⟩, NumberExprAST ⟨0, 0⟩])) ∧
    (parseIdentifierExpr 8 (State.ready (bytes "foo(1, 2)"))).state.map (fun s => s.currentToken)
      = some Token.eof ∧
    (parseIdentifierExpr 8 (State.ready (bytes "foo()"))).result
      = some (some (CallExprAST [] [])) :=
  ⟨rfl, by decide, rfl⟩

/-- C5: on `def foo(x y) x+y` the function `parseDefinition` returns has two parameters and
the body `_ + _`, but the function name, both parameter names and both variable names
are empty. -/
theorem parseDefinition_payload :
    (parseDefinition 8 (State.ready (bytes "def foo(x y) x+y"))).result
      = some (some ⟨⟨[], [[], []]⟩,
          BinaryExprAST 43 (VariableExprAST []) (VariableExprAST [])⟩) :=
  rfl

/-- C6: on `extern sin(x)` the prototype returned has one parameter and the token after
`)` is current, but the function name and the parameter name are empty. -/
theorem parseExtern_payload :
    ( parseExtern 8 (State.ready (bytes "extern sin(x)"))).result
      = some (some ⟨[], [[]]⟩) ∧
    ( parseExtern 8 (State.ready (bytes "extern sin(x)"))).state.map (fun s => s.currentToken)
      = some Token.eof :=
  ⟨by decide, by decide⟩

/-- C7: when the expression after `(` parses and the token then current is not `)`,
`parseParenExpr` returns `nullptr`, so no node of the inner expression, and writes the
diagnostic `expected ')'`. -/
theorem parseParenExpr_unclosed (fuel : Nat) (s s1 : State) (V : ExprAST)
    (he : parseExpression fuel (getNextToken s) = .returned (some V) s1)
    (hc : s1.currentToken ≠ 41) :
    parseParenExpr (fuel + 1) s
      = .returned none { s1 with stderr := s1.stderr ++ ["Error: expected ')'\n"] } := by
  rw [parseParenExpr, he]
  simp only [hc, ne_eq, not_false_eq_true, if_true]
  rfl

theorem parseParenExpr_unclosed_witness :
    (parseParenExpr 6 (State.ready (bytes "(1+2"))).result = some none ∧
    (parseParenExpr 6 (State.ready (bytes "(1+2"))).state.map (fun s => s.stderr)
      = some ["Error: expected ')'\n"] := by
  rw [parseParenExpr_unclosed 5 (State.ready (bytes "(1+2"))
    { stdin := [], lastChar := -1, lexerIdentifierStr := [], lexerNumVal := ⟨2, 0⟩,
      IdentifierStr := [], NumVal := ⟨0, 0⟩, currentToken := -1,
      binaryOperatorsPrecedence := [(60, 10), (43, 20), (45, 20), (42, 40)], stderr := [] }
    (BinaryExprAST 43 (NumberExprAST ⟨0, 0⟩) (NumberExprAST ⟨0, 0⟩)) rfl (by decide)]
  exact ⟨rfl, rfl⟩

/-- C8: on an input of whitespace and comments only, the first call of `getToken` and
every later call return `Token::eof`. -/
theorem tokenStream_onlyBlank (input : List Nat) (h : onlyBlank false input = true)
    (n : Nat) : tokenStream n (State.start input) = List.replicate n Token.eof := by
  cases n with
  | zero => rfl
  | succ n =>
    obtain ⟨s1, h1, h2⟩ := getTokenFuel_blank (input.length + 1) (State.start input)
      (Nat.lt_succ_self _) rfl h
    have hg : getToken (State.start input) = (Token.eof, s1) := by
      have := getToken_eq (State.start input)
      rw [show (State.start input).stdin.length = input.length from rfl, h1] at this
      exact (Option.some.inj this).symm
    rw [tokenStream, hg, List.replicate_succ]
    simp only [tokenStream_of_EOF n s1 h2]

theorem tokenStream_onlyBlank_witness :
    onlyBlank false (bytes " # one\n\t#two\r \n# three") = true ∧
    tokenStream 3 (State.start (bytes " # one\n\t#two\r \n# three"))
      = [Token.eof, Token.eof, Token.eof] :=
  ⟨by decide, tokenStream_onlyBlank (bytes " # one\n\t#two\r \n# three") (by decide) 3⟩


/-- C10: the recursion of `getToken` after a comment ends, the expression parser returns
when given fuel linear in the unread input, every turn of the main loop on a token that
is not `Token::eof` leaves strictly less unread input, the loop returns at once when
`Token::eof` is current, and `Parser::Parse` returns on every input, with `Token::eof`
current, given fuel linear in the length of the input. -/
theorem Parse_terminates :
    (∀ s : State, (getTokenFuel (s.stdin.length + 1) s).isSome = true) ∧
    (∀ fuel s, 4 * unread s + 3 ≤ fuel → parseExpression fuel s ≠ .outOfFuel) ∧
    (∀ fuel s s1, s.currentToken ≠ Token.eof → dispatch fuel s = some s1 →
      unread s1 < unread s) ∧
    (∀ fuel s, s.currentToken = Token.eof →
      mainLoop (fuel + 1) s = some (eprint "ready> " s)) ∧
    (∀ input fuel, 8 * input.length + 16 ≤ fuel →
      ∃ s1, Parse fuel (State.start input) = some s1 ∧ s1.currentToken = Token.eof) := by
  refine ⟨?_, ?_, ?_, ?_, ?_⟩
  · intro s
    exact getTokenFuel_isSome _ s (Nat.lt_succ_self _)
  · intro fuel s hf
    exact (parse_returns fuel).2.2.2.2.2 s hf
  · intro fuel s s1 hc hd
    exact dispatch_unread fuel s s1 hc hd
  · intro fuel s hc
    have hc2 : (eprint "ready> " s).currentToken = Token.eof := hc
    rw [mainLoop]
    simp only [hc2, if_true]
  · intro input fuel hf
    apply Parse_returns_of_le
    rw [unread_start]
    omega

theorem Parse_terminates_witness :
    ∃ s1, Parse 136 (State.start (bytes "def f(x) (x+#1\n"))
      = some s1 ∧ s1.currentToken = Token.eof :=
  Parse_terminates.2.2.2.2 (bytes "def f(x) (x+#1\n") 136 (by decide)

/-! ## The precedence table -/

theorem lookup_append_single (m : List (Int × Int)) (k k1 : Int) (v : Int)
    (h : m.lookup k = none) :
    (m ++ [(k, v)]).lookup k1 = if k1 = k then (match m.lookup k1 with
      | some w => some w
      | none => some v) else m.lookup k1 := by
  induction m with
  | nil =>
    by_cases hk : k1 = k
    · subst hk
      simp [List.lookup]
    · have : (k1 == k) = false := by simpa using hk
      simp [List.lookup, this, hk]
  | cons e m ih =>
    obtain ⟨a, b⟩ := e
    by_cases ha : k1 = a
    · subst ha
      simp [List.lookup]
    · have hb : (k1 == a) = false := by simpa using ha
      have hm : m.lookup k = none := by
        by_cases hka : k = a
        · subst hka
          simp [List.lookup] at h
        · have : (k == a) = false := by simpa using hka
          simpa [List.lookup, this] using h
      simp only [List.cons_append, List.lookup, hb]
      exact ih hm

/-- A lookup with `operator[]` reads the value of the key and leaves every key reading
what it read before. -/
theorem mapIndex_value (m : List (Int × Int)) (k : Int) :
    (mapIndex m k).1 = mapValue m k ∧
      ∀ k1, mapValue (mapIndex m k).2 k1 = mapValue m k1 := by
  unfold mapIndex mapValue
  cases h : m.lookup k with
  | some v => exact ⟨rfl, fun _ => rfl⟩
  | none =>
    refine ⟨rfl, fun k1 => ?_⟩
    simp only []
    rw [lookup_append_single m k k1 0 h]
    by_cases hk : k1 = k
    · subst hk
      simp [h]
    · simp [hk]

theorem getTokenPrecedence_map (s : State) (k : Int) :
    mapValue (getTokenPrecedence s).2.binaryOperatorsPrecedence k
      = mapValue s.binaryOperatorsPrecedence k := by
  unfold getTokenPrecedence
  split
  · rfl
  · simp only []
    split <;> exact (mapIndex_value _ _).2 k

/-- Under the installed table `getTokenPrecedence` is the fixed table. -/
theorem getTokenPrecedence_table (s : State) (h : TableOK s.binaryOperatorsPrecedence) :
    (getTokenPrecedence s).1 = tablePrecedence s.currentToken := by
  unfold getTokenPrecedence
  split
  · rename_i ha
    have ha2 : s.currentToken < 0 ∨ 127 < s.currentToken := by
      simpa [isascii] using ha
    unfold tablePrecedence
    split
    · omega
    · split
      · omega
      · split
        · omega
        · split
          · omega
          · rfl
  · simp only []
    rw [(mapIndex_value _ _).1, h s.currentToken]
    unfold tableValue tablePrecedence
    split
    · rfl
    · split
      · rfl
      · split
        · rfl
        · split <;> rfl

theorem getTokenPrecedence_tableOK (s : State) (h : TableOK s.binaryOperatorsPrecedence) :
    TableOK (getTokenPrecedence s).2.binaryOperatorsPrecedence :=
  fun k => (getTokenPrecedence_map s k).trans (h k)

theorem installOperators_tableOK (s : State) (h : s.binaryOperatorsPrecedence = []) :
    TableOK (installOperators s).binaryOperatorsPrecedence := by
  intro k
  unfold installOperators
  simp only [h]
  unfold mapValue tableValue
  have hm : mapAssign (mapAssign (mapAssign (mapAssign [] 60 10) 43 20) 45 20) 42 40
      = [(60, 10), (43, 20), (45, 20), (42, 40)] := by decide
  rw [hm]
  by_cases h1 : k = 60
  · subst h1; rfl
  · by_cases h2 : k = 43
    · subst h2; rfl
    · by_cases h3 : k = 45
      · subst h3; rfl
      · by_cases h4 : k = 42
        · subst h4; rfl
        · have e1 : (k == 60) = false := by simpa using h1
          have e2 : (k == 43) = false := by simpa using h2
          have e3 : (k == 45) = false := by simpa using h3
          have e4 : (k == 42) = false := by simpa using h4
          simp [List.lookup, e1, e2, e3, e4, h1, h2, h3, h4]

theorem lookups_tableOK (ts : List Int) (s : State)
    (h : TableOK s.binaryOperatorsPrecedence) :
    TableOK (lookups ts s).binaryOperatorsPrecedence := by
  induction ts generalizing s with
  | nil => exact h
  | cons t ts ih =>
    rw [lookups]
    exact ih _ (getTokenPrecedence_tableOK { s with currentToken := t } h)

/-- C11: once `Parser::Parse` has installed the operators, and after any number of further
lookups with any tokens current, `getTokenPrecedence` returns 10 when `<` is current,
20 for `+` and for `-`, 40 for `*`, and -1 for every other current token. -/
theorem getTokenPrecedence_fixed_table (input : List Nat) (ts : List Int) (t : Int) :
    (getTokenPrecedence
        { lookups ts (installOperators (State.start input)) with currentToken := t }).1
      = (if t = 60 then 10 else if t = 43 then 20 else if t = 45 then 20
          else if t = 42 then 40 else -1) :=
  getTokenPrecedence_table _
    (lookups_tableOK ts _ (installOperators_tableOK (State.start input) rfl))

/-! ## Prototypes -/

theorem advance_succ (n : Nat) (s : State) :
    advance (n + 1) s = getNextToken (advance n s) := by
  induction n generalizing s with
  | zero => rfl
  | succ n ih =>
    rw [advance, ih (getNextToken s)]
    rfl

theorem advance_add (n m : Nat) (s : State) :
    advance (n + m) s = advance m (advance n s) := by
  induction n generalizing s with
  | zero => simp [advance]
  | succ n ih =>
    rw [Nat.succ_add, advance, advance, ih]

theorem advance_parserPayload (n : Nat) (s : State) :
    (advance n s).IdentifierStr = s.IdentifierStr ∧ (advance n s).NumVal = s.NumVal := by
  induction n generalizing s with
  | zero => exact ⟨rfl, rfl⟩
  | succ n ih =>
    rw [advance]
    have h1 := ih (getNextToken s)
    have h2 := getNextToken_parserPayload s
    exact ⟨h1.1.trans h2.1, h1.2.trans h2.2⟩

/-- The parameter loop on `k` identifiers followed by another token: it returns the `k`
names read from the parser's own `IdentifierStr` and stops on that token. -/
theorem parsePrototypeArgs_run (k : Nat) (fuel : Nat) (ArgNames : List (List Nat))
    (s : State) (hid : ∀ i, i < k → (advance (1 + i) s).currentToken = Token.identifier)
    (hend : (advance (1 + k) s).currentToken ≠ Token.identifier) (hf : k + 1 ≤ fuel) :
    parsePrototypeArgs fuel ArgNames s
      = .returned (some (ArgNames ++ List.replicate k s.IdentifierStr))
          (advance (1 + k) s) := by
  induction k generalizing fuel ArgNames s with
  | zero =>
    obtain ⟨f, rfl⟩ : ∃ f, fuel = f + 1 := ⟨fuel - 1, by omega⟩
    rw [parsePrototypeArgs]
    have h1 : ¬ ((getNextToken s).currentToken = Token.identifier) := hend
    simp only [h1, if_false, List.replicate_zero, List.append_nil]
    rfl
  | succ k ih =>
    obtain ⟨f, rfl⟩ : ∃ f, fuel = f + 1 := ⟨fuel - 1, by omega⟩
    rw [parsePrototypeArgs]
    have h1 : (getNextToken s).currentToken = Token.identifier := hid 0 (by omega)
    simp only [h1, if_true]
    have hp := (getNextToken_parserPayload s).1
    rw [ih f (ArgNames ++ [(getNextToken s).IdentifierStr]) (getNextToken s)
      (fun i hi => by
        have := hid (i + 1) (by omega)
        rw [show 1 + (i + 1) = (1 + i) + 1 by omega, advance] at this
        exact this)
      (by
        rw [show 1 + (k + 1) = (1 + k) + 1 by omega, advance] at hend
        exact hend)
      (by omega)]
    rw [hp, List.append_assoc, List.singleton_append, ← List.replicate_succ]
    rw [show 1 + (k + 1) = (1 + k) + 1 by omega, advance]

/-- When the parameter loop returns, it has read some `k` identifiers and stands on the
first token after them that is not an identifier. -/
theorem parsePrototypeArgs_stops (fuel : Nat) (ArgNames : List (List Nat)) (s : State)
    (r : Option (List (List Nat))) (s1 : State)
    (h : parsePrototypeArgs fuel ArgNames s = .returned r s1) :
    ∃ k, (∀ i, i < k → (advance (1 + i) s).currentToken = Token.identifier) ∧
      s1 = advance (1 + k) s ∧ s1.currentToken ≠ Token.identifier := by
  induction fuel generalizing ArgNames s with
  | zero => simp [parsePrototypeArgs] at h
  | succ fuel ih =>
    rw [parsePrototypeArgs] at h
    split at h
    · rename_i hc
      obtain ⟨k, hk1, hk2, hk3⟩ := ih _ _ h
      refine ⟨k + 1, ?_, ?_, hk3⟩
      · intro i hi
        cases i with
        | zero => exact hc
        | succ i =>
          have := hk1 i (by omega)
          rw [show 1 + (i + 1) = (1 + i) + 1 by omega, advance]
          exact this
      · rw [show 1 + (k + 1) = (1 + k) + 1 by omega, advance]
        exact hk2
    · rename_i hc
      cases h
      exact ⟨0, fun i hi => absurd hi (Nat.not_lt_zero i), rfl, hc⟩

theorem parsePrototype_of_shape (s : State) (k : Nat) (hs : PrototypeShape s k)
    (fuel : Nat) (hf : k + 1 ≤ fuel) :
    parsePrototype fuel s
      = .returned (some ⟨s.IdentifierStr, List.replicate k s.IdentifierStr⟩)
          (advance (3 + k) s) := by
  obtain ⟨h0, h1, h2, h3⟩ := hs
  have h1n : (getNextToken s).currentToken = 40 := h1
  unfold parsePrototype
  have hrun := parsePrototypeArgs_run k fuel [] (getNextToken s)
    (fun i hi => by
      have := h2 i hi
      rw [show 2 + i = (1 + i) + 1 by omega, advance] at this
      exact this)
    (by
      rw [show 2 + k = (1 + k) + 1 by omega, advance] at h3
      rw [h3]
      decide)
    hf
  rw [show 2 + k = (1 + k) + 1 by omega, advance] at h3
  simp only [h0, h1n, ne_eq, not_true_eq_false, if_false, hrun, h3, List.nil_append,
    (getNextToken_parserPayload s).1]
  rw [show 3 + k = ((1 + k) + 1) + 1 by omega, advance_succ, advance]

/-- C12: `parsePrototype` returns a prototype exactly when the tokens from the current one
on are an identifier, `(`, a run of identifiers and `)`; otherwise it returns `nullptr`
with the diagnostic of the first check that fails: no function name, no `(` after the
name, or a run of parameters ended by a token that is not `)`, as the comma of
`foo(x, y)` is. -/
theorem parsePrototype_shape (s : State) :
    ((∃ fuel P s1, parsePrototype fuel s = .returned (some P) s1) ↔
      ∃ k, PrototypeShape s k) ∧
    (s.currentToken ≠ Token.identifier → ∀ fuel,
      parsePrototype fuel s
        = .returned none (eprint "Error: Expected function name in prototype\n" s)) ∧
    (s.currentToken = Token.identifier → (advance 1 s).currentToken ≠ 40 → ∀ fuel,
      parsePrototype fuel s
        = .returned none (eprint "Error: Expected '(' in prototype\n" (advance 1 s))) ∧
    (∀ k, s.currentToken = Token.identifier → (advance 1 s).currentToken = 40 →
      (∀ i, i < k → (advance (2 + i) s).currentToken = Token.identifier) →
      (advance (2 + k) s).currentToken ≠ Token.identifier →
      (advance (2 + k) s).currentToken ≠ 41 → ∀ fuel, k + 1 ≤ fuel →
      parsePrototype fuel s
        = .returned none (eprint "Error: Expected ')' in prototype\n" (advance (2 + k) s))) ∧
    (∀ k, PrototypeShape s k → ∀ fuel, k + 1 ≤ fuel →
      ∃ P, parsePrototype fuel s = .returned (some P) (advance (3 + k) s) ∧
        P.Args.length = k) ∧
    (parsePrototype 4 (State.ready (bytes "foo(x, y)"))).result = some none ∧
    (parsePrototype 4 (State.ready (bytes "foo(x, y)"))).state.map (fun s => s.stderr)
      = some ["Error: Expected ')' in prototype\n"] := by
  refine ⟨⟨?_, ?_⟩, ?_, ?_, ?_, ?_, by decide, by decide⟩
  · rintro ⟨fuel, P, s1, h⟩
    unfold parsePrototype at h
    split at h
    · cases (advances_logError h).2
    · rename_i h0
      simp only [ne_eq, not_not] at h0
      simp only [] at h
      split at h
      · cases (advances_logError h).2
      · rename_i h1
        simp only [ne_eq, not_not] at h1
        split at h
        · cases h
        · cases h
        · rename_i A sx heq
          obtain ⟨k, hk1, hk2, hk3⟩ := parsePrototypeArgs_stops _ _ _ _ _ heq
          split at h
          · cases (advances_logError h).2
          · rename_i h3
            simp only [ne_eq, not_not] at h3
            refine ⟨k, h0, h1, ?_, ?_⟩
            · intro i hi
              have := hk1 i hi
              rw [show 2 + i = (1 + i) + 1 by omega, advance]
              exact this
            · rw [show 2 + k = (1 + k) + 1 by omega, advance, ← hk2]
              exact h3
  · rintro ⟨k, hs⟩
    exact ⟨k + 1, _, _, parsePrototype_of_shape s k hs (k + 1) (le_refl _)⟩
  · intro h0 fuel
    unfold parsePrototype
    simp only [h0, ne_eq, not_false_eq_true, if_true]
    rfl
  · intro h0 h1 fuel
    have h1n : ¬ ((getNextToken s).currentToken = 40) := h1
    unfold parsePrototype
    simp only [h0, h1n, ne_eq, not_true_eq_false, not_false_eq_true, if_true, if_false]
    rfl
  · intro k h0 h1 h2 h3 h4 fuel hf
    have h1n : (getNextToken s).currentToken = 40 := h1
    have hrun := parsePrototypeArgs_run k fuel [] (getNextToken s)
      (fun i hi => by
        have := h2 i hi
        rw [show 2 + i = (1 + i) + 1 by omega, advance] at this
        exact this)
      (by
        rw [show 2 + k = (1 + k) + 1 by omega, advance] at h3
        exact h3)
      hf
    rw [show 2 + k = (1 + k) + 1 by omega, advance] at h4 ⊢
    unfold parsePrototype
    simp only [h0, h1n, ne_eq, not_true_eq_false, if_false, hrun, h4, not_false_eq_true,
      if_true]
    rfl
  · intro k hs fuel hf
    exact ⟨_, parsePrototype_of_shape s k hs fuel hf, List.length_replicate _ _⟩

theorem parsePrototype_shape_witness :
    ∃ P, parsePrototype 3 (State.ready (bytes "foo(x y)"))
        = .returned (some P) (advance 5 (State.ready (bytes "foo(x y)"))) ∧
      P.Args.length = 2 :=
  (parsePrototype_shape (State.ready (bytes "foo(x y)"))).2.2.2.2.1 2
    ⟨by decide, by decide, by decide, by decide⟩ 3 (by decide)

/-- C13: in the argument loop of a call, an argument that parsed and is followed by a
token other than `)` and `,` makes the loop return `nullptr` with the diagnostic
`Expected ')' or ',' in argument list`, whatever arguments were collected before; a
failure of a later turn of the loop, or of the argument itself as after a trailing
comma, is handed on; and `parseIdentifierExpr` hands it on without building a call
node. On `foo(1 2)`, `foo(1;`, `foo(1` and `foo(1,)` no node is returned. -/
theorem call_argument_separator :
    (∀ fuel Args s Arg s1, parseExpression fuel s = .returned (some Arg) s1 →
      s1.currentToken ≠ 41 → s1.currentToken ≠ 44 →
      parseCallArgs (fuel + 1) Args s
        = .returned none (eprint "Error: Expected ')' or ',' in argument list\n" s1)) ∧
    (∀ fuel Args s Arg s1 s2, parseExpression fuel s = .returned (some Arg) s1 →
      s1.currentToken = 44 →
      parseCallArgs fuel (Args ++ [Arg]) (getNextToken s1) = .returned none s2 →
      parseCallArgs (fuel + 1) Args s = .returned none s2) ∧
    (∀ fuel Args s s1, parseExpression fuel s = .returned none s1 →
      parseCallArgs (fuel + 1) Args s = .returned none s1) ∧
    (∀ fuel s s3, (getNextToken s).currentToken = 40 →
      (getNextToken (getNextToken s)).currentToken ≠ 41 →
      parseCallArgs fuel [] (getNextToken (getNextToken s)) = .returned none s3 →
      parseIdentifierExpr (fuel + 1) s = .returned none s3) ∧
    (parseIdentifierExpr 6 (State.ready (bytes "foo(1 2)"))).result = some none ∧
    (parseIdentifierExpr 6 (State.ready (bytes "foo(1 2)"))).state.map (fun s => s.stderr)
      = some ["Error: Expected ')' or ',' in argument list\n"] ∧
    (parseIdentifierExpr 6 (State.ready (bytes "foo(1;"))).result = some none ∧
    (parseIdentifierExpr 6 (State.ready (bytes "foo(1;"))).state.map (fun s => s.stderr)
      = some ["Error: Expected ')' or ',' in argument list\n"] ∧
    (parseIdentifierExpr 6 (State.ready (bytes "foo(1"))).result = some none ∧
    (parseIdentifierExpr 6 (State.ready (bytes "foo(1"))).state.map (fun s => s.stderr)
      = some ["Error: Expected ')' or ',' in argument list\n"] ∧
    (parseIdentifierExpr 8 (State.ready (bytes "foo(1,)"))).result = some none := by
  refine ⟨?_, ?_, ?_, ?_, rfl, by decide, rfl, by decide, rfl, by decide, rfl⟩
  · intro fuel Args s Arg s1 he h1 h2
    rw [parseCallArgs, he]
    simp only [h1, h2, ne_eq, not_false_eq_true, if_true, if_false]
    rfl
  · intro fuel Args s Arg s1 s2 he h1 hr
    have h41 : ¬ (s1.currentToken = 41) := by rw [h1]; decide
    rw [parseCallArgs, he]
    simp only [h1, h41, ne_eq, not_true_eq_false, if_false]
    have h44 : ¬ ((44 : Int) = 41) := by decide
    simp only [h44, if_false, hr]
  · intro fuel Args s s1 he
    rw [parseCallArgs, he]
  · intro fuel s s3 h1 h2 hr
    rw [parseIdentifierExpr]
    simp only [h1, h2, ne_eq, not_true_eq_false, not_false_eq_true, if_true, if_false, hr]

theorem call_argument_separator_witness :
    parseCallArgs 4 [] (advance 2 (State.ready (bytes "foo(1 2)")))
      = .returned none (eprint "Error: Expected ')' or ',' in argument list\n"
          (advance 3 (State.ready (bytes "foo(1 2)")))) :=
  call_argument_separator.1 3 [] (advance 2 (State.ready (bytes "foo(1 2)")))
    (ExprAST.NumberExprAST ⟨0, 0⟩) (advance 3 (State.ready (bytes "foo(1 2)")))
    rfl (by decide) (by decide)

/-- A parenthesised expression whose inside parses and is followed by `)` gives the tree of
the inside, with no node of its own, and the token after `)` becomes current. -/
theorem parseParenExpr_closed (fuel : Nat) (s s1 : State) (V : ExprAST)
    (he : parseExpression fuel (getNextToken s) = .returned (some V) s1)
    (hc : s1.currentToken = 41) :
    parseParenExpr (fuel + 1) s = .returned (some V) (getNextToken s1) := by
  rw [parseParenExpr, he]
  simp only [hc, ne_eq, not_true_eq_false, if_false]

/-- C18: on `(1+2)*3` the parentheses leave no node and the sum is the left operand of the
product, as the claim gives, but the three number nodes hold `0` and not `1`, `2`,
`3`. -/
theorem parseExpression_paren_payload :
    (parseExpression 8 (State.ready (bytes "(1+2)*3"))).result
      = some (some (BinaryExprAST 42
          (BinaryExprAST 43 (NumberExprAST ⟨0, 0⟩) (NumberExprAST ⟨0, 0⟩))
          (NumberExprAST ⟨0, 0⟩))) ∧
    (parsePrimary 8 (State.ready (bytes "(1+2)*3"))).result
      = some (some (BinaryExprAST 43 (NumberExprAST ⟨0, 0⟩) (NumberExprAST ⟨0, 0⟩))) ∧
    (parsePrimary 8 (State.ready (bytes "(1+2)*3"))).state.map (fun s => s.currentToken)
      = some 42 :=
  ⟨rfl, rfl, by decide⟩

/-! ## Identifier and number tokens -/

theorem readWhile_stop (p : Int → Bool) (l : List Nat) (h : p (nextChar l) = false) :
    readWhile p l = ([], nextChar l, l.tail) := by
  cases l with
  | nil => rfl
  | cons b rest =>
    have hb : p (b : Int) = false := h
    simp [readWhile, hb, nextChar]

theorem readWhile_run (p : Int → Bool) (run rest : List Nat)
    (hrun : ∀ b ∈ run, p (b : Int) = true) (hstop : p (nextChar rest) = false) :
    readWhile p (run ++ rest) = (run, nextChar rest, rest.tail) := by
  induction run with
  | nil => exact readWhile_stop p rest hstop
  | cons b run ih =>
    have hb : p (b : Int) = true := hrun b (List.mem_cons_self _ _)
    have := ih (fun x hx => hrun x (List.mem_cons_of_mem _ hx))
    rw [List.cons_append, readWhile, if_pos hb, this]

/-- The first step of `getToken`, on a whitespace lookahead followed by the whitespace
`ws` and then a character that is not whitespace. -/
theorem skipWhitespace_run (s : State) (ws rest : List Nat)
    (hl : isspace s.lastChar = true) (hin : s.stdin = ws ++ rest)
    (hws : ∀ b ∈ ws, isspace (b : Int) = true) (hstop : isspace (nextChar rest) = false) :
    skipWhitespace s = { s with lastChar := nextChar rest, stdin := rest.tail } := by
  unfold skipWhitespace
  simp only [hl, if_true, hin, readWhile_run isspace ws rest hws hstop]

theorem isalpha_not_space {c : Int} (h : isalpha c = true) : isspace c = false := by
  simp only [isalpha, isspace, Bool.or_eq_true, Bool.and_eq_true, decide_eq_true_eq,
    beq_iff_eq, Bool.or_eq_false_iff, Bool.and_eq_false_iff, decide_eq_false_iff_not,
    beq_eq_false_iff_ne, ne_eq] at h ⊢
  omega

theorem isNumChar_not_space {c : Int} (h : isNumChar c = true) : isspace c = false := by
  simp only [isNumChar, isdigit, isspace, Bool.or_eq_true, Bool.and_eq_true,
    decide_eq_true_eq, beq_iff_eq, Bool.or_eq_false_iff, Bool.and_eq_false_iff,
    decide_eq_false_iff_not, beq_eq_false_iff_ne, ne_eq] at h ⊢
  omega

theorem isNumChar_not_alpha {c : Int} (h : isNumChar c = true) : isalpha c = false := by
  simp only [isNumChar, isdigit, isalpha, Bool.or_eq_true, Bool.and_eq_true,
    decide_eq_true_eq, beq_iff_eq, Bool.or_eq_false_iff, Bool.and_eq_false_iff,
    decide_eq_false_iff_not] at h ⊢
  omega

theorem skipWhitespace_of_not_space (s : State) (h : isspace s.lastChar = false) :
    skipWhitespace s = s := by
  unfold skipWhitespace
  simp [h]

/-- On an alphabetic lookahead `getToken` takes the whole run of alphanumeric characters
that follows as the identifier text and stops on the character that ends the run. -/
theorem getToken_identifier_run (s : State) (run rest : List Nat)
    (ha : isalpha s.lastChar = true) (hin : s.stdin = run ++ rest)
    (hrun : ∀ b ∈ run, isalnum (b : Int) = true) (hstop : isalnum (nextChar rest) = false) :
    getToken s = (identifierToken (s.lastChar.toNat :: run),
      { s with lexerIdentifierStr := s.lastChar.toNat :: run, lastChar := nextChar rest,
               stdin := rest.tail }) := by
  have hr := readWhile_run isalnum run rest hrun hstop
  unfold getToken
  rw [getTokenFuel, skipWhitespace_of_not_space s (isalpha_not_space ha)]
  simp only [ha, if_true, hin, hr]
  unfold identifierToken
  split
  · rfl
  · split <;> rfl

/-- On a lookahead that starts a number `getToken` takes the whole run of digits and dots
that follows, converts the text with `strtod` and stops on the character that ends
the run. -/
theorem getToken_number_run (s : State) (run rest : List Nat)
    (ha : isNumChar s.lastChar = true) (hin : s.stdin = run ++ rest)
    (hrun : ∀ b ∈ run, isNumChar (b : Int) = true)
    (hstop : isNumChar (nextChar rest) = false) :
    getToken s = (Token.number,
      { s with lexerNumVal := strtod (s.lastChar.toNat :: run), lastChar := nextChar rest,
               stdin := rest.tail }) := by
  have hr := readWhile_run isNumChar run rest hrun hstop
  unfold getToken
  rw [getTokenFuel, skipWhitespace_of_not_space s (isNumChar_not_space ha)]
  simp only [isNumChar_not_alpha ha, ha, if_true, hin, hr, Bool.false_eq_true, if_false]
  rfl

/-- The tokenizer's result does not change when the whitespace in front is skipped
first. -/
theorem getToken_skipWhitespace (s : State) (ws rest : List Nat)
    (hl : isspace s.lastChar = true) (hin : s.stdin = ws ++ rest)
    (hws : ∀ b ∈ ws, isspace (b : Int) = true) (hstop : isspace (nextChar rest) = false)
    (hne : nextChar rest ≠ 35) :
    getToken s = getToken { s with lastChar := nextChar rest, stdin := rest.tail } := by
  have hsk := skipWhitespace_run s ws rest hl hin hws hstop
  have hsk2 : skipWhitespace { s with lastChar := nextChar rest, stdin := rest.tail }
      = { s with lastChar := nextChar rest, stdin := rest.tail } :=
    skipWhitespace_of_not_space _ hstop
  unfold getToken
  rw [getTokenFuel, getTokenFuel, hsk, hsk2]
  simp only [hne, if_false]
  split
  · split
    · rfl
    · split <;> rfl
  · split <;> rfl

theorem identifierToken_def (ident : List Nat) :
    identifierToken ident = Token.def_ ↔ ident = bytes "def" := by
  unfold identifierToken
  split
  · rename_i h
    exact ⟨fun _ => h, fun _ => rfl⟩
  · rename_i h
    split
    · exact ⟨fun h2 => absurd h2 (by decide), fun h2 => absurd h2 h⟩
    · exact ⟨fun h2 => absurd h2 (by decide), fun h2 => absurd h2 h⟩

theorem identifierToken_ext (ident : List Nat) :
    identifierToken ident = Token.ext ↔ ident = bytes "extern" := by
  unfold identifierToken
  split
  · rename_i h
    refine ⟨fun h2 => absurd h2 (by decide), fun h2 => ?_⟩
    rw [h] at h2
    exact absurd h2 (by decide)
  · split
    · rename_i h
      exact ⟨fun _ => h, fun _ => rfl⟩
    · rename_i h
      exact ⟨fun h2 => absurd h2 (by decide), fun h2 => absurd h2 h⟩

/-- C15: when the characters still to be read are whitespace `ws`, an alphabetic
character `a`, alphanumeric characters `run` and then a rest that does not start with
an alphanumeric character, `getToken` stores the whole text `a :: run`, leaves the first
character of the rest as the lookahead, and returns the `def` token exactly for the
text `def`, the `extern` token exactly for the text `extern`, and the identifier token
for every other text, such as `define`, `def1`, `Def` and `externs`. -/
theorem getToken_identifier_maximal_munch (s : State) (ws run rest : List Nat) (a : Nat)
    (hc : 0 ≤ s.lastChar) (hin : s.lastChar.toNat :: s.stdin = ws ++ a :: (run ++ rest))
    (hws : ∀ b ∈ ws, isspace (b : Int) = true) (ha : isalpha (a : Int) = true)
    (hrun : ∀ b ∈ run, isalnum (b : Int) = true) (hstop : isalnum (nextChar rest) = false) :
    getToken s = (identifierToken (a :: run),
      { s with lexerIdentifierStr := a :: run, lastChar := nextChar rest,
               stdin := rest.tail }) ∧
    (identifierToken (a :: run) = Token.def_ ↔ a :: run = bytes "def") ∧
    (identifierToken (a :: run) = Token.ext ↔ a :: run = bytes "extern") ∧
    (a :: run ≠ bytes "def" → a :: run ≠ bytes "extern" →
      identifierToken (a :: run) = Token.identifier) ∧
    identifierToken (bytes "define") = Token.identifier ∧
    identifierToken (bytes "def1") = Token.identifier ∧
    identifierToken (bytes "Def") = Token.identifier ∧
    identifierToken (bytes "externs") = Token.identifier := by
  refine ⟨?_, identifierToken_def _, identifierToken_ext _, ?_, by decide, by decide,
    by decide, by decide⟩
  · have hlast : ((s.lastChar.toNat : Nat) : Int) = s.lastChar := Int.toNat_of_nonneg hc
    cases ws with
    | nil =>
      simp only [List.nil_append, List.cons.injEq] at hin
      have hl : s.lastChar = (a : Int) := by rw [← hlast, hin.1]
      have := getToken_identifier_run s run rest (by rw [hl]; exact ha) hin.2 hrun hstop
      rw [this, hin.1]
    | cons w ws =>
      simp only [List.cons_append, List.cons.injEq] at hin
      have hl : s.lastChar = (w : Int) := by rw [← hlast, hin.1]
      have hsp : isspace s.lastChar = true := by
        rw [hl]
        exact hws w (List.mem_cons_self _ _)
      have h35 : nextChar (a :: (run ++ rest)) ≠ 35 := by
        intro h
        have h2 : (a : Int) = 35 := h
        rw [h2] at ha
        exact absurd ha (by decide)
      rw [getToken_skipWhitespace s ws (a :: (run ++ rest)) hsp hin.2
        (fun b hb => hws b (List.mem_cons_of_mem _ hb)) (isalpha_not_space ha) h35]
      have := getToken_identifier_run
        { s with lastChar := nextChar (a :: (run ++ rest)),
                 stdin := (a :: (run ++ rest)).tail } run rest ha rfl hrun hstop
      rw [this]
      simp only [nextChar, Int.toNat_ofNat]
  · intro h1 h2
    unfold identifierToken
    simp only [h1, h2, if_false]

theorem getToken_identifier_maximal_munch_witness :
    (getToken (State.start (bytes " \tdefine(x)"))).1 = Token.identifier ∧
    (getToken (State.start (bytes " \tdefine(x)"))).2.lexerIdentifierStr = bytes "define" ∧
    (getToken (State.start (bytes " \tdefine(x)"))).2.lastChar = 40 ∧
    (getToken (State.start (bytes " \tdefine(x)"))).2.stdin = bytes "x)" := by
  have h := (getToken_identifier_maximal_munch (State.start (bytes " \tdefine(x)"))
    (bytes "  \t") (bytes "efine") (bytes "(x)") 100 (by decide) (by decide) (by decide)
    (by decide) (by decide) (by decide)).1
  rw [h]
  exact ⟨by decide, by decide, by decide, by decide⟩

/-- C16: when the characters still to be read are whitespace `ws`, a digit or dot `d`,
digits and dots `run` and then a rest that does not start with a digit or a dot,
one call of `getToken` returns the number token, stores `strtod` of the whole text
`d :: run` and leaves the first character of the rest as the lookahead; `strtod`
converts the longest prefix that is a numeral, so `1.2.3` gives the value of `1.2` and
a lone `.` gives `0`. -/
theorem getToken_number_permissive (s : State) (ws run rest : List Nat) (d : Nat)
    (hc : 0 ≤ s.lastChar) (hin : s.lastChar.toNat :: s.stdin = ws ++ d :: (run ++ rest))
    (hws : ∀ b ∈ ws, isspace (b : Int) = true) (hd : isNumChar (d : Int) = true)
    (hrun : ∀ b ∈ run, isNumChar (b : Int) = true)
    (hstop : isNumChar (nextChar rest) = false) :
    getToken s = (Token.number,
      { s with lexerNumVal := strtod (d :: run), lastChar := nextChar rest,
               stdin := rest.tail }) ∧
    strtod (bytes "1.2.3") = ⟨12, 1⟩ ∧ strtod (bytes "1.2") = ⟨12, 1⟩ ∧
    strtod (bytes ".") = ⟨0, 0⟩ ∧ strtod (bytes "..5") = ⟨0, 0⟩ ∧
    strtod (bytes "42") = ⟨42, 0⟩ := by
  refine ⟨?_, by decide, by decide, by decide, by decide, by decide⟩
  have hlast : ((s.lastChar.toNat : Nat) : Int) = s.lastChar := Int.toNat_of_nonneg hc
  cases ws with
  | nil =>
    simp only [List.nil_append, List.cons.injEq] at hin
    have hl : s.lastChar = (d : Int) := by rw [← hlast, hin.1]
    have := getToken_number_run s run rest (by rw [hl]; exact hd) hin.2 hrun hstop
    rw [this, hin.1]
  | cons w ws =>
    simp only [List.cons_append, List.cons.injEq] at hin
    have hl : s.lastChar = (w : Int) := by rw [← hlast, hin.1]
    have hsp : isspace s.lastChar = true := by
      rw [hl]
      exact hws w (List.mem_cons_self _ _)
    have h35 : nextChar (d :: (run ++ rest)) ≠ 35 := by
      intro h
      have h2 : (d : Int) = 35 := h
      rw [h2] at hd
      exact absurd hd (by decide)
    rw [getToken_skipWhitespace s ws (d :: (run ++ rest)) hsp hin.2
      (fun b hb => hws b (List.mem_cons_of_mem _ hb)) (isNumChar_not_space hd) h35]
    have := getToken_number_run
      { s with lastChar := nextChar (d :: (run ++ rest)),
               stdin := (d :: (run ++ rest)).tail } run rest hd rfl hrun hstop
    rw [this]
    simp only [nextChar, Int.toNat_ofNat]

theorem getToken_number_permissive_witness :
    (getToken (State.start (bytes "1.2.3+4"))).1 = Token.number ∧
    (getToken (State.start (bytes "1.2.3+4"))).2.lexerNumVal = ⟨12, 1⟩ ∧
    (getToken (State.start (bytes "1.2.3+4"))).2.lastChar = 43 ∧
    (getToken (State.start (bytes "1.2.3+4"))).2.stdin = bytes "4" := by
  have h := (getToken_number_permissive (State.start (bytes "1.2.3+4"))
    (bytes " ") (bytes ".2.3") (bytes "+4") 49 (by decide) (by decide) (by decide)
    (by decide) (by decide) (by decide)).1
  rw [h]
  exact ⟨by decide, by decide, by decide, by decide⟩

/-! ## Comments -/

theorem readWhile_last (p : Int → Bool) (hp : p EOF = false) (l : List Nat) :
    p (readWhile p l).2.1 = false := by
  induction l with
  | nil => exact hp
  | cons b rest ih =>
    by_cases hb : p (b : Int) = true
    · simp only [readWhile, hb, if_true]
      exact ih
    · simp only [readWhile, hb]
      simpa using hb

theorem skipWhitespace_not_space (s : State) : isspace (skipWhitespace s).lastChar = false := by
  unfold skipWhitespace
  by_cases h : isspace s.lastChar = true
  · simp only [h, if_true]
    exact readWhile_last isspace rfl s.stdin
  · simp only [h]
    simpa using h

theorem skipWhitespace_idem (s : State) : skipWhitespace (skipWhitespace s) = skipWhitespace s :=
  skipWhitespace_of_not_space _ (skipWhitespace_not_space s)

/-- A call of `getToken` gives the same as a call made after its whitespace loop
has run. -/
theorem getTokenFuel_skipWhitespace (fuel : Nat) (s : State) :
    getTokenFuel fuel (skipWhitespace s) = getTokenFuel fuel s := by
  cases fuel with
  | zero => rfl
  | succ fuel => rw [getTokenFuel, getTokenFuel, skipWhitespace_idem]

/-- The result of `getToken` does not depend on the fuel, once the fuel is above the
number of unread bytes. -/
theorem getTokenFuel_fuel (f1 f2 : Nat) (s : State) (h1 : s.stdin.length < f1)
    (h2 : s.stdin.length < f2) : getTokenFuel f1 s = getTokenFuel f2 s := by
  induction f1 generalizing f2 s with
  | zero => omega
  | succ f1 ih =>
    obtain ⟨g, rfl⟩ : ∃ g, f2 = g + 1 := ⟨f2 - 1, by omega⟩
    rw [getTokenFuel, getTokenFuel]
    simp only []
    split
    · rfl
    · split
      · rfl
      · split
        · split
          · rename_i hne
            have hr := readWhile_pending inComment (skipWhitespace s).stdin
            have hs := stdin_skipWhitespace s
            simp only [ne_eq] at hne
            simp only [hne, if_false] at hr
            exact ih g _ (by simp only []; omega) (by simp only []; omega)
          · rfl
        · rfl

theorem getTokenFuel_eq_getToken (fuel : Nat) (s : State) (h : s.stdin.length < fuel) :
    getTokenFuel fuel s = some (getToken s) := by
  rw [getTokenFuel_fuel fuel (s.stdin.length + 1) s h (Nat.lt_succ_self _)]
  exact getToken_eq s

/-- A read loop over `l ++ rest` either stops inside `l`, at the same place whatever `rest`
is, or runs through all of `l`. -/
theorem readWhile_split (p : Int → Bool) (l : List Nat) :
    (∃ (l1 : List Nat) (b : Nat) (l2 : List Nat), l = l1 ++ b :: l2 ∧ p (b : Int) = false ∧
      ∀ rest, readWhile p (l ++ rest) = (l1, (b : Int), l2 ++ rest)) ∨
    (∀ b ∈ l, p (b : Int) = true) := by
  induction l with
  | nil => right; intro b hb; cases hb
  | cons a l ih =>
    by_cases ha : p (a : Int) = true
    · rcases ih with ⟨l1, b, l2, h1, h2, h3⟩ | h
      · left
        refine ⟨a :: l1, b, l2, by rw [h1]; rfl, h2, fun rest => ?_⟩
        rw [List.cons_append, readWhile, if_pos ha, h3 rest]
      · right
        intro b hb
        rcases List.mem_cons.1 hb with hb | hb
        · rw [hb]; exact ha
        · exact h b hb
    · left
      refine ⟨[], a, l, rfl, by simpa using ha, fun rest => ?_⟩
      rw [List.cons_append, readWhile, if_neg ha]

theorem readWhile_all (p : Int → Bool) (l rest : List Nat)
    (h : ∀ b ∈ l, p (b : Int) = true) :
    (readWhile p (l ++ rest)).2 = (readWhile p rest).2 := by
  induction l with
  | nil => rfl
  | cons a l ih =>
    have ha : p (a : Int) = true := h a (List.mem_cons_self _ _)
    rw [List.cons_append, readWhile, if_pos ha]
    exact ih (fun b hb => h b (List.mem_cons_of_mem _ hb))

/-- After the whitespace loop, two related states are related with the first one not on
whitespace. -/
theorem CommentRel.skipWhitespace {c s2 : List Nat} {sA sB : State}
    (h : CommentRel c s2 sA sB) :
    (∃ l, isspace (LlvmSample.skipWhitespace sA).lastChar = false ∧
        (LlvmSample.skipWhitespace sA).stdin = l ++ 35 :: (c ++ 10 :: s2) ∧
        LlvmSample.skipWhitespace sB
          = { LlvmSample.skipWhitespace sA with stdin := l ++ 10 :: s2 }) ∨
    ((LlvmSample.skipWhitespace sA).lastChar = 35 ∧
        (LlvmSample.skipWhitespace sA).stdin = c ++ 10 :: s2 ∧
        LlvmSample.skipWhitespace sB = LlvmSample.skipWhitespace
          { LlvmSample.skipWhitespace sA with lastChar := 10, stdin := s2 }) ∨
    LlvmSample.skipWhitespace sA = LlvmSample.skipWhitespace sB := by
  rcases h with ⟨l, h1, h2⟩ | ⟨h1, h2, h3⟩ | h
  · by_cases hsp : isspace sA.lastChar = true
    · have hA : LlvmSample.skipWhitespace sA
          = { sA with lastChar := (readWhile isspace sA.stdin).2.1,
                      stdin := (readWhile isspace sA.stdin).2.2 } := by
        unfold LlvmSample.skipWhitespace
        simp only [hsp, if_true]
      have hB : LlvmSample.skipWhitespace sB
          = { sA with lastChar := (readWhile isspace (l ++ 10 :: s2)).2.1,
                      stdin := (readWhile isspace (l ++ 10 :: s2)).2.2 } := by
        rw [h2]
        unfold LlvmSample.skipWhitespace
        simp only [hsp, if_true]
      rcases readWhile_split isspace l with ⟨l1, b, l2, e1, e2, e3⟩ | hall
      · left
        refine ⟨l2, ?_, ?_, ?_⟩
        · rw [hA, h1, e3]
          exact e2
        · rw [hA, h1, e3]
        · rw [hA, hB, h1, e3, e3]
      · right; left
        have hrA := readWhile_run isspace l (35 :: (c ++ 10 :: s2)) hall rfl
        refine ⟨?_, ?_, ?_⟩
        · rw [hA, h1, hrA]
          rfl
        · rw [hA, h1, hrA]
          rfl
        · rw [hB, hA, h1, hrA]
          have hl2 : ∀ b : Nat, b ∈ l ++ [10] → isspace (b : Int) = true := by
            intro b hb
            rcases List.mem_append.1 hb with hb | hb
            · exact hall b hb
            · rw [List.mem_singleton.1 hb]
              rfl
          have := readWhile_all isspace (l ++ [10]) s2 hl2
          rw [List.append_assoc, List.singleton_append] at this
          rw [this]
          unfold LlvmSample.skipWhitespace
          simp only [show isspace (10 : Int) = true from rfl, if_true]
    · have hsp2 : isspace sA.lastChar = false := by simpa using hsp
      have hA := skipWhitespace_of_not_space sA hsp2
      have hB : LlvmSample.skipWhitespace sB = sB := by
        apply skipWhitespace_of_not_space
        rw [h2]
        exact hsp2
      left
      exact ⟨l, by rw [hA]; exact hsp2, by rw [hA]; exact h1, by rw [hA, hB]; exact h2⟩
  · have hA : LlvmSample.skipWhitespace sA = sA :=
      skipWhitespace_of_not_space sA (by rw [h1]; rfl)
    right; left
    exact ⟨by rw [hA]; exact h1, by rw [hA]; exact h2, by rw [hA]; exact h3⟩
  · right; right
    rw [h]

theorem identifier_branch (ident : List Nat) (s1 : State) :
    (if ident = bytes "def" then some (Token.def_, s1)
      else if ident = bytes "extern" then some (Token.ext, s1)
      else some (Token.identifier, s1)) = some (identifierToken ident, s1) := by
  unfold identifierToken
  split
  · rfl
  · split <;> rfl

theorem inComment_of_not_eol (b : Nat) (h : b ≠ 10 ∧ b ≠ 13) : inComment (b : Int) = true := by
  simp only [inComment, EOF, Bool.and_eq_true, bne_iff_ne, ne_eq]
  omega

theorem nat_ne_EOF (b : Nat) : (b : Int) ≠ EOF := by
  simp only [EOF, ne_eq]
  omega

/-- One call of `getToken` from two related states gives the same token and the same
captured text and value, and leaves related states. -/
theorem getTokenFuel_commentRel (c s2 : List Nat) (hc : ∀ b ∈ c, b ≠ 10 ∧ b ≠ 13)
    (fA fB : Nat) (sA sB : State) (h : CommentRel c s2 sA sB)
    (hA : sA.stdin.length < fA) (hB : sB.stdin.length < fB) :
    ∃ t sA1 sB1, getTokenFuel fA sA = some (t, sA1) ∧ getTokenFuel fB sB = some (t, sB1) ∧
      CommentRel c s2 sA1 sB1 ∧ sA1.lexerIdentifierStr = sB1.lexerIdentifierStr ∧
      sA1.lexerNumVal = sB1.lexerNumVal := by
  induction fA generalizing fB sA sB with
  | zero => omega
  | succ fA ih =>
    obtain ⟨gB, rfl⟩ : ∃ g, fB = g + 1 := ⟨fB - 1, by omega⟩
    have hlA := stdin_skipWhitespace sA
    have hlB := stdin_skipWhitespace sB
    have hn := CommentRel.skipWhitespace h
    rw [← getTokenFuel_skipWhitespace (fA + 1) sA, ← getTokenFuel_skipWhitespace (gB + 1) sB]
    have hidA := skipWhitespace_idem sA
    have hidB := skipWhitespace_idem sB
    generalize skipWhitespace sA = tA at hlA hidA hn
    generalize skipWhitespace sB = tB at hlB hidB hn
    rcases hn with ⟨l, hsp, hin, hB2⟩ | ⟨h35, hin, hB2⟩ | heq
    · -- both still have `l` to read
      subst hB2
      have hlen : (l ++ 35 :: (c ++ 10 :: s2)).length = l.length + (c.length + s2.length + 2) := by
        simp only [List.length_append, List.length_cons]
        omega
      have hlenB : (l ++ 10 :: s2).length = l.length + s2.length + 1 := by
        simp only [List.length_append, List.length_cons]
        omega
      have hfA : l.length + (c.length + s2.length + 2) < fA + 1 := by
        rw [← hlen, ← hin]
        omega
      have hfB : l.length + s2.length + 1 < gB + 1 := by
        rw [← hlenB]
        exact Nat.lt_of_le_of_lt hlB hB
      rw [getTokenFuel, getTokenFuel, hidA, hidB]
      simp only [hin]
      by_cases halpha : isalpha tA.lastChar = true
      · simp only [halpha, if_true, identifier_branch]
        rcases readWhile_split isalnum l with ⟨l1, b, l2, e1, e2, e3⟩ | hall
        · simp only [e3]
          exact ⟨_, _, _, rfl, rfl, Or.inl ⟨l2, rfl, rfl⟩, rfl, rfl⟩
        · rw [readWhile_run isalnum l (35 :: (c ++ 10 :: s2)) hall rfl,
            readWhile_run isalnum l (10 :: s2) hall rfl]
          exact ⟨_, _, _, rfl, rfl, Or.inr (Or.inl ⟨rfl, rfl, rfl⟩), rfl, rfl⟩
      · by_cases hnum : isNumChar tA.lastChar = true
        · simp only [halpha, hnum, if_true, if_false, Bool.false_eq_true]
          rcases readWhile_split isNumChar l with ⟨l1, b, l2, e1, e2, e3⟩ | hall
          · simp only [e3]
            exact ⟨_, _, _, rfl, rfl, Or.inl ⟨l2, rfl, rfl⟩, rfl, rfl⟩
          · rw [readWhile_run isNumChar l (35 :: (c ++ 10 :: s2)) hall rfl,
              readWhile_run isNumChar l (10 :: s2) hall rfl]
            exact ⟨_, _, _, rfl, rfl, Or.inr (Or.inl ⟨rfl, rfl, rfl⟩), rfl, rfl⟩
        · by_cases h35 : tA.lastChar = 35
          · simp only [halpha, hnum, h35, if_true, if_false, Bool.false_eq_true]
            rcases readWhile_split inComment l with ⟨l1, b, l2, e1, e2, e3⟩ | hall
            · have hb := nat_ne_EOF b
              simp only [e3, hb, ne_eq, not_false_eq_true, if_true]
              have hl : l.length = l1.length + l2.length + 1 := by
                rw [e1]
                simp only [List.length_append, List.length_cons]
                omega
              apply ih
              · exact Or.inl ⟨l2, rfl, rfl⟩
              · simp only [List.length_append, List.length_cons]
                omega
              · simp only [List.length_append, List.length_cons]
                omega
            · have hall2 : ∀ b : Nat, b ∈ l ++ 35 :: c → inComment (b : Int) = true := by
                intro b hb
                rcases List.mem_append.1 hb with hb | hb
                · exact hall b hb
                · rcases List.mem_cons.1 hb with hb | hb
                  · rw [hb]; rfl
                  · exact inComment_of_not_eol b (hc b hb)
              have e : l ++ 35 :: (c ++ 10 :: s2) = (l ++ 35 :: c) ++ 10 :: s2 := by
                simp only [List.append_assoc, List.cons_append]
              rw [e, readWhile_run inComment (l ++ 35 :: c) (10 :: s2) hall2 rfl,
                readWhile_run inComment l (10 :: s2) hall rfl]
              have h10 : (nextChar (10 :: s2) : Int) ≠ EOF := by
                show (10 : Int) ≠ EOF
                decide
              simp only [h10, ne_eq, not_false_eq_true, if_true]
              refine ⟨_, _, _, getTokenFuel_eq_getToken fA _ ?_, getTokenFuel_eq_getToken gB _ ?_,
                Or.inr (Or.inr rfl), rfl, rfl⟩
              · simp only [List.tail_cons]
                omega
              · simp only [List.tail_cons]
                omega
          · simp only [halpha, hnum, h35, if_false, Bool.false_eq_true]
            unfold getTokenChar
            by_cases heof : tA.lastChar = EOF
            · have heofB : ({ tA with stdin := l ++ 10 :: s2 } : State).lastChar = EOF := heof
              rw [if_pos heof, if_pos heofB]
              exact ⟨_, _, _, rfl, rfl, Or.inl ⟨l, hin, rfl⟩, rfl, rfl⟩
            · simp only [heof, if_false]
              unfold getchar
              cases l with
              | nil =>
                simp only [hin, List.nil_append]
                exact ⟨_, _, _, rfl, rfl, Or.inr (Or.inl ⟨rfl, rfl, rfl⟩), rfl, rfl⟩
              | cons b l =>
                simp only [hin, List.cons_append]
                exact ⟨_, _, _, rfl, rfl, Or.inl ⟨l, rfl, rfl⟩, rfl, rfl⟩
    · -- the first stands on the `#`, the second on the line end
      have hcs : ∀ b : Nat, b ∈ c → inComment (b : Int) = true :=
        fun b hb => inComment_of_not_eol b (hc b hb)
      have hlen : tA.stdin.length = c.length + s2.length + 1 := by
        rw [hin]
        simp only [List.length_append, List.length_cons]
        omega
      have hstep : getTokenFuel (fA + 1) tA
          = getTokenFuel fA { tA with lastChar := 10, stdin := s2 } := by
        rw [getTokenFuel, hidA]
        have ha : isalpha (35 : Int) = false := rfl
        have hn : isNumChar (35 : Int) = false := rfl
        have h10 : (nextChar (10 :: s2) : Int) ≠ EOF := by
          show (10 : Int) ≠ EOF
          decide
        simp only [h35, ha, hn, if_true, if_false, Bool.false_eq_true, hin,
          readWhile_run inComment c (10 :: s2) hcs rfl, h10, ne_eq, not_false_eq_true]
        rfl
      rw [hstep, ← getTokenFuel_skipWhitespace fA, ← hB2]
      refine ⟨_, _, _, getTokenFuel_eq_getToken fA _ ?_, getTokenFuel_eq_getToken (gB + 1) _ ?_,
        Or.inr (Or.inr rfl), rfl, rfl⟩
      · have := stdin_skipWhitespace { tA with lastChar := 10, stdin := s2 }
        rw [← hB2] at this
        simp only [] at this
        omega
      · omega
    · -- both are past the comment
      subst heq
      exact ⟨_, _, _, getTokenFuel_eq_getToken (fA + 1) _ (by omega),
        getTokenFuel_eq_getToken (gB + 1) _ (by omega), Or.inr (Or.inr rfl), rfl, rfl⟩

theorem lexStream_commentRel (c s2 : List Nat) (hc : ∀ b ∈ c, b ≠ 10 ∧ b ≠ 13) (n : Nat)
    (sA sB : State) (h : CommentRel c s2 sA sB) : lexStream n sA = lexStream n sB := by
  induction n generalizing sA sB with
  | zero => rfl
  | succ n ih =>
    obtain ⟨t, sA1, sB1, hA, hB, hrel, hid, hnum⟩ :=
      getTokenFuel_commentRel c s2 hc (sA.stdin.length + 1) (sB.stdin.length + 1) sA sB h
        (Nat.lt_succ_self _) (Nat.lt_succ_self _)
    have eA : getToken sA = (t, sA1) := by
      have := getToken_eq sA
      rw [hA] at this
      exact (Option.some.inj this).symm
    have eB : getToken sB = (t, sB1) := by
      have := getToken_eq sB
      rw [hB] at this
      exact (Option.some.inj this).symm
    rw [lexStream, lexStream, eA, eB]
    simp only [hid, hnum, ih sA1 sB1 hrel]

theorem getTokenFuel_ne_hash (fuel : Nat) (s : State) (t : Int) (s1 : State)
    (h : getTokenFuel fuel s = some (t, s1)) : t ≠ 35 := by
  induction fuel generalizing s with
  | zero => simp [getTokenFuel] at h
  | succ fuel ih =>
    rw [getTokenFuel] at h
    simp only [identifier_branch] at h
    split at h
    · cases h
      unfold identifierToken
      split
      · decide
      · split <;> decide
    · split at h
      · cases h
        decide
      · split at h
        · split at h
          · exact ih _ h
          · rename_i he
            simp only [ne_eq, not_not] at he
            have hg := Option.some.inj h
            unfold getTokenChar at hg
            rw [if_pos he] at hg
            cases hg
            decide
        · rename_i h35
          have hg := Option.some.inj h
          unfold getTokenChar at hg
          split at hg
          · cases hg
            decide
          · cases hg
            exact h35

/-- C17: for every text `s1` before, every comment body `c` without a line end, and
every text `s2` after, any number of `getToken` calls give the same tokens, with the
same identifier text and numeric value, on `s1 # c \n s2` as on `s1 \n s2`; and no call
of `getToken` in any state returns the character `#` as a token. -/
theorem comment_is_line_break (s1 c s2 : List Nat) (hc : ∀ b ∈ c, b ≠ 10 ∧ b ≠ 13)
    (n : Nat) :
    lexStream n (State.start (s1 ++ 35 :: (c ++ 10 :: s2)))
      = lexStream n (State.start (s1 ++ 10 :: s2)) ∧
    ∀ s : State, (getToken s).1 ≠ 35 :=
  ⟨lexStream_commentRel c s2 hc n _ _ (Or.inl ⟨s1, rfl, rfl⟩),
    fun s => getTokenFuel_ne_hash _ s _ _ (getToken_eq s)⟩

theorem comment_is_line_break_witness :
    lexStream 6 (State.start (bytes "def f# (x) 1.5\n(x) 2#3"))
      = lexStream 6 (State.start (bytes "def f\n(x) 2#3")) :=
  (comment_is_line_break (bytes "def f") (bytes " (x) 1.5") (bytes "(x) 2#3")
    (by decide) 6).1

/-! ## Counting the tokens the parser consumes -/

theorem skipWhitespace_setMap (s : State) (m : List (Int × Int)) :
    skipWhitespace (setMap s m) = setMap (skipWhitespace s) m := by
  unfold skipWhitespace setMap
  simp only []
  split <;> rfl

theorem getTokenChar_setMap (s : State) (m : List (Int × Int)) :
    getTokenChar (setMap s m) = ((getTokenChar s).1, setMap (getTokenChar s).2 m) := by
  unfold getTokenChar getchar setMap
  simp only []
  split
  · rfl
  · split <;> rfl

theorem getTokenFuel_setMap (fuel : Nat) (s : State) (m : List (Int × Int)) :
    getTokenFuel fuel (setMap s m)
      = (getTokenFuel fuel s).map (fun r => (r.1, setMap r.2 m)) := by
  induction fuel generalizing s with
  | zero => rfl
  | succ fuel ih =>
    rw [getTokenFuel, getTokenFuel, skipWhitespace_setMap]
    simp only [identifier_branch]
    have e1 : (setMap (skipWhitespace s) m).lastChar = (skipWhitespace s).lastChar := rfl
    have e2 : (setMap (skipWhitespace s) m).stdin = (skipWhitespace s).stdin := rfl
    rw [e1, e2]
    split
    · rfl
    · split
      · rfl
      · split
        · split
          · exact ih { skipWhitespace s with
              lastChar := (readWhile inComment (skipWhitespace s).stdin).2.1
              stdin := (readWhile inComment (skipWhitespace s).stdin).2.2 }
          · simp only [Option.map_some']
            exact congrArg some (getTokenChar_setMap { skipWhitespace s with
              lastChar := (readWhile inComment (skipWhitespace s).stdin).2.1
              stdin := (readWhile inComment (skipWhitespace s).stdin).2.2 } m)
        · simp only [Option.map_some']
          exact congrArg some (getTokenChar_setMap (skipWhitespace s) m)

theorem getNextToken_setMap (s : State) (m : List (Int × Int)) :
    getNextToken (setMap s m) = setMap (getNextToken s) m := by
  have h := getTokenFuel_setMap (s.stdin.length + 1) s m
  rw [getToken_eq s] at h
  have h2 := getToken_eq (setMap s m)
  rw [show (setMap s m).stdin.length = s.stdin.length from rfl, h] at h2
  have h3 : getToken (setMap s m) = ((getToken s).1, setMap (getToken s).2 m) :=
    (Option.some.inj h2).symm
  unfold getNextToken
  rw [h3]
  rfl

theorem getNextToken_map (s : State) :
    (getNextToken s).binaryOperatorsPrecedence = s.binaryOperatorsPrecedence := by
  have h := getNextToken_setMap s s.binaryOperatorsPrecedence
  have e : setMap s s.binaryOperatorsPrecedence = s := rfl
  rw [e] at h
  rw [h]
  rfl

theorem advance_setMap (n : Nat) (s : State) (m : List (Int × Int)) :
    advance n (setMap s m) = setMap (advance n s) m := by
  induction n generalizing s with
  | zero => rfl
  | succ n ih => rw [advance, advance, getNextToken_setMap, ih]

theorem toks_setMap (n : Nat) (s : State) (m : List (Int × Int)) :
    toks n (setMap s m) = toks n s := by
  induction n generalizing s with
  | zero => rfl
  | succ n ih =>
    rw [toks, toks, getNextToken_setMap, ih]
    rfl

theorem toks_add (n k : Nat) (s : State) :
    toks (n + k) s = toks n s ++ toks k (advance n s) := by
  induction n generalizing s with
  | zero => simp [toks, advance]
  | succ n ih =>
    rw [Nat.succ_add, toks, toks, advance, ih (getNextToken s)]
    rfl

theorem Consumed.nothing (s : State) : Consumed 0 s s := rfl

theorem Consumed.andThen {k j : Nat} {a b c : State} (h1 : Consumed k a b)
    (h2 : Consumed j b c) : Consumed (k + j) a c := by
  unfold Consumed at *
  generalize b.binaryOperatorsPrecedence = mb at h1
  subst h1
  rw [advance_setMap, ← advance_add] at h2
  exact h2

theorem consumed_getNextToken (s : State) : Consumed 1 s (getNextToken s) := rfl

theorem consumed_getTokenPrecedence (s : State) : Consumed 0 s (getTokenPrecedence s).2 := by
  unfold Consumed getTokenPrecedence
  split
  · rfl
  · simp only []
    split <;> rfl

theorem Consumed.currentToken {k : Nat} {s s1 : State} (h : Consumed k s s1) :
    s1.currentToken = (advance k s).currentToken := by
  rw [h]
  rfl

theorem Consumed.toks {k : Nat} {s s1 : State} (h : Consumed k s s1) (n : Nat) :
    LlvmSample.toks n s1 = LlvmSample.toks n (advance k s) := by
  rw [h, toks_setMap]

/-! ## Chains of operands and operators -/

theorem toks_length (n : Nat) (s : State) : (toks n s).length = n := by
  induction n generalizing s with
  | zero => rfl
  | succ n ih => rw [toks, List.length_cons, ih]

theorem flat_length (r : List (Int × Int)) : (flat r).length = 2 * r.length := by
  induction r with
  | nil => rfl
  | cons q r ih =>
    rw [flat, List.length_cons, List.length_cons, List.length_cons, ih]
    omega

theorem flat_append (r1 r2 : List (Int × Int)) : flat (r1 ++ r2) = flat r1 ++ flat r2 := by
  induction r1 with
  | nil => rfl
  | cons q r ih =>
    rw [List.cons_append, flat, flat, ih]
    rfl

theorem items_append (s : State) (r1 r2 : List (Int × Int)) :
    items s (r1 ++ r2) = items s r1 ++ items s r2 := by
  induction r1 with
  | nil => rfl
  | cons q r ih =>
    rw [List.cons_append, items, items, ih]
    rfl

theorem toks_split (a b : Nat) (s : State) (l1 l2 : List Int)
    (h : toks (a + b) s = l1 ++ l2) (hl : l1.length = a) :
    toks a s = l1 ∧ toks b (advance a s) = l2 := by
  rw [toks_add] at h
  have := List.append_inj h (by rw [toks_length, hl])
  exact this

theorem Consumed.parserPayload {k : Nat} {s s1 : State} (h : Consumed k s s1) :
    s1.IdentifierStr = s.IdentifierStr ∧ s1.NumVal = s.NumVal := by
  have := advance_parserPayload k s
  rw [h]
  exact this

theorem Consumed.operandNode {k : Nat} {s s1 : State} (h : Consumed k s s1) (t : Int) :
    LlvmSample.operandNode s1 t = LlvmSample.operandNode s t := by
  unfold LlvmSample.operandNode
  rw [h.parserPayload.1, h.parserPayload.2]

theorem Consumed.items {k : Nat} {s s1 : State} (h : Consumed k s s1)
    (r : List (Int × Int)) : LlvmSample.items s1 r = LlvmSample.items s r := by
  induction r with
  | nil => rfl
  | cons q r ih => simp only [LlvmSample.items, ih, h.operandNode]

/-- An operand token that is not the name of a call is parsed as one node and costs one
token. -/
theorem parsePrimary_operand (fuel : Nat) (s : State) (k : Int) (hf : 2 ≤ fuel)
    (hk : k = Token.identifier ∨ k = Token.number) (hc : s.currentToken = k)
    (hn : (getNextToken s).currentToken ≠ 40) :
    parsePrimary fuel s = .returned (some (operandNode s k)) (getNextToken s) := by
  obtain ⟨f, rfl⟩ : ∃ f, fuel = f + 2 := ⟨fuel - 2, by omega⟩
  rw [parsePrimary]
  rcases hk with hk | hk
  · subst hk
    rw [if_pos hc, parseIdentifierExpr]
    simp only [hn, ne_eq, not_false_eq_true, if_true]
    rfl
  · subst hk
    have h1 : ¬ (s.currentToken = Token.identifier) := by rw [hc]; decide
    rw [if_neg h1, if_pos hc]
    rfl

theorem tablePrecedence_ne_paren {t : Int} (h : 0 < tablePrecedence t) : t ≠ 40 := by
  intro h2
  subst h2
  revert h
  decide

theorem inorder_operandNode (s : State) (k : Int) :
    inorder (operandNode s k) = [Item.operand (operandNode s k)] := by
  unfold operandNode
  split <;> rfl

/-- The loop of `parseBinOpRHS` returns its left operand at once when the current token
has a lower precedence than asked for. -/
theorem parseBinOpRHS_stop (fuel : Nat) (p : Int) (lhs : ExprAST) (s : State)
    (hf : 1 ≤ fuel) (ht : TableOK s.binaryOperatorsPrecedence)
    (hp : tablePrecedence s.currentToken < p) :
    parseBinOpRHS fuel p lhs s = .returned (some lhs) (getTokenPrecedence s).2 := by
  obtain ⟨f, rfl⟩ : ∃ f, fuel = f + 1 := ⟨fuel - 1, by omega⟩
  rw [parseBinOpRHS]
  simp only [getTokenPrecedence_table s ht, hp, if_true]

/-- Precedence climbing on a chain of operators and single-token operands: the loop
returns a tree, having consumed a front part `r1` of the chain whose traversal is that of
the left operand followed by `r1` in order, and it stops at the end of the chain or in
front of an operator of lower precedence than asked for. -/
theorem parseBinOpRHS_chain (n : Nat) :
    ∀ (rest : List (Int × Int)), rest.length ≤ n →
    ∀ (fuel : Nat) (p : Int) (lhs : ExprAST) (s : State) (T : Int),
      rest.length + 3 ≤ fuel → 0 ≤ p → TableOK s.binaryOperatorsPrecedence →
      toks (2 * rest.length + 1) s = flat rest ++ [T] →
      (∀ q ∈ rest, 0 < tablePrecedence q.1 ∧
        (q.2 = Token.identifier ∨ q.2 = Token.number)) →
      tablePrecedence T = -1 → T ≠ 40 →
      ∃ E s1 r1 r2, rest = r1 ++ r2 ∧
        parseBinOpRHS fuel p lhs s = .returned (some E) s1 ∧
        Consumed (2 * r1.length) s s1 ∧ TableOK s1.binaryOperatorsPrecedence ∧
        inorder E = inorder lhs ++ items s r1 ∧
        (∀ q, r2.head? = some q → tablePrecedence q.1 < p) := by
  induction n with
  | zero =>
    intro rest hlen fuel p lhs s T hf hp ht htoks hrest hT hT40
    have hnil : rest = [] := List.length_eq_zero.1 (Nat.le_zero.1 hlen)
    subst hnil
    have hc : s.currentToken = T := by
      have := htoks
      simp only [List.length_nil, Nat.mul_zero, Nat.zero_add, toks, flat, List.nil_append,
        List.cons.injEq, and_true] at this
      exact this
    refine ⟨lhs, _, [], [], rfl, parseBinOpRHS_stop fuel p lhs s (by omega) ht ?_,
      consumed_getTokenPrecedence s, getTokenPrecedence_tableOK s ht, by simp [items],
      fun q hq => by cases hq⟩
    rw [hc, hT]
    omega
  | succ n ih =>
    intro rest hlen fuel p lhs s T hf hp ht htoks hrest hT hT40
    cases rest with
    | nil =>
      exact ih [] (Nat.zero_le _) fuel p lhs s T hf hp ht htoks hrest hT hT40
    | cons q rest =>
      obtain ⟨op, k⟩ := q
      have hq := hrest (op, k) (List.mem_cons_self _ _)
      have hrest2 : ∀ q ∈ rest, 0 < tablePrecedence q.1 ∧
          (q.2 = Token.identifier ∨ q.2 = Token.number) :=
        fun q hq => hrest q (List.mem_cons_of_mem _ hq)
      simp only [List.length_cons] at hlen hf
      have e : 2 * (rest.length + 1) + 1 = (2 * rest.length + 1) + 1 + 1 := by omega
      simp only [List.length_cons] at htoks
      rw [e, toks, toks, flat] at htoks
      simp only [List.cons_append, List.cons.injEq] at htoks
      obtain ⟨h0, h1, h2⟩ := htoks
      obtain ⟨f, rfl⟩ : ∃ f, fuel = f + 1 := ⟨fuel - 1, by omega⟩
      have htp := getTokenPrecedence_table s ht
      rw [h0] at htp
      by_cases hlow : tablePrecedence op < p
      · refine ⟨lhs, _, [], (op, k) :: rest, rfl,
          parseBinOpRHS_stop (f + 1) p lhs s (by omega) ht (by rw [h0]; exact hlow),
          consumed_getTokenPrecedence s, getTokenPrecedence_tableOK s ht, by simp [items],
          fun q hq => ?_⟩
        simp only [List.head?_cons, Option.some.injEq] at hq
        rw [← hq]
        exact hlow
      · -- the operator is taken
        have cA : Consumed 1 s (getNextToken (getTokenPrecedence s).2) :=
          (consumed_getTokenPrecedence s).andThen (consumed_getNextToken _)
        have cB : Consumed 2 s (getNextToken (getNextToken (getTokenPrecedence s).2)) :=
          cA.andThen (consumed_getNextToken _)
        have hcA : (getNextToken (getTokenPrecedence s).2).currentToken = k := by
          rw [cA.currentToken]
          exact h1
        have htB := cB.toks (2 * rest.length + 1)
        have e2 : advance 2 s = getNextToken (getNextToken s) := rfl
        rw [e2, h2] at htB
        have hX : (getNextToken (getNextToken (getTokenPrecedence s).2)).currentToken ≠ 40 := by
          have hh : ((getNextToken (getNextToken (getTokenPrecedence s).2)).currentToken
              :: toks (2 * rest.length) (getNextToken
                (getNextToken (getNextToken (getTokenPrecedence s).2)))) = flat rest ++ [T] :=
            htB
          cases rest with
          | nil =>
            simp only [flat, List.nil_append, List.cons.injEq] at hh
            rw [hh.1]
            exact hT40
          | cons q2 rest2 =>
            simp only [flat, List.cons_append, List.cons.injEq] at hh
            rw [hh.1]
            exact tablePrecedence_ne_paren (hrest2 q2 (List.mem_cons_self _ _)).1
        have hprim := parsePrimary_operand f (getNextToken (getTokenPrecedence s).2) k
          (by omega) hq.2 hcA hX
        have tA : TableOK (getNextToken
            (getNextToken (getTokenPrecedence s).2)).binaryOperatorsPrecedence := by
          rw [getNextToken_map, getNextToken_map]
          exact getTokenPrecedence_tableOK s ht
        have cC := cB.andThen (consumed_getTokenPrecedence
          (getNextToken (getNextToken (getTokenPrecedence s).2)))
        have tC := getTokenPrecedence_tableOK _ tA
        have htC := cC.toks (2 * rest.length + 1)
        rw [show 2 + 0 = 2 from rfl, e2, h2] at htC
        have hnp := getTokenPrecedence_table _ tA
        have hnode : operandNode (getNextToken (getTokenPrecedence s).2) k = operandNode s k :=
          cA.operandNode k
        rw [parseBinOpRHS]
        simp only [htp, hlow, if_false, hprim, hnode]
        split
        · -- a tighter operator follows: it takes the operand first
          obtain ⟨E2, s2, r1, r2, hr, hp2, c2, t2, hi2, hh2⟩ :=
            ih rest (by omega) f (tablePrecedence op + 1) (operandNode s k) _ T (by omega)
              (by omega) tC htC hrest2 hT hT40
          have hlen2 : rest.length = r1.length + r2.length := by
            rw [hr, List.length_append]
          have htoks3 : toks (2 * r2.length + 1) s2 = flat r2 ++ [T] := by
            rw [c2.toks]
            have h3 := htC
            rw [hr, flat_append, List.append_assoc,
              show 2 * (r1 ++ r2).length + 1 = 2 * r1.length + (2 * r2.length + 1) by
                rw [List.length_append]; omega] at h3
            exact (toks_split _ _ _ _ _ h3 (flat_length r1)).2
          obtain ⟨E3, s3, r3, r4, hr3, hp3, c3, t3, hi3, hh3⟩ :=
            ih r2 (by omega) f p (.BinaryExprAST (getTokenPrecedence s).2.currentToken lhs E2)
              s2 T (by omega) hp t2 htoks3
              (fun q hq => hrest2 q (by rw [hr]; exact List.mem_append_right _ hq)) hT hT40
          have hop : (getTokenPrecedence s).2.currentToken = op := by
            rw [(getTokenPrecedence_frame s).2.2, h0]
          refine ⟨E3, s3, (op, k) :: (r1 ++ r3), r4, ?_, ?_, ?_, t3, ?_, hh3⟩
          · rw [hr, hr3]
            simp only [List.cons_append, List.append_assoc]
          · simp only [hp2, hp3]
          · have := (cC.andThen c2).andThen c3
            have e3 : 2 + 0 + 2 * r1.length + 2 * r3.length
                = 2 * ((op, k) :: (r1 ++ r3)).length := by
              simp only [List.length_cons, List.length_append]
              omega
            rw [e3] at this
            exact this
          · rw [hi3, inorder, hi2, hop, inorder_operandNode, (cC.andThen c2).items, cC.items]
            simp only [items, items_append, List.append_assoc, List.cons_append,
              List.nil_append]
        · -- the operand belongs to this operator
          obtain ⟨E3, s3, r3, r4, hr3, hp3, c3, t3, hi3, hh3⟩ :=
            ih rest (by omega) f p
              (.BinaryExprAST (getTokenPrecedence s).2.currentToken lhs (operandNode s k))
              _ T (by omega) hp tC htC hrest2 hT hT40
          have hop : (getTokenPrecedence s).2.currentToken = op := by
            rw [(getTokenPrecedence_frame s).2.2, h0]
          refine ⟨E3, s3, (op, k) :: r3, r4, ?_, hp3, ?_, t3, ?_, hh3⟩
          · rw [hr3]
            rfl
          · have := cC.andThen c3
            have e3 : 2 + 0 + 2 * r3.length = 2 * ((op, k) :: r3).length := by
              simp only [List.length_cons]
              omega
            rw [e3] at this
            exact this
          · rw [hi3, inorder, hop, inorder_operandNode, cC.items]
            simp only [items, List.append_assoc, List.cons_append, List.nil_append]

/-- When the tokens in front of the parser are an operand token `k1` (a number or an
identifier), then pairs `rest` of a registered operator and an operand token, then a
token `T` that is neither an operator nor `(`, `parseExpression` returns a tree whose
in-order traversal has, in source order, the operators and for each operand token the
node `parsePrimary` builds for a token of that kind; exactly these tokens are consumed
and `T` is left current. The operand nodes hold the `IdentifierStr` and `NumVal` of
`parser.cpp`, not the text that was read. -/
theorem parseExpression_chain_inorder (fuel : Nat) (s : State) (k1 : Int)
    (rest : List (Int × Int)) (T : Int) (hf : rest.length + 4 ≤ fuel)
    (ht : TableOK s.binaryOperatorsPrecedence)
    (htoks : toks (2 * rest.length + 2) s = k1 :: (flat rest ++ [T]))
    (hk1 : k1 = Token.identifier ∨ k1 = Token.number)
    (hrest : ∀ q ∈ rest, 0 < tablePrecedence q.1 ∧
      (q.2 = Token.identifier ∨ q.2 = Token.number))
    (hT : tablePrecedence T = -1) (hT40 : T ≠ 40) :
    ∃ E s1, parseExpression fuel s = .returned (some E) s1 ∧
      inorder E = Item.operand (operandNode s k1) :: items s rest ∧
      Consumed (2 * rest.length + 1) s s1 ∧ s1.currentToken = T := by
  obtain ⟨f, rfl⟩ : ∃ f, fuel = f + 1 := ⟨fuel - 1, by omega⟩
  rw [show 2 * rest.length + 2 = (2 * rest.length + 1) + 1 by omega, toks] at htoks
  simp only [List.cons.injEq] at htoks
  obtain ⟨h0, h1⟩ := htoks
  have hX : (getNextToken s).currentToken ≠ 40 := by
    have hh : ((getNextToken s).currentToken
        :: toks (2 * rest.length) (getNextToken (getNextToken s))) = flat rest ++ [T] := h1
    cases rest with
    | nil =>
      simp only [flat, List.nil_append, List.cons.injEq] at hh
      rw [hh.1]
      exact hT40
    | cons q2 rest2 =>
      simp only [flat, List.cons_append, List.cons.injEq] at hh
      rw [hh.1]
      exact tablePrecedence_ne_paren (hrest q2 (List.mem_cons_self _ _)).1
  have hprim := parsePrimary_operand f s k1 (by omega) hk1 h0 hX
  have tA : TableOK (getNextToken s).binaryOperatorsPrecedence := by
    rw [getNextToken_map]
    exact ht
  obtain ⟨E, s1, r1, r2, hr, hp, c, t, hi, hh⟩ :=
    parseBinOpRHS_chain rest.length rest (le_refl _) f 0 (operandNode s k1) (getNextToken s) T
      (by omega) (le_refl _) tA h1 hrest hT hT40
  have hr2 : r2 = [] := by
    cases r2 with
    | nil => rfl
    | cons q r2 =>
      have h3 := hh q rfl
      have h4 := (hrest q (by rw [hr]; exact List.mem_append_right _ (List.mem_cons_self _ _))).1
      omega
  subst hr2
  rw [List.append_nil] at hr
  subst hr
  have cAll : Consumed (2 * rest.length + 1) s s1 := by
    have := (consumed_getNextToken s).andThen c
    rw [show 1 + 2 * rest.length = 2 * rest.length + 1 by omega] at this
    exact this
  refine ⟨E, s1, ?_, ?_, cAll, ?_⟩
  · rw [parseExpression, hprim]
    exact hp
  · rw [hi, inorder_operandNode, (consumed_getNextToken s).items]
    rfl
  · rw [cAll.currentToken]
    have h5 := (toks_split (2 * rest.length) 1 (getNextToken s) (flat rest) [T] h1
      (flat_length rest)).2
    simp only [toks, List.cons.injEq, and_true] at h5
    rw [show 2 * rest.length + 1 = (2 * rest.length) + 1 by omega, advance]
    exact h5

theorem parseExpression_chain_inorder_example :
    ∃ E s1, parseExpression 8 (State.ready (bytes "a+1*b-2<c")) = .returned (some E) s1 ∧
      inorder E = Item.operand (operandNode (State.ready (bytes "a+1*b-2<c")) Token.identifier)
        :: items (State.ready (bytes "a+1*b-2<c"))
          [(43, Token.number), (42, Token.identifier), (45, Token.number),
            (60, Token.identifier)] ∧
      Consumed 9 (State.ready (bytes "a+1*b-2<c")) s1 ∧ s1.currentToken = Token.eof :=
  parseExpression_chain_inorder 8 (State.ready (bytes "a+1*b-2<c")) Token.identifier
    [(43, Token.number), (42, Token.identifier), (45, Token.number), (60, Token.identifier)]
    Token.eof (by decide) (installOperators_tableOK _ rfl) (by decide) (by decide)
    (by decide) (by decide) (by decide)

/-- C20: on `1+2` the tokenizer reads the values `1` and `2`, and the in-order traversal
of the tree `parseExpression` returns lists the number `0`, the operator `+`, the number
`0`: the operator is the one of the source, the operands are not the `1` and `2` of the
source. The tree of `2+1` is the tree of `1+2`, and the tree of `b-a` is the tree of
`a-b`, whose traversal lists two variables with the empty name: the traversal does not
list the operands of the source in their order. -/
theorem parseExpression_inorder_payload :
    (State.ready (bytes "1+2")).lexerNumVal = ⟨1, 0⟩ ∧
    (advance 2 (State.ready (bytes "1+2"))).lexerNumVal = ⟨2, 0⟩ ∧
    (parseExpression 5 (State.ready (bytes "1+2"))).result
      = some (some (BinaryExprAST 43 (NumberExprAST ⟨0, 0⟩) (NumberExprAST ⟨0, 0⟩))) ∧
    (parseExpression 5 (State.ready (bytes "2+1"))).result
      = some (some (BinaryExprAST 43 (NumberExprAST ⟨0, 0⟩) (NumberExprAST ⟨0, 0⟩))) ∧
    inorder (BinaryExprAST 43 (NumberExprAST ⟨0, 0⟩) (NumberExprAST ⟨0, 0⟩))
      = [Item.operand (NumberExprAST ⟨0, 0⟩), Item.operator 43,
          Item.operand (NumberExprAST ⟨0, 0⟩)] ∧
    inorder (BinaryExprAST 43 (NumberExprAST ⟨0, 0⟩) (NumberExprAST ⟨0, 0⟩))
      ≠ [Item.operand (NumberExprAST ⟨1, 0⟩), Item.operator 43,
          Item.operand (NumberExprAST ⟨2, 0⟩)] ∧
    (advance 2 (State.ready (bytes "a-b"))).lexerIdentifierStr = bytes "b" ∧
    (parseExpression 5 (State.ready (bytes "a-b"))).result
      = some (some (BinaryExprAST 45 (VariableExprAST []) (VariableExprAST []))) ∧
    (parseExpression 5 (State.ready (bytes "b-a"))).result
      = some (some (BinaryExprAST 45 (VariableExprAST []) (VariableExprAST []))) ∧
    inorder (BinaryExprAST 45 (VariableExprAST []) (VariableExprAST []))
      = [Item.operand (VariableExprAST []), Item.operator 45,
          Item.operand (VariableExprAST [])] ∧
    inorder (BinaryExprAST 45 (VariableExprAST []) (VariableExprAST []))
      ≠ [Item.operand (VariableExprAST (bytes "a")), Item.operator 45,
          Item.operand (VariableExprAST (bytes "b"))] := by
  refine ⟨by decide, by decide, rfl, rfl, rfl, ?_, by decide, rfl, rfl, rfl, ?_⟩
  · intro h
    have h1 : [Item.operand (NumberExprAST ⟨0, 0⟩), Item.operator 43,
        Item.operand (NumberExprAST ⟨0, 0⟩)]
        = [Item.operand (NumberExprAST ⟨1, 0⟩), Item.operator 43,
          Item.operand (NumberExprAST ⟨2, 0⟩)] := h
    simp at h1
  · intro h
    have h1 : [Item.operand (VariableExprAST []), Item.operator 45,
        Item.operand (VariableExprAST [])]
        = [Item.operand (VariableExprAST (bytes "a")), Item.operator 45,
          Item.operand (VariableExprAST (bytes "b"))] := h
    simp [bytes] at h1

/-! ## The tokens consumed form the tree -/

theorem Consumed.toks_append {k : Nat} {s s1 : State} (h : Consumed k s s1) (j : Nat) :
    LlvmSample.toks (k + j) s = LlvmSample.toks k s ++ LlvmSample.toks j s1 := by
  rw [LlvmSample.toks_add, h.toks]

theorem Consumed.toks_zero {s s1 : State} (h : Consumed 0 s s1) (j : Nat) :
    LlvmSample.toks j s1 = LlvmSample.toks j s := by
  rw [h.toks]
  rfl

theorem Consumed.tableOK_next {s : State} (h : TableOK s.binaryOperatorsPrecedence) :
    TableOK (getNextToken s).binaryOperatorsPrecedence := by
  rw [getNextToken_map]
  exact h

theorem tablePrecedence_pos {t : Int} (h : 0 ≤ tablePrecedence t) : 0 < tablePrecedence t := by
  unfold tablePrecedence at *
  split
  · omega
  · split
    · omega
    · split
      · omega
      · split
        · omega
        · rename_i h1 h2 h3 h4
          simp only [h1, h2, h3, h4, if_false] at h
          omega

theorem toks_one (s : State) : toks 1 s = [s.currentToken] := rfl

theorem logError_ne_some {α : Type} (msg : String) (s s1 : State) (a : α) :
    (logError msg s : Outcome α) ≠ .returned (some a) s1 := by
  unfold logError
  intro h
  cases h

theorem tablePrecedence_neg {t : Int} (h : tablePrecedence t < 0) : tablePrecedence t = -1 := by
  by_cases h2 : 0 ≤ tablePrecedence t
  · omega
  · unfold tablePrecedence at *
    split
    · rename_i h1; simp only [h1, if_true] at h2; omega
    · split
      · rename_i h1 h3; simp only [h1, h3, if_true, if_false] at h2; omega
      · split
        · rename_i h1 h3 h4; simp only [h1, h3, h4, if_true, if_false] at h2; omega
        · split
          · rename_i h1 h3 h4 h5
            simp only [h1, h3, h4, h5, if_true, if_false] at h2
            omega
          · rfl

/-- Whenever a function of the expression parser returns a tree, the tokens it consumed
are the text of that tree, the state is the one those tokens lead to, and the table is
still the installed one. -/
theorem parse_forms (fuel : Nat) :
    (∀ s E s1, TableOK s.binaryOperatorsPrecedence → s.currentToken = 40 →
      parseParenExpr fuel s = .returned (some E) s1 →
      ∃ k, Consumed k s s1 ∧ Forms (toks k s) E ∧ TableOK s1.binaryOperatorsPrecedence) ∧
    (∀ Args s A s1, TableOK s.binaryOperatorsPrecedence →
      parseCallArgs fuel Args s = .returned (some A) s1 →
      ∃ k As, A = Args ++ As ∧ Consumed k s s1 ∧ FormsArgs (toks k s) As ∧
        TableOK s1.binaryOperatorsPrecedence ∧ s1.currentToken = 41) ∧
    (∀ s E s1, TableOK s.binaryOperatorsPrecedence → s.currentToken = Token.identifier →
      parseIdentifierExpr fuel s = .returned (some E) s1 →
      ∃ k, Consumed k s s1 ∧ Forms (toks k s) E ∧ TableOK s1.binaryOperatorsPrecedence) ∧
    (∀ s E s1, TableOK s.binaryOperatorsPrecedence →
      parsePrimary fuel s = .returned (some E) s1 →
      ∃ k, Consumed k s s1 ∧ Forms (toks k s) E ∧ TableOK s1.binaryOperatorsPrecedence) ∧
    (∀ p lhs s E s1 t0, TableOK s.binaryOperatorsPrecedence → 0 ≤ p → Forms t0 lhs →
      parseBinOpRHS fuel p lhs s = .returned (some E) s1 →
      ∃ k, Consumed k s s1 ∧ Forms (t0 ++ toks k s) E ∧
        TableOK s1.binaryOperatorsPrecedence ∧ tablePrecedence s1.currentToken < p) ∧
    (∀ s E s1, TableOK s.binaryOperatorsPrecedence →
      parseExpression fuel s = .returned (some E) s1 →
      ∃ k, Consumed k s s1 ∧ Forms (toks k s) E ∧
        TableOK s1.binaryOperatorsPrecedence ∧ tablePrecedence s1.currentToken = -1) := by
  induction fuel with
  | zero =>
    refine ⟨?_, ?_, ?_, ?_, ?_, ?_⟩ <;> intros <;> rename_i h <;>
      simp [parseParenExpr, parseCallArgs, parseIdentifierExpr, parsePrimary,
        parseBinOpRHS, parseExpression] at h
  | succ fuel ih =>
    obtain ⟨ihParen, ihArgs, ihIdent, ihPrim, ihRHS, ihExpr⟩ := ih
    refine ⟨?_, ?_, ?_, ?_, ?_, ?_⟩
    · intro s E s1 ht hc h
      rw [parseParenExpr] at h
      split at h
      · cases h
      · cases h
      · rename_i V sx heq
        obtain ⟨k1, c1, f1, t1, _⟩ := ihExpr _ _ _ (Consumed.tableOK_next ht) heq
        split at h
        · exact absurd h (logError_ne_some _ _ _ _)
        · rename_i h41
          simp only [ne_eq, not_not] at h41
          cases h
          have cS := consumed_getNextToken s
          refine ⟨1 + k1 + 1, (cS.andThen c1).andThen (consumed_getNextToken sx), ?_,
            Consumed.tableOK_next t1⟩
          rw [(cS.andThen c1).toks_append 1, cS.toks_append k1, toks_one, toks_one, hc, h41]
          exact Forms.paren f1
    · intro Args s A s1 ht h
      rw [parseCallArgs] at h
      split at h
      · cases h
      · cases h
      · rename_i Arg sx heq
        obtain ⟨k1, c1, f1, t1, _⟩ := ihExpr _ _ _ ht heq
        split at h
        · rename_i h41
          cases h
          exact ⟨k1, [Arg], rfl, c1, FormsArgs.one f1, t1, h41⟩
        · split at h
          · exact absurd h (logError_ne_some _ _ _ _)
          · rename_i h41 h44
            simp only [ne_eq, not_not] at h44
            obtain ⟨k2, As, e2, c2, f2, t2, h2⟩ :=
              ihArgs _ _ _ _ (Consumed.tableOK_next t1) h
            have cX := consumed_getNextToken sx
            refine ⟨k1 + (1 + k2), Arg :: As, ?_, c1.andThen (cX.andThen c2), ?_, t2, h2⟩
            · rw [e2, List.append_assoc]
              rfl
            · rw [c1.toks_append (1 + k2), cX.toks_append k2, toks_one, h44]
              exact FormsArgs.cons f1 f2
    · intro s E s1 ht hc h
      rw [parseIdentifierExpr] at h
      simp only [] at h
      have cS := consumed_getNextToken s
      split at h
      · cases h
        refine ⟨1, cS, ?_, Consumed.tableOK_next ht⟩
        rw [toks_one, hc]
        exact Forms.variable _
      · rename_i h40
        simp only [ne_eq, not_not] at h40
        have cS2 := cS.andThen (consumed_getNextToken (getNextToken s))
        have hts : toks (1 + 1) s = [Token.identifier, 40] := by
          rw [cS.toks_append 1, toks_one, toks_one, hc, h40]
          rfl
        split at h
        · split at h
          · cases h
          · cases h
          · rename_i Args sx heq
            cases h
            obtain ⟨k2, As, e2, c2, f2, t2, h2⟩ :=
              ihArgs _ _ _ _ (Consumed.tableOK_next (Consumed.tableOK_next ht)) heq
            rw [List.nil_append] at e2
            subst e2
            refine ⟨1 + 1 + k2 + 1, (cS2.andThen c2).andThen (consumed_getNextToken sx), ?_,
              Consumed.tableOK_next t2⟩
            rw [(cS2.andThen c2).toks_append 1, cS2.toks_append k2, hts, toks_one, h2]
            exact Forms.call _ f2
        · rename_i h41
          simp only [ne_eq, not_not] at h41
          cases h
          refine ⟨1 + 1 + 1, cS2.andThen (consumed_getNextToken _), ?_,
            Consumed.tableOK_next (Consumed.tableOK_next (Consumed.tableOK_next ht))⟩
          rw [cS2.toks_append 1, hts, toks_one, h41]
          exact Forms.call0 _
    · intro s E s1 ht h
      rw [parsePrimary] at h
      split at h
      · rename_i hc
        exact ihIdent _ _ _ ht hc h
      · split at h
        · rename_i hc
          unfold parseNumberExpr at h
          cases h
          refine ⟨1, consumed_getNextToken s, ?_, Consumed.tableOK_next ht⟩
          rw [toks_one, hc]
          exact Forms.number _
        · split at h
          · rename_i hc
            exact ihParen _ _ _ ht hc h
          · exact absurd h (logError_ne_some _ _ _ _)
    · intro p lhs s E s1 t0 ht hp f0 h
      rw [parseBinOpRHS] at h
      simp only [] at h
      have cT := consumed_getTokenPrecedence s
      have tT := getTokenPrecedence_tableOK s ht
      have hpr := getTokenPrecedence_table s ht
      split at h
      · rename_i hlow
        cases h
        refine ⟨0, cT, ?_, tT, ?_⟩
        · rw [toks, List.append_nil]
          exact f0
        · rw [(getTokenPrecedence_frame s).2.2, ← hpr]
          exact hlow
      · rename_i hlow
        have hop : 0 < tablePrecedence s.currentToken := by
          apply tablePrecedence_pos
          rw [← hpr]
          omega
        have cA := cT.andThen (consumed_getNextToken _)
        split at h
        · cases h
        · cases h
        · rename_i rhs sx heq
          obtain ⟨k1, c1, f1, t1⟩ := ihPrim _ _ _ (Consumed.tableOK_next tT) heq
          have cN := consumed_getTokenPrecedence sx
          have tN := getTokenPrecedence_tableOK sx t1
          have hop2 : (getTokenPrecedence s).2.currentToken = s.currentToken :=
            (getTokenPrecedence_frame s).2.2
          have hts : toks (0 + 1) s = [s.currentToken] := rfl
          rw [hop2] at h
          split at h
          · split at h
            · cases h
            · cases h
            · rename_i rhs2 sy heq2
              obtain ⟨k2, c2, f2, t2, _⟩ :=
                ihRHS _ _ _ _ _ _ tN (by rw [hpr]; omega) f1 heq2
              obtain ⟨k3, c3, f3, t3, h3⟩ :=
                ihRHS _ _ _ _ _ _ t2 hp (Forms.binary hop f0 f2) h
              refine ⟨0 + 1 + k1 + 0 + k2 + k3, (((cA.andThen c1).andThen cN).andThen c2).andThen c3,
                ?_, t3, h3⟩
              rw [(((cA.andThen c1).andThen cN).andThen c2).toks_append k3,
                ((cA.andThen c1).andThen cN).toks_append k2, Nat.add_zero, (cA).toks_append k1, hts]
              simp only [List.append_assoc, List.singleton_append, List.cons_append,
                List.nil_append] at f3 ⊢
              exact f3
          · obtain ⟨k3, c3, f3, t3, h3⟩ :=
              ihRHS _ _ _ _ _ _ tN hp (Forms.binary hop f0 f1) h
            refine ⟨0 + 1 + k1 + 0 + k3, ((cA.andThen c1).andThen cN).andThen c3, ?_, t3, h3⟩
            rw [((cA.andThen c1).andThen cN).toks_append k3, Nat.add_zero, (cA).toks_append k1, hts]
            simp only [List.append_assoc, List.singleton_append, List.cons_append,
              List.nil_append] at f3 ⊢
            exact f3
    · intro s E s1 ht h
      rw [parseExpression] at h
      split at h
      · cases h
      · cases h
      · rename_i lhs sx heq
        obtain ⟨k1, c1, f1, t1⟩ := ihPrim _ _ _ ht heq
        obtain ⟨k2, c2, f2, t2, h2⟩ := ihRHS _ _ _ _ _ _ t1 (le_refl _) f1 h
        refine ⟨k1 + k2, c1.andThen c2, ?_, t2, tablePrecedence_neg h2⟩
        rw [c1.toks_append k2]
        exact f2

theorem Forms.ne_nil {ts : List Int} {E : ExprAST} (h : Forms ts E) : ts ≠ [] := by
  cases h <;> simp

/-- C19: whenever `parseExpression` returns a tree, it has consumed some `k ≥ 1` tokens,
these tokens are the text of the tree, the state is the one `k` calls of `getNextToken`
lead to, so that the current token is the first token after them, and this token has
precedence -1: it is none of the registered operators `<`, `+`, `-`, `*`. -/
theorem parseExpression_lookahead (fuel : Nat) (s s1 : State) (E : ExprAST)
    (ht : TableOK s.binaryOperatorsPrecedence)
    (h : parseExpression fuel s = .returned (some E) s1) :
    ∃ k, 1 ≤ k ∧ Consumed k s s1 ∧ Forms (toks k s) E ∧
      s1.currentToken = (advance k s).currentToken ∧
      (getTokenPrecedence s1).1 = -1 ∧
      s1.currentToken ≠ 60 ∧ s1.currentToken ≠ 43 ∧ s1.currentToken ≠ 45 ∧
      s1.currentToken ≠ 42 := by
  obtain ⟨k, c, f, t, hp⟩ := (parse_forms fuel).2.2.2.2.2 s E s1 ht h
  have hk : 1 ≤ k := by
    cases k with
    | zero => exact absurd rfl f.ne_nil
    | succ k => omega
  refine ⟨k, hk, c, f, c.currentToken, ?_, ?_, ?_, ?_, ?_⟩
  · rw [getTokenPrecedence_table s1 t, hp]
  all_goals
    intro hc
    rw [hc] at hp
    revert hp
    decide

theorem parseExpression_lookahead_witness :
    ∃ k, 1 ≤ k ∧
      Consumed k (State.ready (bytes "f(1, x)*(2+3) ;"))
        (setMap (advance 12 (State.ready (bytes "f(1, x)*(2+3) ;")))
          [(60, 10), (43, 20), (45, 20), (42, 40), (44, 0), (41, 0), (59, 0)]) ∧
      Forms (toks k (State.ready (bytes "f(1, x)*(2+3) ;")))
        (BinaryExprAST 42
          (CallExprAST [] [NumberExprAST ⟨0, 0⟩, VariableExprAST []])
          (BinaryExprAST 43 (NumberExprAST ⟨0, 0⟩) (NumberExprAST ⟨0, 0⟩))) ∧
      (setMap (advance 12 (State.ready (bytes "f(1, x)*(2+3) ;")))
        [(60, 10), (43, 20), (45, 20), (42, 40), (44, 0), (41, 0), (59, 0)]).currentToken
        = (advance k (State.ready (bytes "f(1, x)*(2+3) ;"))).currentToken :=
  have h := parseExpression_lookahead 10 (State.ready (bytes "f(1, x)*(2+3) ;"))
    (setMap (advance 12 (State.ready (bytes "f(1, x)*(2+3) ;")))
      [(60, 10), (43, 20), (45, 20), (42, 40), (44, 0), (41, 0), (59, 0)])
    (BinaryExprAST 42
      (CallExprAST [] [NumberExprAST ⟨0, 0⟩, VariableExprAST []])
      (BinaryExprAST 43 (NumberExprAST ⟨0, 0⟩) (NumberExprAST ⟨0, 0⟩)))
    (installOperators_tableOK _ rfl) rfl
  h.elim fun k hk => ⟨k, hk.1, hk.2.1, hk.2.2.1, hk.2.2.2.1⟩

/-! ## Two runs on inputs that start with the same tokens -/

theorem getTokenChar_stderr (s : State) : (getTokenChar s).2.stderr = s.stderr := by
  unfold getTokenChar getchar
  split
  · rfl
  · split <;> rfl

theorem getTokenFuel_stderr (fuel : Nat) (s : State) (t : Int) (s1 : State)
    (h : getTokenFuel fuel s = some (t, s1)) : s1.stderr = s.stderr := by
  induction fuel generalizing s with
  | zero => simp [getTokenFuel] at h
  | succ fuel ih =>
    rw [getTokenFuel] at h
    simp only [identifier_branch] at h
    have hw : (skipWhitespace s).stderr = s.stderr := by
      unfold skipWhitespace
      split <;> rfl
    split at h
    · cases h
      exact hw
    · split at h
      · cases h
        exact hw
      · split at h
        · split at h
          · exact (ih _ h).trans hw
          · have hg := Option.some.inj h
            have := getTokenChar_stderr { skipWhitespace s with
                lastChar := (readWhile inComment (skipWhitespace s).stdin).2.1
                stdin := (readWhile inComment (skipWhitespace s).stdin).2.2 }
            rw [hg] at this
            exact this.trans hw
        · have hg := Option.some.inj h
          have := getTokenChar_stderr (skipWhitespace s)
          rw [hg] at this
          exact this.trans hw

theorem getNextToken_stderr (s : State) : (getNextToken s).stderr = s.stderr :=
  getTokenFuel_stderr _ s (getToken s).1 (getToken s).2 (getToken_eq s)

theorem advance_stderr (n : Nat) (s : State) : (advance n s).stderr = s.stderr := by
  induction n generalizing s with
  | zero => rfl
  | succ n ih => rw [advance, ih, getNextToken_stderr]

theorem Consumed.stderr {k : Nat} {s s1 : State} (h : Consumed k s s1) :
    s1.stderr = s.stderr := by
  rw [h]
  exact advance_stderr k s

theorem look_zero (s : State) : look 0 s = s.currentToken := rfl

theorem Consumed.look {k : Nat} {s s1 : State} (h : Consumed k s s1) (j : Nat) :
    LlvmSample.look j s1 = LlvmSample.look (k + j) s := by
  unfold LlvmSample.look
  rw [h, advance_setMap, ← advance_add]
  rfl

theorem toks_succ_right (n : Nat) (s : State) : toks (n + 1) s = toks n s ++ [look n s] := by
  rw [toks_add, toks_one]
  rfl

theorem toks_agree_le {n m : Nat} {sA sB : State} (h : toks n sB = toks n sA) (hm : m ≤ n) :
    toks m sB = toks m sA := by
  obtain ⟨j, rfl⟩ : ∃ j, n = m + j := ⟨n - m, by omega⟩
  rw [toks_add, toks_add] at h
  exact (List.append_inj h (by rw [toks_length, toks_length])).1

theorem toks_agree_look {n i : Nat} {sA sB : State} (h : toks n sB = toks n sA) (hi : i < n) :
    look i sB = look i sA := by
  have h1 := toks_agree_le h (show i + 1 ≤ n by omega)
  rw [toks_succ_right, toks_succ_right] at h1
  have := (List.append_inj h1 (by rw [toks_length, toks_length])).2
  simpa using this

theorem toks_agree_sub {n o m : Nat} {sA sB sA1 sB1 : State} (h : toks n sB = toks n sA)
    (cA : Consumed o sA sA1) (cB : Consumed o sB sB1) (hm : o + m ≤ n) :
    toks m sB1 = toks m sA1 := by
  have h1 := toks_agree_le h hm
  rw [toks_add, toks_add] at h1
  have := (List.append_inj h1 (by rw [toks_length, toks_length])).2
  rw [cA.toks, cB.toks]
  exact this

theorem SameParser.after {k j : Nat} {sA sB sA1 sB1 : State} (h : SameParser sA sB)
    (cA : Consumed k sA sA1) (cB : Consumed j sB sB1)
    (t : TableOK sB1.binaryOperatorsPrecedence) : SameParser sA1 sB1 :=
  ⟨by rw [cB.parserPayload.1, cA.parserPayload.1, h.1],
    by rw [cB.parserPayload.2, cA.parserPayload.2, h.2.1], t⟩

/-- The primary parser fails on a token that cannot start a primary, with the diagnostic
of its `default` case. -/
theorem parsePrimary_noPrimary (fuel : Nat) (s : State) (hf : 1 ≤ fuel)
    (h : NoPrimary s.currentToken) :
    parsePrimary fuel s = .returned none
      (eprint "Error: unknown token when expecting an expression\n" s) := by
  obtain ⟨f, rfl⟩ : ∃ f, fuel = f + 1 := ⟨fuel - 1, by omega⟩
  rw [parsePrimary]
  simp only [h.1, h.2.1, h.2.2, if_false]
  rfl

/-- The loop of `parseBinOpRHS` on an operator that is followed by a token that cannot start
a primary: the operator is left alone when its precedence is lower than asked for, and
otherwise it is consumed and the call fails, dropping the left operand. -/
theorem parseBinOpRHS_noPrimary (fuel : Nat) (p : Int) (lhs : ExprAST) (s : State)
    (hf : 2 ≤ fuel) (ht : TableOK s.binaryOperatorsPrecedence)
    (hp : ¬ tablePrecedence s.currentToken < p) (hn : NoPrimary (look 1 s)) :
    ∃ s1, parseBinOpRHS fuel p lhs s = .returned none s1 ∧
      s1.stderr = s.stderr ++ ["Error: unknown token when expecting an expression\n"] := by
  obtain ⟨f, rfl⟩ : ∃ f, fuel = f + 1 := ⟨fuel - 1, by omega⟩
  have hpr := getTokenPrecedence_table s ht
  have cA : Consumed 1 s (getNextToken (getTokenPrecedence s).2) :=
    (consumed_getTokenPrecedence s).andThen (consumed_getNextToken _)
  have hc : NoPrimary (getNextToken (getTokenPrecedence s).2).currentToken := by
    have := cA.look 0
    rw [look_zero] at this
    rw [this]
    exact hn
  rw [parseBinOpRHS]
  simp only [hpr, hp, if_false, parsePrimary_noPrimary f _ (by omega) hc]
  refine ⟨_, rfl, ?_⟩
  show (getNextToken (getTokenPrecedence s).2).stderr ++ _ = _
  rw [cA.stderr]

theorem look_one (s : State) : look 1 s = (getNextToken s).currentToken := rfl

theorem Agree.sub {k o m : Nat} {sA sB sA1 sB1 : State} (h : Agree k sA sB)
    (cA : Consumed o sA sA1) (cB : Consumed o sB sB1) (hm : o + m ≤ k) :
    Agree m sA1 sB1 := by
  refine ⟨toks_agree_sub h.1 cA cB hm, ?_⟩
  unfold Lookahead
  rw [cA.look, cB.look, cB.look]
  rcases Nat.lt_or_ge (o + m) k with hlt | hge
  · exact Or.inl (toks_agree_look h.1 hlt)
  · have hk : o + m = k := by omega
    rw [← Nat.add_assoc, hk]
    exact h.2

theorem Agree.of_toks {k : Nat} {sA sB : State} (h : toks (k + 1) sB = toks (k + 1) sA) :
    Agree k sA sB :=
  ⟨toks_agree_le h (Nat.le_succ k), Or.inl (toks_agree_look h (Nat.lt_succ_self k))⟩

theorem Agree.look_lt {k i : Nat} {sA sB : State} (h : Agree k sA sB) (hi : i < k) :
    look i sB = look i sA :=
  toks_agree_look h.1 hi

theorem Agree.first {k : Nat} {sA sB : State} (h : Agree k sA sB) (hk : 1 ≤ k) :
    sB.currentToken = sA.currentToken :=
  h.look_lt (i := 0) (by omega)

theorem Agree.notParen {k : Nat} {sA sB : State} (h : Agree k sA sB)
    (hA : look k sA ≠ 40) : look k sB ≠ 40 := by
  rcases h.2 with he | ⟨hop, _⟩
  · rw [he]
    exact hA
  · exact tablePrecedence_ne_paren hop

theorem Returns.later {α : Type} {r : Outcome α} {o m : Nat} {s s1 : State} {a : α}
    (c : Consumed o s s1) (h : Returns r m s1 a) : Returns r (o + m) s a := by
  obtain ⟨s2, e, c2, t2⟩ := h
  exact ⟨s2, e, c.andThen c2, t2⟩

theorem FailsUnknown.within {α : Type} {r : Outcome α} {o : Nat} {s s1 : State}
    (c : Consumed o s s1) (h : FailsUnknown r s1) : FailsUnknown r s := by
  obtain ⟨s2, e, h2⟩ := h
  exact ⟨s2, e, by rw [h2, c.stderr]⟩

/-- One turn of the loop of `parseBinOpRHS` on a token whose precedence is lower than the
one asked for: the left operand is returned. -/
theorem parseBinOpRHS_low (f : Nat) (p : Int) (lhs : ExprAST) (s : State)
    (ht : TableOK s.binaryOperatorsPrecedence) (h : tablePrecedence s.currentToken < p) :
    parseBinOpRHS (f + 1) p lhs s = .returned (some lhs) (getTokenPrecedence s).2 := by
  rw [parseBinOpRHS]
  simp only [getTokenPrecedence_table s ht, h, if_true]

/-- One turn of the loop of `parseBinOpRHS` on an operator whose right operand parsed. -/
theorem parseBinOpRHS_step (f : Nat) (p : Int) (lhs rhs : ExprAST) (s sx : State)
    (ht : TableOK s.binaryOperatorsPrecedence) (h : ¬ tablePrecedence s.currentToken < p)
    (hp : parsePrimary f (getNextToken (getTokenPrecedence s).2) = .returned (some rhs) sx)
    (hx : TableOK sx.binaryOperatorsPrecedence) :
    parseBinOpRHS (f + 1) p lhs s =
      if tablePrecedence s.currentToken < tablePrecedence sx.currentToken then
        match parseBinOpRHS f (tablePrecedence s.currentToken + 1) rhs
            (getTokenPrecedence sx).2 with
        | .outOfFuel => .outOfFuel
        | .returned none s2 => .returned none s2
        | .returned (some rhs2) s2 =>
          parseBinOpRHS f p (.BinaryExprAST s.currentToken lhs rhs2) s2
      else parseBinOpRHS f p (.BinaryExprAST s.currentToken lhs rhs)
        (getTokenPrecedence sx).2 := by
  rw [parseBinOpRHS]
  simp only [getTokenPrecedence_table s ht, h, if_false, hp,
    getTokenPrecedence_table sx hx, (getTokenPrecedence_frame s).2.2]

theorem Consumed.cur_look {k : Nat} {s s1 : State} (h : Consumed k s s1) :
    s1.currentToken = LlvmSample.look k s :=
  h.currentToken

theorem tablePrecedence_paren_close : tablePrecedence 41 < 0 := by decide

theorem tablePrecedence_comma : tablePrecedence 44 < 0 := by decide

theorem noEof_zero (s : State) : Token.eof ∉ toks 0 s := by
  simp [toks]

theorem noEof_one {s : State} (h : s.currentToken ≠ Token.eof) : Token.eof ∉ toks 1 s := by
  rw [toks_one]
  simpa using h.symm

theorem Consumed.noEof {a b : Nat} {s s1 : State} (c : Consumed a s s1)
    (h1 : Token.eof ∉ LlvmSample.toks a s) (h2 : Token.eof ∉ LlvmSample.toks b s1) :
    Token.eof ∉ LlvmSample.toks (a + b) s := by
  rw [c.toks_append b]
  simp only [List.mem_append, not_or]
  exact ⟨h1, h2⟩

theorem tablePrecedence_ne_eof {t : Int} (h : 0 ≤ tablePrecedence t) : t ≠ Token.eof := by
  intro h2
  subst h2
  revert h
  decide

theorem parseCallArgs_close (fuel : Nat) (Args : List ExprAST) (s : State)
    (A : List ExprAST) (s1 : State) (h : parseCallArgs fuel Args s = .returned (some A) s1) :
    s1.currentToken = 41 := by
  induction fuel generalizing Args s with
  | zero => simp [parseCallArgs] at h
  | succ fuel ih =>
    rw [parseCallArgs] at h
    split at h
    · cases h
    · cases h
    · split at h
      · rename_i h41
        cases h
        exact h41
      · split at h
        · exact absurd h (logError_ne_some _ _ _ _)
        · exact ih _ _ h

/-- Two runs of the expression parser on inputs that start with the same tokens. When the
first run returns a tree after `k` tokens, a second run whose input has the same `k`
tokens returns the same tree where the function has seen all it needs, and for the two
functions that look at the token after their expression the second run returns the tree
when that token has a lower precedence than asked for and fails, without a tree, when it
is a registered operator of at least that precedence followed by a token that cannot
start a primary. None of the `k` tokens is the end of the input. -/
theorem parse_two_runs (fuel : Nat) :
    (∀ sA E sA1, TableOK sA.binaryOperatorsPrecedence → sA.currentToken = 40 →
      parseParenExpr fuel sA = .returned (some E) sA1 →
      ∃ k, 1 ≤ k ∧ Consumed k sA sA1 ∧ TableOK sA1.binaryOperatorsPrecedence ∧
        Token.eof ∉ toks k sA ∧
        ∀ g sB, fuel + 1 ≤ g → SameParser sA sB → toks k sB = toks k sA →
          Returns (parseParenExpr g sB) k sB E) ∧
    (∀ Args sA A sA1, TableOK sA.binaryOperatorsPrecedence →
      parseCallArgs fuel Args sA = .returned (some A) sA1 →
      ∃ k, Consumed k sA sA1 ∧ TableOK sA1.binaryOperatorsPrecedence ∧
        Token.eof ∉ toks k sA ∧
        ∀ g sB, fuel + 1 ≤ g → SameParser sA sB → toks (k + 1) sB = toks (k + 1) sA →
          Returns (parseCallArgs g Args sB) k sB A) ∧
    (∀ sA E sA1, TableOK sA.binaryOperatorsPrecedence →
      sA.currentToken = Token.identifier →
      parseIdentifierExpr fuel sA = .returned (some E) sA1 →
      ∃ k, 1 ≤ k ∧ Consumed k sA sA1 ∧ TableOK sA1.binaryOperatorsPrecedence ∧
        Token.eof ∉ toks k sA ∧
        ∀ g sB, fuel + 1 ≤ g → SameParser sA sB → Agree k sA sB →
          Returns (parseIdentifierExpr g sB) k sB E) ∧
    (∀ sA E sA1, TableOK sA.binaryOperatorsPrecedence →
      parsePrimary fuel sA = .returned (some E) sA1 →
      ∃ k, 1 ≤ k ∧ Consumed k sA sA1 ∧ TableOK sA1.binaryOperatorsPrecedence ∧
        Token.eof ∉ toks k sA ∧
        ∀ g sB, fuel + 1 ≤ g → SameParser sA sB → Agree k sA sB →
          Returns (parsePrimary g sB) k sB E) ∧
    (∀ p lhs sA E sA1, TableOK sA.binaryOperatorsPrecedence → 0 ≤ p →
      parseBinOpRHS fuel p lhs sA = .returned (some E) sA1 →
      ∃ k, Consumed k sA sA1 ∧ TableOK sA1.binaryOperatorsPrecedence ∧
        Token.eof ∉ toks k sA ∧
        tablePrecedence (look k sA) < p ∧
        ∀ g sB, fuel + 1 ≤ g → SameParser sA sB → Agree k sA sB →
          (tablePrecedence (look k sB) < p → Returns (parseBinOpRHS g p lhs sB) k sB E) ∧
          (¬ tablePrecedence (look k sB) < p → FailsUnknown (parseBinOpRHS g p lhs sB) sB)) ∧
    (∀ sA E sA1, TableOK sA.binaryOperatorsPrecedence →
      parseExpression fuel sA = .returned (some E) sA1 →
      ∃ k, 1 ≤ k ∧ Consumed k sA sA1 ∧ TableOK sA1.binaryOperatorsPrecedence ∧
        Token.eof ∉ toks k sA ∧ tablePrecedence (look k sA) < 0 ∧
        ∀ g sB, fuel + 1 ≤ g → SameParser sA sB → Agree k sA sB →
          (tablePrecedence (look k sB) < 0 → Returns (parseExpression g sB) k sB E) ∧
          (¬ tablePrecedence (look k sB) < 0 → FailsUnknown (parseExpression g sB) sB)) := by
  induction fuel with
  | zero =>
    refine ⟨?_, ?_, ?_, ?_, ?_, ?_⟩ <;> intros <;> rename_i h <;>
      simp [parseParenExpr, parseCallArgs, parseIdentifierExpr, parsePrimary,
        parseBinOpRHS, parseExpression] at h
  | succ fuel ih =>
    obtain ⟨ihParen, ihArgs, ihIdent, ihPrim, ihRHS, ihExpr⟩ := ih
    refine ⟨?_, ?_, ?_, ?_, ?_, ?_⟩
    · intro sA E sA1 ht hc h
      rw [parseParenExpr] at h
      split at h
      · cases h
      · cases h
      · rename_i V sx heq
        obtain ⟨k1, hk1, c1, t1, e1, hl1, hB1⟩ :=
          ihExpr _ _ _ (Consumed.tableOK_next ht) heq
        split at h
        · exact absurd h (logError_ne_some _ _ _ _)
        · rename_i h41
          simp only [ne_eq, not_not] at h41
          cases h
          have cS := consumed_getNextToken sA
          have n0 : Token.eof ∉ toks 1 sA := noEof_one (by rw [hc]; decide)
          have n1 : Token.eof ∉ toks 1 sx := noEof_one (by rw [h41]; decide)
          refine ⟨1 + k1 + 1, by omega, (cS.andThen c1).andThen (consumed_getNextToken sx),
            Consumed.tableOK_next t1, (cS.andThen c1).noEof (cS.noEof n0 e1) n1, ?_⟩
          intro g sB hg hs hk
          obtain ⟨g1, rfl⟩ : ∃ g1, g = g1 + 1 := ⟨g - 1, by omega⟩
          have cSB := consumed_getNextToken sB
          have hsB := hs.after cS cSB (Consumed.tableOK_next hs.2.2)
          have hk1 : toks (k1 + 1) (getNextToken sB) = toks (k1 + 1) (getNextToken sA) :=
            toks_agree_sub hk cS cSB (by omega)
          have hlB : look k1 (getNextToken sB) = 41 := by
            rw [toks_agree_look hk1 (Nat.lt_succ_self k1), ← c1.cur_look]
            exact h41
          obtain ⟨sBx, eB, cB1, tB1⟩ := (hB1 g1 _ (by omega) hsB (Agree.of_toks hk1)).1
            (by rw [hlB]; exact tablePrecedence_paren_close)
          have h41B : sBx.currentToken = 41 := by rw [cB1.cur_look]; exact hlB
          refine ⟨getNextToken sBx, ?_, (cSB.andThen cB1).andThen (consumed_getNextToken sBx),
            Consumed.tableOK_next tB1⟩
          rw [parseParenExpr, eB]
          simp only [h41B, ne_eq, not_true_eq_false, if_false]
    · intro Args sA A sA1 ht h
      rw [parseCallArgs] at h
      split at h
      · cases h
      · cases h
      · rename_i Arg sx heq
        obtain ⟨k1, hk1, c1, t1, e1, hl1, hB1⟩ := ihExpr _ _ _ ht heq
        split at h
        · rename_i h41
          cases h
          refine ⟨k1, c1, t1, e1, ?_⟩
          intro g sB hg hs hk
          obtain ⟨g1, rfl⟩ : ∃ g1, g = g1 + 1 := ⟨g - 1, by omega⟩
          have hlB : look k1 sB = 41 := by
            rw [toks_agree_look hk (Nat.lt_succ_self k1), ← c1.cur_look]
            exact h41
          obtain ⟨sBx, eB, cB1, tB1⟩ := (hB1 g1 _ (by omega) hs (Agree.of_toks hk)).1
            (by rw [hlB]; exact tablePrecedence_paren_close)
          have h41B : sBx.currentToken = 41 := by rw [cB1.cur_look]; exact hlB
          refine ⟨sBx, ?_, cB1, tB1⟩
          rw [parseCallArgs, eB]
          simp only [h41B, if_true]
        · split at h
          · exact absurd h (logError_ne_some _ _ _ _)
          · rename_i h41 h44
            simp only [ne_eq, not_not] at h44
            obtain ⟨k2, c2, t2, e2, hB2⟩ := ihArgs _ _ _ _ (Consumed.tableOK_next t1) h
            have cX := consumed_getNextToken sx
            have n1 : Token.eof ∉ toks 1 sx := noEof_one (by rw [h44]; decide)
            refine ⟨k1 + 1 + k2, (c1.andThen cX).andThen c2, t2,
              (c1.andThen cX).noEof (c1.noEof e1 n1) e2, ?_⟩
            intro g sB hg hs hk
            obtain ⟨g1, rfl⟩ : ∃ g1, g = g1 + 1 := ⟨g - 1, by omega⟩
            have hka : toks (k1 + 1) sB = toks (k1 + 1) sA := toks_agree_le hk (by omega)
            have hlB : look k1 sB = 44 := by
              rw [toks_agree_look hka (Nat.lt_succ_self k1), ← c1.cur_look]
              exact h44
            obtain ⟨sBx, eB, cB1, tB1⟩ := (hB1 g1 _ (by omega) hs (Agree.of_toks hka)).1
              (by rw [hlB]; exact tablePrecedence_comma)
            have h44B : sBx.currentToken = 44 := by rw [cB1.cur_look]; exact hlB
            have h41B : ¬ sBx.currentToken = 41 := by rw [h44B]; decide
            have cXB := consumed_getNextToken sBx
            have hsB := hs.after (c1.andThen cX) (cB1.andThen cXB) (Consumed.tableOK_next tB1)
            have hk2 : toks (k2 + 1) (getNextToken sBx) = toks (k2 + 1) (getNextToken sx) :=
              toks_agree_sub hk (c1.andThen cX) (cB1.andThen cXB) (by omega)
            have r2 := hB2 g1 _ (by omega) hsB hk2
            have r3 := Returns.later (cB1.andThen cXB) r2
            obtain ⟨sB2, e2, cc, tt⟩ := r3
            refine ⟨sB2, ?_, cc, tt⟩
            rw [parseCallArgs, eB]
            simp only [h44B, if_false, ne_eq, not_true_eq_false]
            have hd : ¬ ((44 : Int) = 41) := by decide
            simp only [hd, if_false]
            exact e2
    · intro sA E sA1 ht hc h
      rw [parseIdentifierExpr] at h
      simp only [] at h
      have cS := consumed_getNextToken sA
      have n0 : Token.eof ∉ toks 1 sA := noEof_one (by rw [hc]; decide)
      split at h
      · rename_i h40
        cases h
        refine ⟨1, le_refl 1, cS, Consumed.tableOK_next ht, n0, ?_⟩
        intro g sB hg hs ha
        obtain ⟨g1, rfl⟩ : ∃ g1, g = g1 + 1 := ⟨g - 1, by omega⟩
        have h40B : (getNextToken sB).currentToken ≠ 40 := ha.notParen h40
        refine ⟨getNextToken sB, ?_, consumed_getNextToken sB, Consumed.tableOK_next hs.2.2⟩
        rw [parseIdentifierExpr]
        simp only [h40B, ne_eq, not_false_eq_true, if_true, hs.1]
      · rename_i h40
        simp only [ne_eq, not_not] at h40
        have cS2 := cS.andThen (consumed_getNextToken (getNextToken sA))
        have n2 : Token.eof ∉ toks (1 + 1) sA :=
          cS.noEof n0 (noEof_one (by rw [h40]; decide))
        split at h
        · rename_i h41
          split at h
          · cases h
          · cases h
          · rename_i Args sx heq
            cases h
            obtain ⟨k2, c2, t2, e2, hB2⟩ :=
              ihArgs _ _ _ _ (Consumed.tableOK_next (Consumed.tableOK_next ht)) heq
            have h41x : sx.currentToken = 41 := parseCallArgs_close _ _ _ _ _ heq
            refine ⟨1 + 1 + k2 + 1, by omega, (cS2.andThen c2).andThen (consumed_getNextToken sx),
              Consumed.tableOK_next t2,
              (cS2.andThen c2).noEof (cS2.noEof n2 e2) (noEof_one (by rw [h41x]; decide)), ?_⟩
            intro g sB hg hs ha
            obtain ⟨g1, rfl⟩ : ∃ g1, g = g1 + 1 := ⟨g - 1, by omega⟩
            have cSB := consumed_getNextToken sB
            have cSB2 := cSB.andThen (consumed_getNextToken (getNextToken sB))
            have h40B : (getNextToken sB).currentToken = 40 := by
              have := ha.look_lt (i := 1) (by omega)
              rw [look_one, look_one] at this
              rw [this]
              exact h40
            have h41B : (getNextToken (getNextToken sB)).currentToken ≠ 41 := by
              have := ha.look_lt (i := 2) (by omega)
              have e : (getNextToken (getNextToken sB)).currentToken
                  = (getNextToken (getNextToken sA)).currentToken := this
              rw [e]
              exact h41
            have hsB := hs.after cS2 cSB2
              (Consumed.tableOK_next (Consumed.tableOK_next hs.2.2))
            have hk2 := toks_agree_sub (m := k2 + 1) ha.1 cS2 cSB2 (by omega)
            obtain ⟨sB2, e2, cc, tt⟩ := hB2 g1 _ (by omega) hsB hk2
            refine ⟨getNextToken sB2, ?_,
              (cSB2.andThen cc).andThen (consumed_getNextToken sB2), Consumed.tableOK_next tt⟩
            rw [parseIdentifierExpr]
            simp only [h40B, h41B, ne_eq, not_true_eq_false, not_false_eq_true, if_true,
              if_false, e2, hs.1]
        · rename_i h41
          simp only [ne_eq, not_not] at h41
          cases h
          refine ⟨1 + 1 + 1, by omega, cS2.andThen (consumed_getNextToken _),
            Consumed.tableOK_next (Consumed.tableOK_next (Consumed.tableOK_next ht)),
            cS2.noEof n2 (noEof_one (by rw [h41]; decide)), ?_⟩
          intro g sB hg hs ha
          obtain ⟨g1, rfl⟩ : ∃ g1, g = g1 + 1 := ⟨g - 1, by omega⟩
          have cSB := consumed_getNextToken sB
          have cSB2 := cSB.andThen (consumed_getNextToken (getNextToken sB))
          have h40B : (getNextToken sB).currentToken = 40 := by
            have := ha.look_lt (i := 1) (by omega)
            rw [look_one, look_one] at this
            rw [this]
            exact h40
          have h41B : (getNextToken (getNextToken sB)).currentToken = 41 := by
            have := ha.look_lt (i := 2) (by omega)
            have e : (getNextToken (getNextToken sB)).currentToken
                = (getNextToken (getNextToken sA)).currentToken := this
            rw [e]
            exact h41
          refine ⟨getNextToken (getNextToken (getNextToken sB)), ?_,
            cSB2.andThen (consumed_getNextToken _),
            Consumed.tableOK_next (Consumed.tableOK_next (Consumed.tableOK_next hs.2.2))⟩
          rw [parseIdentifierExpr]
          simp only [h40B, h41B, ne_eq, not_true_eq_false, if_false, hs.1]
    · intro sA E sA1 ht h
      rw [parsePrimary] at h
      split at h
      · rename_i hc
        obtain ⟨k, hk, c, t, e, hB⟩ := ihIdent _ _ _ ht hc h
        refine ⟨k, hk, c, t, e, ?_⟩
        intro g sB hg hs ha
        obtain ⟨g1, rfl⟩ : ∃ g1, g = g1 + 1 := ⟨g - 1, by omega⟩
        have hcB : sB.currentToken = Token.identifier := (ha.first hk).trans hc
        rw [parsePrimary]
        simp only [hcB, if_true]
        exact hB g1 sB (by omega) hs ha
      · split at h
        · rename_i hc0 hc
          unfold parseNumberExpr at h
          cases h
          refine ⟨1, le_refl 1, consumed_getNextToken sA, Consumed.tableOK_next ht,
            noEof_one (by rw [hc]; decide), ?_⟩
          intro g sB hg hs ha
          obtain ⟨g1, rfl⟩ : ∃ g1, g = g1 + 1 := ⟨g - 1, by omega⟩
          have hcB : sB.currentToken = Token.number := (ha.first (le_refl 1)).trans hc
          have hcB0 : ¬ sB.currentToken = Token.identifier := by rw [hcB]; decide
          refine ⟨getNextToken sB, ?_, consumed_getNextToken sB,
            Consumed.tableOK_next hs.2.2⟩
          rw [parsePrimary]
          simp only [hcB, hcB0, if_true, if_false, parseNumberExpr, hs.2.1]
          have hd : ¬ (Token.number = Token.identifier) := by decide
          simp only [hd, if_false]
        · split at h
          · rename_i hc0 hc1 hc
            obtain ⟨k, hk, c, t, e, hB⟩ := ihParen _ _ _ ht hc h
            refine ⟨k, hk, c, t, e, ?_⟩
            intro g sB hg hs ha
            obtain ⟨g1, rfl⟩ : ∃ g1, g = g1 + 1 := ⟨g - 1, by omega⟩
            have hcB : sB.currentToken = 40 := (ha.first hk).trans hc
            rw [parsePrimary]
            have hd1 : ¬ ((40 : Int) = Token.identifier) := by decide
            have hd2 : ¬ ((40 : Int) = Token.number) := by decide
            simp only [hcB, hd1, hd2, if_true, if_false]
            exact hB g1 sB (by omega) hs ha.1
          · exact absurd h (logError_ne_some _ _ _ _)
    · intro p lhs sA E sA1 ht hp h
      have hA := h
      rw [parseBinOpRHS] at h
      simp only [] at h
      have cT := consumed_getTokenPrecedence sA
      have tT := getTokenPrecedence_tableOK sA ht
      have hpr := getTokenPrecedence_table sA ht
      split at h
      · rename_i hlow
        rw [hpr] at hlow
        cases h
        refine ⟨0, cT, tT, noEof_zero sA, hlow, ?_⟩
        intro g sB hg hs ha
        obtain ⟨g1, rfl⟩ : ∃ g1, g = g1 + 1 := ⟨g - 1, by omega⟩
        constructor
        · intro hB
          exact ⟨(getTokenPrecedence sB).2, parseBinOpRHS_low g1 p lhs sB hs.2.2 hB,
            consumed_getTokenPrecedence sB, getTokenPrecedence_tableOK sB hs.2.2⟩
        · intro hB
          rcases ha.2 with he | ⟨hop, hn⟩
          · exfalso
            apply hB
            rw [he]
            exact hlow
          · exact parseBinOpRHS_noPrimary (g1 + 1) p lhs sB (by omega) hs.2.2 hB hn
      · rename_i hlow
        rw [hpr] at hlow
        have cA := cT.andThen (consumed_getNextToken _)
        split at h
        · cases h
        · cases h
        · rename_i rhs sx heq
          clear h
          have hf1 : 1 ≤ fuel := by
            cases fuel with
            | zero => simp [parsePrimary] at heq
            | succ n => omega
          obtain ⟨k1, hk1, c1, t1, e1, hB1⟩ := ihPrim _ _ _ (Consumed.tableOK_next tT) heq
          have n0 : Token.eof ∉ toks (0 + 1) sA :=
            noEof_one (tablePrecedence_ne_eof (by omega))
          have n2 : Token.eof ∉ toks (0 + 1 + k1 + 0) sA :=
            (cA.andThen c1).noEof (cA.noEof n0 e1) (noEof_zero sx)
          have cN := consumed_getTokenPrecedence sx
          have tN := getTokenPrecedence_tableOK sx t1
          have cA2 := (cA.andThen c1).andThen cN
          rw [parseBinOpRHS_step fuel p lhs rhs sA sx ht hlow heq t1] at hA
          split at hA
          · rename_i hrec
            split at hA
            · cases hA
            · cases hA
            · rename_i rhs2 sy heq2
              obtain ⟨k2, c2, t2, e2, hl2, hB2⟩ := ihRHS _ _ _ _ _ tN (by omega) heq2
              obtain ⟨k3, c3, t3, e3, hl3, hB3⟩ := ihRHS _ _ _ _ _ t2 hp hA
              have hk2 : 1 ≤ k2 := by
                rcases Nat.eq_zero_or_pos k2 with h0 | hpos
                · exfalso
                  subst h0
                  have e : look 0 (getTokenPrecedence sx).2 = sx.currentToken :=
                    (getTokenPrecedence_frame sx).2.2
                  rw [e] at hl2
                  omega
                · exact hpos
              have cA3 := cA2.andThen c2
              refine ⟨0 + 1 + k1 + 0 + k2 + k3, cA3.andThen c3, t3,
                cA3.noEof (cA2.noEof n2 e2) e3, ?_, ?_⟩
              · rw [← cA3.look]
                exact hl3
              intro g sB hg hs ha
              obtain ⟨g1, rfl⟩ : ∃ g1, g = g1 + 1 := ⟨g - 1, by omega⟩
              have cTB := consumed_getTokenPrecedence sB
              have tTB := getTokenPrecedence_tableOK sB hs.2.2
              have cAB := cTB.andThen (consumed_getNextToken _)
              have hcur : sB.currentToken = sA.currentToken := ha.first (by omega)
              have hlowB : ¬ tablePrecedence sB.currentToken < p := by rw [hcur]; exact hlow
              have hsP := hs.after cA cAB (Consumed.tableOK_next tTB)
              have haP := ha.sub (m := k1) cA cAB (by omega)
              obtain ⟨sBx, eBx, cBx, tBx⟩ := hB1 g1 _ (by omega) hsP haP
              have cNB := consumed_getTokenPrecedence sBx
              have tNB := getTokenPrecedence_tableOK sBx tBx
              have cB2 := (cAB.andThen cBx).andThen cNB
              have hxcur : sBx.currentToken = sx.currentToken := by
                rw [(cAB.andThen cBx).cur_look, (cA.andThen c1).cur_look]
                exact ha.look_lt (by omega)
              rw [parseBinOpRHS_step g1 p lhs rhs sB sBx hs.2.2 hlowB eBx tBx, hcur, hxcur,
                if_pos hrec]
              have hs2 := hs.after cA2 cB2 tNB
              have ha2 := ha.sub (m := k2) cA2 cB2 (by omega)
              have r2 := hB2 g1 _ (by omega) hs2 ha2
              by_cases hc2 : tablePrecedence (look k2 (getTokenPrecedence sBx).2)
                  < tablePrecedence sA.currentToken + 1
              · obtain ⟨sBy, eBy, cBy, tBy⟩ := r2.1 hc2
                rw [eBy]
                have cB3 := cB2.andThen cBy
                have hs3 := hs.after cA3 cB3 tBy
                have ha3 := ha.sub (m := k3) cA3 cB3 (by omega)
                have r3 := hB3 g1 _ (by omega) hs3 ha3
                rw [cB3.look k3] at r3
                exact ⟨fun hh => Returns.later cB3 (r3.1 hh),
                  fun hh => FailsUnknown.within cB3 (r3.2 hh)⟩
              · obtain ⟨sBf, eBf, hst⟩ := r2.2 hc2
                rw [eBf]
                have hnot : ¬ tablePrecedence (look (0 + 1 + k1 + 0 + k2 + k3) sB) < p := by
                  rcases Nat.eq_zero_or_pos k3 with h0 | hpos
                  · subst h0
                    rw [cB2.look k2] at hc2
                    intro hh
                    apply hc2
                    have e : look (0 + 1 + k1 + 0 + k2 + 0) sB
                        = look (0 + 1 + k1 + 0 + k2) sB := rfl
                    rw [e] at hh
                    omega
                  · exfalso
                    apply hc2
                    rw [cB2.look k2, ha.look_lt (by omega), ← cA2.look k2]
                    exact hl2
                exact ⟨fun hh => absurd hh hnot,
                  fun _ => FailsUnknown.within cB2 ⟨sBf, rfl, hst⟩⟩
          · rename_i hrec
            obtain ⟨k3, c3, t3, e3, hl3, hB3⟩ := ihRHS _ _ _ _ _ tN hp hA
            refine ⟨0 + 1 + k1 + 0 + k3, cA2.andThen c3, t3, cA2.noEof n2 e3, ?_, ?_⟩
            · rw [← cA2.look]
              exact hl3
            intro g sB hg hs ha
            obtain ⟨g1, rfl⟩ : ∃ g1, g = g1 + 1 := ⟨g - 1, by omega⟩
            have cTB := consumed_getTokenPrecedence sB
            have tTB := getTokenPrecedence_tableOK sB hs.2.2
            have cAB := cTB.andThen (consumed_getNextToken _)
            have hcur : sB.currentToken = sA.currentToken := ha.first (by omega)
            have hlowB : ¬ tablePrecedence sB.currentToken < p := by rw [hcur]; exact hlow
            have hsP := hs.after cA cAB (Consumed.tableOK_next tTB)
            have haP := ha.sub (m := k1) cA cAB (by omega)
            obtain ⟨sBx, eBx, cBx, tBx⟩ := hB1 g1 _ (by omega) hsP haP
            have cNB := consumed_getTokenPrecedence sBx
            have tNB := getTokenPrecedence_tableOK sBx tBx
            have cB2 := (cAB.andThen cBx).andThen cNB
            have hs2 := hs.after cA2 cB2 tNB
            rw [parseBinOpRHS_step g1 p lhs rhs sB sBx hs.2.2 hlowB eBx tBx, hcur]
            by_cases hb : tablePrecedence sA.currentToken < tablePrecedence sBx.currentToken
            · rw [if_pos hb]
              have hk3 : k3 = 0 := by
                rcases Nat.eq_zero_or_pos k3 with h0 | hpos
                · exact h0
                · exfalso
                  apply hrec
                  have hxcur : sBx.currentToken = sx.currentToken := by
                    rw [(cAB.andThen cBx).cur_look, (cA.andThen c1).cur_look]
                    exact ha.look_lt (by omega)
                  rw [← hxcur]
                  exact hb
              subst hk3
              have hxl : sBx.currentToken = look (0 + 1 + k1 + 0 + 0) sB :=
                (cAB.andThen cBx).cur_look
              have hxlA : sx.currentToken = look (0 + 1 + k1 + 0 + 0) sA :=
                (cA.andThen c1).cur_look
              rcases ha.2 with he | ⟨hop, hn⟩
              · exfalso
                apply hrec
                rw [hxlA, ← he, ← hxl]
                exact hb
              · have hnp : ¬ tablePrecedence (getTokenPrecedence sBx).2.currentToken
                    < tablePrecedence sA.currentToken + 1 := by
                  rw [(getTokenPrecedence_frame sBx).2.2]
                  omega
                have hn1 : NoPrimary (look 1 (getTokenPrecedence sBx).2) := by
                  rw [cB2.look 1]
                  exact hn
                obtain ⟨sBf, eBf, hst⟩ := parseBinOpRHS_noPrimary g1
                  (tablePrecedence sA.currentToken + 1) rhs (getTokenPrecedence sBx).2
                  (by omega) tNB hnp hn1
                rw [eBf]
                refine ⟨fun hh => ?_, fun _ => FailsUnknown.within cB2 ⟨sBf, rfl, hst⟩⟩
                exfalso
                rw [← hxl] at hh
                omega
            · rw [if_neg hb]
              have ha2 := ha.sub (m := k3) cA2 cB2 (by omega)
              have r3 := hB3 g1 _ (by omega) hs2 ha2
              rw [cB2.look k3] at r3
              exact ⟨fun hh => Returns.later cB2 (r3.1 hh),
                fun hh => FailsUnknown.within cB2 (r3.2 hh)⟩
    · intro sA E sA1 ht h
      rw [parseExpression] at h
      split at h
      · cases h
      · cases h
      · rename_i lhs sx heq
        obtain ⟨k1, hk1, c1, t1, e1, hB1⟩ := ihPrim _ _ _ ht heq
        obtain ⟨k2, c2, t2, e2, hl2, hB2⟩ := ihRHS _ _ _ _ _ t1 (le_refl 0) h
        refine ⟨k1 + k2, by omega, c1.andThen c2, t2, c1.noEof e1 e2, ?_, ?_⟩
        · rw [← c1.look]
          exact hl2
        intro g sB hg hs ha
        obtain ⟨g1, rfl⟩ : ∃ g1, g = g1 + 1 := ⟨g - 1, by omega⟩
        have haP := ha.sub (m := k1) (Consumed.nothing sA) (Consumed.nothing sB) (by omega)
        obtain ⟨sBx, eBx, cBx, tBx⟩ := hB1 g1 _ (by omega) hs haP
        have hs2 := hs.after c1 cBx tBx
        have ha2 := ha.sub (m := k2) c1 cBx (le_refl _)
        have r := hB2 g1 _ (by omega) hs2 ha2
        rw [cBx.look k2] at r
        rw [parseExpression, eBx]
        exact ⟨fun hh => Returns.later cBx (r.1 hh),
          fun hh => FailsUnknown.within cBx (r.2 hh)⟩

/-! ## A failure leaves no tree -/

theorem unread_advance_le (n : Nat) (s : State) : unread (advance n s) ≤ unread s := by
  induction n generalizing s with
  | zero => exact le_refl _
  | succ n ih =>
    rw [advance]
    exact le_trans (ih _) (unread_getNextToken s).1

theorem toks_mem_look {i n : Nat} (s : State) (h : i < n) : look i s ∈ toks n s := by
  obtain ⟨j, rfl⟩ : ∃ j, n = i + 1 + j := ⟨n - (i + 1), by omega⟩
  rw [toks_add, toks_succ_right]
  simp

theorem Consumed.unread {k : Nat} {s s1 : State} (c : Consumed k s s1) :
    LlvmSample.unread s1 = LlvmSample.unread (advance k s) := by
  rw [c]
  rfl

theorem Consumed.not_lt {k j : Nat} {s s1 : State} (c1 : Consumed k s s1)
    (c2 : Consumed j s s1) (e : Token.eof ∉ LlvmSample.toks j s) : ¬ k < j := by
  intro hlt
  obtain ⟨d, rfl⟩ : ∃ d, j = k + (d + 1) := ⟨j - k - 1, by omega⟩
  have hne : (advance k s).currentToken ≠ Token.eof := by
    intro h
    apply e
    have := toks_mem_look s hlt
    rw [LlvmSample.look, h] at this
    exact this
  have h1 := c1.unread
  have h2 := c2.unread
  rw [advance_add, advance] at h2
  have h3 := unread_advance_le d (getNextToken (advance k s))
  have h4 := unread_getNextToken_lt (advance k s) hne
  omega

/-- The number of tokens a call consumed is determined by the states before and after
it, when no end of input is among the tokens. -/
theorem Consumed.unique {k j : Nat} {s s1 : State} (c1 : Consumed k s s1)
    (c2 : Consumed j s s1) (e1 : Token.eof ∉ LlvmSample.toks k s)
    (e2 : Token.eof ∉ LlvmSample.toks j s) : k = j := by
  have h1 := c1.not_lt c2 e2
  have h2 := c2.not_lt c1 e1
  omega

theorem parseCallArgs_next_fails (fuel : Nat) (Args : List ExprAST) (s : State)
    (Arg : ExprAST) (s1 s2 : State) (he : parseExpression fuel s = .returned (some Arg) s1)
    (h1 : s1.currentToken = 44)
    (hr : parseCallArgs fuel (Args ++ [Arg]) (getNextToken s1) = .returned none s2) :
    parseCallArgs (fuel + 1) Args s = .returned none s2 := by
  have h41 : ¬ (s1.currentToken = 41) := by rw [h1]; decide
  rw [parseCallArgs, he]
  simp only [h1, h41, ne_eq, not_true_eq_false, if_false]
  have h44 : ¬ ((44 : Int) = 41) := by decide
  simp only [h44, if_false, hr]

/-- A call that returns `nullptr` makes the call that made it return `nullptr`, in the
same state: no diagnostic is added and no tree is built on the way out. -/
theorem Invokes.returnsNull {outer inner : Call} {s1 : State} (h : Invokes outer inner)
    (hn : inner.returnsNull s1) : outer.returnsNull s1 := by
  cases h with
  | inside fuel s =>
    show parseParenExpr (fuel + 1) s = _
    rw [parseParenExpr, show parseExpression fuel (getNextToken s) = _ from hn]
  | argument fuel Args s =>
    show parseCallArgs (fuel + 1) Args s = _
    rw [parseCallArgs, show parseExpression fuel s = _ from hn]
  | nextArgument fuel Args s Arg sx he h44 =>
    show parseCallArgs (fuel + 1) Args s = _
    exact parseCallArgs_next_fails fuel Args s Arg sx s1 he h44 hn
  | arguments fuel s h40 h41 =>
    show parseIdentifierExpr (fuel + 1) s = _
    have hr : parseCallArgs fuel [] (getNextToken (getNextToken s)) = .returned none s1 := hn
    rw [parseIdentifierExpr]
    simp only [h40, h41, ne_eq, not_true_eq_false, not_false_eq_true, if_true, if_false, hr]
  | identifier fuel s hc =>
    show parsePrimary (fuel + 1) s = _
    rw [parsePrimary]
    simp only [hc, if_true]
    exact hn
  | parenthesis fuel s hc =>
    show parsePrimary (fuel + 1) s = _
    have hd1 : ¬ ((40 : Int) = Token.identifier) := by decide
    have hd2 : ¬ ((40 : Int) = Token.number) := by decide
    rw [parsePrimary]
    simp only [hc, hd1, hd2, if_true, if_false]
    exact hn
  | operand fuel p lhs s hlow =>
    show parseBinOpRHS (fuel + 1) p lhs s = _
    have hr : parsePrimary fuel (getNextToken (getTokenPrecedence s).2) = .returned none s1 :=
      hn
    rw [parseBinOpRHS]
    simp only [hlow, if_false, hr]
  | rightOperand fuel p lhs s rhs sx hlow hp hrec =>
    show parseBinOpRHS (fuel + 1) p lhs s = _
    have hr : parseBinOpRHS fuel ((getTokenPrecedence s).1 + 1) rhs (getTokenPrecedence sx).2
        = .returned none s1 := hn
    rw [parseBinOpRHS]
    simp only [hlow, if_false, hp, hrec, if_true, hr]
  | nextTurnAfterRight fuel p lhs s rhs sx rhs2 s2 hlow hp hrec h2 =>
    show parseBinOpRHS (fuel + 1) p lhs s = _
    have hr : parseBinOpRHS fuel p
        (.BinaryExprAST (getTokenPrecedence s).2.currentToken lhs rhs2) s2
        = .returned none s1 := hn
    rw [parseBinOpRHS]
    simp only [hlow, if_false, hp, hrec, if_true, h2, hr]
  | nextTurn fuel p lhs s rhs sx hlow hp hrec =>
    show parseBinOpRHS (fuel + 1) p lhs s = _
    have hr : parseBinOpRHS fuel p
        (.BinaryExprAST (getTokenPrecedence s).2.currentToken lhs rhs)
        (getTokenPrecedence sx).2 = .returned none s1 := hn
    rw [parseBinOpRHS]
    simp only [hlow, if_false, hp, hrec, hr]
  | first fuel s =>
    show parseExpression (fuel + 1) s = _
    rw [parseExpression, show parsePrimary fuel s = _ from hn]
  | operators fuel s lhs sx hp =>
    show parseExpression (fuel + 1) s = _
    rw [parseExpression, hp]
    exact hn

/-- C14: when `parseExpression` returns the tree of an expression `e` made of `k`
tokens, a run on any input that starts with the same `k` tokens, goes on with a
registered binary operator and then with a token that is not an identifier, not a number
and not `(`, returns `nullptr` and not that tree, whatever the fuel above that of the
first run, and the one line it writes is
`Error: unknown token when expecting an expression`. Such a `k` always exists. A call
that returns `nullptr` makes every call around it, at any depth, return `nullptr` in
the same state. On `1+`, `1+)`, `1+;`, `1+*2`, `1+def`, `(1+)`, `f(1+)`, `f(2, (1+))` and
`1+2*` no tree is returned and that line is the only one written. -/
theorem parseExpression_no_partial_tree :
    (∀ fuel sA E sA1 k, TableOK sA.binaryOperatorsPrecedence →
      parseExpression fuel sA = .returned (some E) sA1 →
      Consumed k sA sA1 → Token.eof ∉ toks k sA →
      ∀ g sB, fuel + 1 ≤ g → TableOK sB.binaryOperatorsPrecedence →
        sB.IdentifierStr = sA.IdentifierStr → sB.NumVal = sA.NumVal →
        toks k sB = toks k sA →
        0 < tablePrecedence (advance k sB).currentToken →
        (advance (k + 1) sB).currentToken ≠ Token.identifier →
        (advance (k + 1) sB).currentToken ≠ Token.number →
        (advance (k + 1) sB).currentToken ≠ 40 →
        ∃ sB1, parseExpression g sB = .returned none sB1 ∧
          sB1.stderr = sB.stderr ++ ["Error: unknown token when expecting an expression\n"]) ∧
    (∀ fuel sA E sA1, TableOK sA.binaryOperatorsPrecedence →
      parseExpression fuel sA = .returned (some E) sA1 →
      ∃ k, 1 ≤ k ∧ Consumed k sA sA1 ∧ Token.eof ∉ toks k sA) ∧
    (∀ outer inner s1, Relation.ReflTransGen Invokes outer inner →
      inner.returnsNull s1 → outer.returnsNull s1) ∧
    (∀ input ∈ ["1+", "1+)", "1+;", "1+*2", "1+def", "(1+)", "f(1+)", "f(2, (1+))", "1+2*"],
      (parseExpression 12 (State.ready (bytes input))).result = some none ∧
      (parseExpression 12 (State.ready (bytes input))).state.map (fun s => s.stderr)
        = some ["Error: unknown token when expecting an expression\n"]) := by
  refine ⟨?_, ?_, ?_, ?_⟩
  · intro fuel sA E sA1 k ht h c e g sB hg htB hi hv hk hop h1 h2 h3
    obtain ⟨k0, _, c0, _, e0, _, hB⟩ := (parse_two_runs fuel).2.2.2.2.2 sA E sA1 ht h
    have hkk : k0 = k := c0.unique c e0 e
    subst hkk
    have hnot : ¬ tablePrecedence (look k0 sB) < 0 := by
      have : 0 < tablePrecedence (look k0 sB) := hop
      omega
    exact (hB g sB hg ⟨hi, hv, htB⟩ ⟨hk, Or.inr ⟨hop, h1, h2, h3⟩⟩).2 hnot
  · intro fuel sA E sA1 ht h
    obtain ⟨k0, hk0, c0, _, e0, _, _⟩ := (parse_two_runs fuel).2.2.2.2.2 sA E sA1 ht h
    exact ⟨k0, hk0, c0, e0⟩
  · intro outer inner s1 h hn
    induction h with
    | refl => exact hn
    | tail _ hstep ih => exact ih (hstep.returnsNull hn)
  · intro input hi
    simp only [List.mem_cons, List.mem_singleton, List.not_mem_nil, or_false] at hi
    rcases hi with rfl | rfl | rfl | rfl | rfl | rfl | rfl | rfl | rfl <;>
      exact ⟨rfl, by decide⟩

theorem parseExpression_no_partial_tree_witness :
    ∃ sB1, parseExpression 9 (State.ready (bytes "1+2*;")) = .returned none sB1 ∧
      sB1.stderr = (State.ready (bytes "1+2*;")).stderr
        ++ ["Error: unknown token when expecting an expression\n"] :=
  parseExpression_no_partial_tree.1 8 (State.ready (bytes "1+2"))
    (.BinaryExprAST 43 (.NumberExprAST ⟨0, 0⟩) (.NumberExprAST ⟨0, 0⟩))
    (advance 3 (State.ready (bytes "1+2"))) 3
    (installOperators_tableOK _ rfl) rfl rfl (by decide)
    9 (State.ready (bytes "1+2*;")) (by decide) (installOperators_tableOK _ rfl) rfl rfl
    (by decide) (by decide) (by decide) (by decide) (by decide)

end LlvmSample
